import Mathlib

/-!
Verification of the ReGraph graph-hierarchy engine against its specification.

The development shallowly embeds the hierarchy data model and the operations of
`regraph/hierarchies.py` (and the `bfs_tree` of `regraph/neo4j/hierarchies.py`).
Graph ids, node ids and attribute values are strings.  Python dictionaries are
modelled as association lists in insertion order: lookup returns the first
matching key, assignment replaces in place or appends, and `dict.update`
folds assignments.  Python exceptions are modelled by an `Except` monad over a
small inductive of error kinds (the error messages of the source are elided,
only the exception class is tracked).  Operations of the repository that are
not under src/ (the in-memory storage backend, `regraph.category_utils`,
`regraph.rules`, `regraph.utils`) are modelled from the spec; each such
definition carries a doc comment saying so.
-/

namespace ReGraph

/-- Lookup in a Python-style dictionary (association list): first match wins. -/
def lookupA {α : Type} (m : List (String × α)) (k : String) : Option α :=
  match m with
  | [] => none
  | (k₁, v) :: rest => if k₁ = k then some v else lookupA rest k

/-- Python dictionary assignment `d[k] = v`: replace in place, else append. -/
def insertA {α : Type} (m : List (String × α)) (k : String) (v : α) :
    List (String × α) :=
  match m with
  | [] => [(k, v)]
  | (k₁, v₁) :: rest =>
    if k₁ = k then (k₁, v) :: rest else (k₁, v₁) :: insertA rest k v

/-- Python `d.update(d₂)`: assign every binding of `d₂` into `d`. -/
def updateA {α : Type} (m m₂ : List (String × α)) : List (String × α) :=
  m₂.foldl (fun acc p => insertA acc p.1 p.2) m

/-- Keys of a Python-style dictionary, in insertion order. -/
def keysOf {α : Type} (m : List (String × α)) : List String :=
  m.map (·.1)

/-- Python set equality for sets represented as lists. -/
def eqAsSet (a b : List String) : Bool :=
  a.all (fun x => b.contains x) && b.all (fun x => a.contains x)

/-- Python `issubset` for sets represented as lists. -/
def subsetB (a b : List String) : Bool :=
  a.all (fun x => b.contains x)

/-- Python set construction from a list: keep the first occurrence of each
element (membership, size and set equality are all that the code uses). -/
def dedupS (l : List String) : List String :=
  match l with
  | [] => []
  | x :: rest => if rest.contains x then dedupS rest else x :: dedupS rest

/-- Boolean no-duplicates test on a list of strings. -/
def nodupB (l : List String) : Bool :=
  match l with
  | [] => true
  | x :: rest => !(rest.contains x) && nodupB rest

/-- Modelled from the spec: `keys_by_value` of `regraph.utils` (not under
src/): the list of keys of a dictionary mapped to the given value. -/
def keysByValue (m : List (String × String)) (v : String) : List String :=
  m.filterMap (fun kv => if kv.2 = v then some kv.1 else none)

/-- Attribute dictionary: attribute name to set of values (spec §3). -/
abbrev Attrs := List (String × List String)

/-- Node mapping between graphs, a Python dictionary node id → node id. -/
abbrev Mapping := List (String × String)

/-- Modelled from the spec: `compose` of `regraph.category_utils` (not under
src/): `compose(h1, h2) = {k: h2[h1[k]]}`.  Keys whose image has no entry in
the second map are dropped (the source would raise `KeyError`; on the total
homomorphisms the hierarchy stores this never happens). -/
def composeM (f g : Mapping) : Mapping :=
  f.filterMap (fun kv => (lookupA g kv.2).map (fun w => (kv.1, w)))

/-- Attributed directed graph: nodes and edges with attribute dictionaries
(spec §3); the node and edge lists are kept in insertion order. -/
structure Graph where
  nodes : List (String × Attrs)
  edges : List (String × String × Attrs)
deriving DecidableEq, Repr

/-- Node ids of a graph. -/
def Graph.nodeIds (g : Graph) : List String :=
  g.nodes.map (·.1)

/-- Attributes of a node of a graph. -/
def Graph.nodeAttrs (g : Graph) (n : String) : Option Attrs :=
  lookupA g.nodes n

/-- Lookup of an edge in an edge list (first matching edge). -/
def edgeLookup (l : List (String × String × Attrs)) (s t : String) : Option Attrs :=
  match l with
  | [] => none
  | (u, v, a) :: rest => if u = s ∧ v = t then some a else edgeLookup rest s t

/-- Attributes of an edge of a graph (first matching edge). -/
def Graph.edgeAttrs (g : Graph) (s t : String) : Option Attrs :=
  edgeLookup g.edges s t

/-- Inclusion of value sets. -/
def valuesIncl (a b : List String) : Bool :=
  a.all (fun x => b.contains x)

/-- Inclusion of attribute dictionaries: every value of every attribute of the
first is present in the second (spec §3, "attribute ⊆"). -/
def attrsIncl (a b : Attrs) : Bool :=
  a.all (fun kv => valuesIncl kv.2 ((lookupA b kv.1).getD []))

/-- Graph stored at a node of the hierarchy, with its id and attributes. -/
structure HGraph where
  id : String
  graph : Graph
  attrs : Attrs
deriving DecidableEq, Repr

/-- Typing edge of the hierarchy: a homomorphism between two graphs. -/
structure HTyping where
  source : String
  target : String
  mapping : Mapping
  attrs : Attrs
deriving DecidableEq, Repr

/-- Relation edge of the hierarchy: a binary symmetric relation, stored once
per unordered pair as a dictionary left-node → set of right-nodes (spec §3). -/
structure HRel where
  left : String
  right : String
  rel : List (String × List String)
  attrs : Attrs
deriving DecidableEq, Repr

/-- Hierarchy: graphs, typing edges and relations, in insertion order
(spec §3, the 4-tuple ⟨𝒢, 𝒯, ℛ, 𝒜⟩ with attributes stored inline). -/
structure Hierarchy where
  graphs : List HGraph
  typings : List HTyping
  relations : List HRel
deriving DecidableEq, Repr

/-- Ids of the graphs of the hierarchy (`Hierarchy.graphs`). -/
def graphIds (h : Hierarchy) : List String :=
  h.graphs.map (·.id)

/-- Modelled from the spec: the in-memory `get_graph` (backend not under
src/): the graph stored under an id. -/
def getGraph (h : Hierarchy) (gid : String) : Option Graph :=
  (h.graphs.find? (fun g => g.id = gid)).map (·.graph)

/-- Modelled from the spec: the in-memory `get_graph_attrs`. -/
def getGraphAttrs (h : Hierarchy) (gid : String) : Option Attrs :=
  (h.graphs.find? (fun g => g.id = gid)).map (·.attrs)

/-- Modelled from the spec: the in-memory `get_typing`: the node mapping of
the typing edge between two graphs. -/
def getTyping (h : Hierarchy) (s t : String) : Option Mapping :=
  (h.typings.find? (fun e => e.source = s ∧ e.target = t)).map (·.mapping)

/-- Modelled from the spec: the in-memory `get_typing_attrs`. -/
def getTypingAttrs (h : Hierarchy) (s t : String) : Option Attrs :=
  (h.typings.find? (fun e => e.source = s ∧ e.target = t)).map (·.attrs)

/-- Typing edges as ordered pairs (the `edges()` view of the hierarchy used by
`__eq__`; the in-memory backend is not under src/, modelled from the spec). -/
def edgePairs (h : Hierarchy) : List (String × String) :=
  h.typings.map (fun e => (e.source, e.target))

/-- Relation edges as stored pairs (`Hierarchy.relations`). -/
def relationPairs (h : Hierarchy) : List (String × String) :=
  h.relations.map (fun r => (r.left, r.right))

/-- Transpose of a relation dictionary (derives the symmetric view). -/
def transposeRel (r : List (String × List String)) : List (String × List String) :=
  (dedupS (r.foldl (fun acc kv => acc ++ kv.2) [])).map
    (fun b => (b, r.filterMap (fun kv => if kv.2.contains b then some kv.1 else none)))

/-- Modelled from the spec: the in-memory `get_relation`: the relation between
two graphs; when it is stored in the opposite orientation the symmetric view
is derived (spec §3). -/
def getRelation (h : Hierarchy) (l r : String) : Option (List (String × List String)) :=
  match h.relations.find? (fun e => e.left = l ∧ e.right = r) with
  | some e => some e.rel
  | none => (h.relations.find? (fun e => e.left = r ∧ e.right = l)).map
      (fun e => transposeRel e.rel)

/-- Modelled from the spec: the in-memory `get_relation_attrs` (symmetric). -/
def getRelationAttrs (h : Hierarchy) (l r : String) : Option Attrs :=
  match h.relations.find? (fun e => e.left = l ∧ e.right = r) with
  | some e => some e.attrs
  | none => (h.relations.find? (fun e => e.left = r ∧ e.right = l)).map (·.attrs)

/-- Modelled from the spec: the in-memory `successors`: targets of the typing
edges out of a graph. -/
def successors (h : Hierarchy) (gid : String) : List String :=
  h.typings.filterMap (fun e => if e.source = gid then some e.target else none)

/-- Modelled from the spec: the in-memory `predecessors`: sources of the
typing edges into a graph. -/
def predecessors (h : Hierarchy) (gid : String) : List String :=
  h.typings.filterMap (fun e => if e.target = gid then some e.source else none)

/-- Modelled from the spec: `in_edges` of the in-memory backend: the typing
edges into a graph as `(source, target)` pairs. -/
def inEdges (h : Hierarchy) (gid : String) : List (String × String) :=
  h.typings.filterMap (fun e => if e.target = gid then some (e.source, e.target) else none)

/-- Modelled from the spec: `out_edges` of the in-memory backend. -/
def outEdges (h : Hierarchy) (gid : String) : List (String × String) :=
  h.typings.filterMap (fun e => if e.source = gid then some (e.source, e.target) else none)

/-- Kind of exception raised by the engine; messages of the source are
elided, only the exception class (spec §7) or built-in Python error kind is
kept. -/
inductive Err where
  | hierarchyErr
  | invalidHomErr
  | rewritingErr
  | reGraphErr
  | keyErr
  | valueErr
  | typeErr
  | indexErr
deriving DecidableEq, Repr

/-- Sequential `for` loop raising through `Except`. -/
def forEachE {α : Type} (f : α → Except Err Unit) : List α → Except Err Unit
  | [] => .ok ()
  | x :: xs =>
    match f x with
    | .ok _ => forEachE f xs
    | .error e => .error e

/-- Sequential fold raising through `Except`. -/
def foldE {σ α : Type} (f : σ → α → Except Err σ) (s : σ) : List α → Except Err σ
  | [] => .ok s
  | x :: xs =>
    match f s x with
    | .ok s' => foldE f s' xs
    | .error e => .error e

/-- Sequential map raising through `Except`. -/
def mapME {α β : Type} (f : α → Except Err β) : List α → Except Err (List β)
  | [] => .ok []
  | x :: xs =>
    match f x with
    | .ok y =>
      match mapME f xs with
      | .ok ys => .ok (y :: ys)
      | .error e => .error e
    | .error e => .error e

/-- Fetch a graph, raising `HierarchyError` when absent (the behaviour of
`get_graph` on a missing id). -/
def getGraphE (h : Hierarchy) (gid : String) : Except Err Graph :=
  match getGraph h gid with
  | some g => .ok g
  | none => .error .hierarchyErr

/-- Hierarchy equality test, translated from `Hierarchy.__eq__`
(`regraph/hierarchies.py:648-669`): every graph of the left hierarchy must
occur in the right with equal attributes, every typing edge must occur with
equal attributes, and every relation must occur in either orientation with
equal attributes.  Nothing of the right hierarchy is inspected beyond these
lookups. -/
def hierEq (a b : Hierarchy) : Bool :=
  a.graphs.all (fun g =>
    (graphIds b).contains g.id && (getGraphAttrs b g.id == some g.attrs)) &&
  a.typings.all (fun t =>
    (edgePairs b).contains (t.source, t.target) &&
      (getTypingAttrs b t.source t.target == some t.attrs)) &&
  a.relations.all (fun r =>
    ((relationPairs b).contains (r.left, r.right) ||
      (relationPairs b).contains (r.right, r.left)) &&
      (getRelationAttrs b r.left r.right == some r.attrs))

/-- Modelled from the spec: a rewriting rule of `regraph.rules` (not under
src/): a span `L ← P → R` of graphs with homomorphisms `p_lhs : P → L` and
`p_rhs : P → R` (spec §3). -/
structure Rule where
  lhs : Graph
  p : Graph
  rhs : Graph
  p_lhs : Mapping
  p_rhs : Mapping
deriving DecidableEq, Repr

/-- Modelled from the spec: `Rule.added_nodes` (not under src/): the nodes of
the right-hand side not reached from the interface (spec §3). -/
def Rule.addedNodes (r : Rule) : List String :=
  r.rhs.nodeIds.filter (fun n => !((r.p_rhs.map (·.2)).contains n))

/-- Modelled from the spec: `check_homomorphism` of `regraph.category_utils`
(not under src/): a total homomorphism maps every source node to a target
node, preserves every edge and satisfies attribute inclusion on nodes and
edges (spec §3). -/
def checkHomB (src tgt : Graph) (m : Mapping) : Bool :=
  src.nodes.all (fun nv =>
    match lookupA m nv.1 with
    | some w => tgt.nodeIds.contains w && attrsIncl nv.2 ((tgt.nodeAttrs w).getD [])
    | none => false) &&
  src.edges.all (fun e =>
    match lookupA m e.1, lookupA m e.2.1 with
    | some u, some v =>
      match tgt.edgeAttrs u v with
      | some ea => attrsIncl e.2.2 ea
      | none => false
    | _, _ => false)

/-- Modelled from the spec: `is_monic` of `regraph.category_utils` (not under
src/): no two keys of the mapping share an image. -/
def isMonicB (m : Mapping) : Bool :=
  nodupB (m.map (·.2))

/-- Composition of the typing homomorphisms along the tail of a path,
auxiliary to `composePathTyping`. -/
def composePathGo (h : Hierarchy) (acc : Mapping) (prev : String) :
    List String → Mapping
  | [] => acc
  | u :: rest => composePathGo h (composeM acc ((getTyping h prev u).getD [])) u rest

/-- Composition of homomorphisms along a path of the hierarchy, translated
from `compose_path_typing` (`regraph/hierarchies.py:934-972`).  The source
indexes `path[0]` and `path[1]` and raises when the typing of a pair of
consecutive nodes is absent; the embedding returns the empty mapping in those
cases (it is only applied to actual paths). -/
def composePathTyping (h : Hierarchy) : List String → Mapping
  | s :: t :: rest => composePathGo h ((getTyping h s t).getD []) t rest
  | _ => []

/-- Ancestors of a graph with their composed typings, translated from
`get_ancestors` (`regraph/hierarchies.py:900-915`).  The recursion of the
source is modelled with a fuel parameter; on hierarchies satisfying the DAG
invariant the fuel `typings.length + 1` used by `getAncestors` is never
exhausted, matching the source exactly. -/
def getAncestorsF (h : Hierarchy) : Nat → String → List (String × Mapping)
  | 0, _ => []
  | fuel+1, g =>
    (inEdges h g).foldl
      (fun ancestors pe =>
        let pred := pe.1
        let typing := (getTyping h pred g).getD []
        let predAncestors := getAncestorsF h fuel pred
        let ancestors₁ :=
          if (lookupA ancestors pred).isSome then updateA ancestors predAncestors
          else insertA ancestors pred typing
        predAncestors.foldl
          (fun acc av =>
            match lookupA acc av.1 with
            | some cur => insertA acc av.1 (updateA cur (composeM av.2 typing))
            | none => insertA acc av.1 (composeM av.2 typing))
          ancestors₁)
      []

/-- The `get_ancestors` entry point (fuel instantiated, see `getAncestorsF`). -/
def getAncestors (h : Hierarchy) (g : String) : List (String × Mapping) :=
  getAncestorsF h (h.typings.length + 1) g

/-- Descendants of a graph with their composed typings, translated from
`get_descendants` (`regraph/hierarchies.py:917-932`), with fuel as in
`getAncestorsF`. -/
def getDescendantsF (h : Hierarchy) : Nat → String → List (String × Mapping)
  | 0, _ => []
  | fuel+1, g =>
    (outEdges h g).foldl
      (fun descendants pe =>
        let suc := pe.2
        let mapping := (getTyping h g suc).getD []
        let sucDescendants := getDescendantsF h fuel suc
        let descendants₁ :=
          match lookupA descendants suc with
          | some cur => insertA descendants suc (updateA cur mapping)
          | none => insertA descendants suc mapping
        sucDescendants.foldl
          (fun acc av =>
            match lookupA acc av.1 with
            | some cur => insertA acc av.1 (updateA cur (composeM mapping av.2))
            | none => insertA acc av.1 (composeM mapping av.2))
          descendants₁)
      []

/-- The `get_descendants` entry point (fuel instantiated). -/
def getDescendants (h : Hierarchy) (g : String) : List (String × Mapping) :=
  getDescendantsF h (h.typings.length + 1) g

/-- Neighbours of a graph in the direction of a BFS walk. -/
def nbrs (h : Hierarchy) (rev : Bool) (g : String) : List String :=
  if rev then predecessors h g else successors h g

/-- Loop body of `bfs_tree`, translated from
`regraph/neo4j/hierarchies.py:595-609`: each level collects, for every graph
of the current level, its neighbours not yet in the accumulated result; the
result is extended only after the whole level is collected, so the filter
does not see nodes collected within the same level.  The `while` loop is
modelled with fuel; on a hierarchy satisfying the DAG invariant the fuel
passed by `bfsTree` is never exhausted. -/
def levelNext (h : Hierarchy) (rev : Bool)
    (result current : List String) : List String :=
  current.foldl
    (fun acc g => acc ++ (nbrs h rev g).filter (fun p => !(result.contains p))) []

/-- The fuelled `while current:` loop itself; `levelNext` is the body of
line 598-606 (the filter consults only the result accumulated before the
level started). -/
def bfsLoop (h : Hierarchy) (rev : Bool) :
    Nat → List String → List String → List String
  | 0, result, _ => result
  | fuel+1, result, current =>
    if current.isEmpty then result
    else bfsLoop h rev fuel
      (result ++ levelNext h rev result current) (levelNext h rev result current)

/-- BFS enumeration from a graph, translated from `Neo4jHierarchy.bfs_tree`
(`regraph/neo4j/hierarchies.py:586-610`): the start graph, then its
neighbour level unfiltered, then the filtered levels of `bfsLoop`. -/
def bfsTree (h : Hierarchy) (graph : String) (rev : Bool) : List String :=
  let current := nbrs h rev graph
  bfsLoop h rev (h.graphs.length + 1) (graph :: current) current

/-- Control relation (`p_typing` or `rhs_typing`): graph id → node id → set
of nodes, sets represented as lists. -/
abbrev TypingRel := List (String × List (String × List String))

/-- Unwrap an option, raising the given error kind when absent (Python raises
`KeyError` on a missing dictionary key, `HierarchyError` on a missing typing
edge). -/
def orErr {α : Type} (e : Err) : Option α → Except Err α
  | some a => .ok a
  | none => .error e

/-- Modelled from the spec: `normalize_typing_relation` of `regraph.utils`
(not under src/) brings a user-supplied control relation to the shape
graph id → node → set of nodes; the embedding takes inputs already in this
shape, so normalization is the identity. -/
def normalizeTypingRelation (t : TypingRel) : TypingRel := t

/-- Default instance when `None` is passed: the identity on the nodes of the
left-hand side (`regraph/hierarchies.py:1643-1646`). -/
def normalizeInstanceArg (rule : Rule) (inst? : Option Mapping) : Mapping :=
  match inst? with
  | some i => i
  | none => rule.lhs.nodeIds.map (fun n => (n, n))

/-- Stage 0, instance validity (`regraph/hierarchies.py:1657-1674`): the
instance must be a total homomorphism (failure of `check_homomorphism` is
re-raised as `RewritingError`) and a mono. -/
def checkInstanceValid (h : Hierarchy) (originId : String) (rule : Rule)
    (inst : Mapping) : Except Err Unit := do
  let g ← getGraphE h originId
  if checkHomB rule.lhs g inst then
    if isMonicB inst then pure () else throw Err.rewritingErr
  else throw Err.rewritingErr

/-- Stage 0, `p_typing` re-typing check (`regraph/hierarchies.py:1676-1689`):
for every constrained node, the stored typing into the origin must send it to
the image under the instance of the L-image of every designated interface
node. -/
def pTypingRetype (h : Hierarchy) (originId : String) (rule : Rule)
    (inst : Mapping) (pt : TypingRel) : Except Err Unit :=
  forEachE (fun gt => do
      let graphToOrigin ← orErr .hierarchyErr (getTyping h gt.1 originId)
      forEachE (fun kv =>
          forEachE (fun vv => do
              let a ← orErr .keyErr (lookupA graphToOrigin kv.1)
              let l ← orErr .keyErr (lookupA rule.p_lhs vv)
              let b ← orErr .keyErr (lookupA inst l)
              if a ≠ b then throw Err.rewritingErr else pure ())
            kv.2)
        gt.2)
    pt

/-- Stage 0, `p_typing` composability check
(`regraph/hierarchies.py:1691-1743`).  For every constrained graph: every
predecessor without its own entry triggers the canonicity test, whose flag
`canonical` is initialized to `False` and — as in the source, line 1703 —
set to `False` again when the entry is canonical, so the predecessor branch
always raises `RewritingError` (after possibly raising `KeyError` while
computing the canonical clones); every successor with an entry must be
assigned a superset of the interface nodes. -/
def pTypingComposability (h : Hierarchy) (rule : Rule) (pt : TypingRel) :
    Except Err Unit :=
  forEachE (fun gt => do
      forEachE (fun pred =>
          if (lookupA pt pred).isSome then pure ()
          else do
            let canonical ← foldE (fun c gn =>
                match gn.2 with
                | [] => pure c
                | v₀ :: _ => do
                  let lhsN ← orErr .keyErr (lookupA rule.p_lhs v₀)
                  let canonicalClones := keysByValue rule.p_lhs lhsN
                  if eqAsSet gn.2 canonicalClones then pure false else pure c)
              false gt.2
            if !canonical then throw Err.rewritingErr else pure ())
        (predecessors h gt.1)
      forEachE (fun suc => do
          let sucTyping ← orErr .hierarchyErr (getTyping h gt.1 suc)
          forEachE (fun gn => do
              let sucN ← orErr .keyErr (lookupA sucTyping gn.1)
              match lookupA pt suc with
              | some sucT =>
                match lookupA sucT sucN with
                | some sucPNodes =>
                  if !(subsetB gn.2 sucPNodes) then throw Err.rewritingErr
                  else pure ()
                | none => pure ()
              | none => pure ())
            gt.2)
        (successors h gt.1))
    pt

/-- Stage 0, `rhs_typing` auto-completion
(`regraph/hierarchies.py:1745-1791`).  For every graph of the relation and
every descendant of it: a descendant without an entry receives the composed
entry in `new_rhs_typing`; a descendant with an entry is checked for
composability node by node, missing right-hand-side nodes being filled in
both `new_rhs_typing` and — through the aliasing of the two dictionary
values in the source, lines 1784-1788 — the entry of `rhs_typing` itself;
finally `new_rhs_typing` is merged into `rhs_typing` (lines 1790-1791). -/
def autocompleteRhs (h : Hierarchy) (rt₀ : TypingRel) : Except Err TypingRel := do
  let st ← foldE (fun (st : TypingRel × TypingRel) gid => do
      let typing := (lookupA st.2 gid).getD []
      foldE (fun (st' : TypingRel × TypingRel) dv => do
          let desc := dv.1
          let descTyping := dv.2
          match lookupA st'.2 desc with
          | none => do
            let entry ← mapME (fun rv => do
                let s ← mapME (fun gn => orErr .keyErr (lookupA descTyping gn)) rv.2
                pure (rv.1, dedupS s)) typing
            pure (insertA st'.1 desc entry, st'.2)
          | some _ =>
            foldE (fun (st'' : TypingRel × TypingRel) rv => do
                let descRT := (lookupA st''.2 desc).getD []
                match lookupA descRT rv.1 with
                | some descNs => do
                  forEachE (fun gn => do
                      let x ← orErr .keyErr (lookupA descTyping gn)
                      if descNs.contains x then pure () else throw Err.rewritingErr)
                    rv.2
                  pure st''
                | none => do
                  let s ← mapME (fun gn => orErr .keyErr (lookupA descTyping gn)) rv.2
                  let descRT' := insertA descRT rv.1 (dedupS s)
                  pure (insertA st''.1 desc descRT', insertA st''.2 desc descRT'))
              st' typing)
        st (getDescendants h gid))
    (([], rt₀) : TypingRel × TypingRel) (keysOf rt₀)
  pure (st.1.foldl (fun rt gt => insertA rt gt.1 gt.2) st.2)

/-- Stage 0, `rhs_typing` re-typing check
(`regraph/hierarchies.py:1793-1810`): for every right-hand-side node with
interface preimages, the designated set must equal the set of images of the
preimages through the instance and the typing of the origin by the graph. -/
def rhsTypingRetype (h : Hierarchy) (originId : String) (rule : Rule)
    (inst : Mapping) (rt : TypingRel) : Except Err Unit :=
  forEachE (fun gt => do
      let originToGraph ← orErr .hierarchyErr (getTyping h originId gt.1)
      forEachE (fun kv => do
          let pNodes := keysByValue rule.p_rhs kv.1
          if pNodes ≠ [] then do
            let graphNodes ← mapME (fun pn => do
                let l ← orErr .keyErr (lookupA rule.p_lhs pn)
                let i ← orErr .keyErr (lookupA inst l)
                orErr .keyErr (lookupA originToGraph i)) pNodes
            if !(eqAsSet (dedupS graphNodes) kv.2) then throw Err.rewritingErr
            else pure ()
          else pure ())
        gt.2)
    rt

/-- Check of one descendant in the strict-mode check: its `rhs_typing` entry
must exist and assign a singleton to every added right-hand-side node
(`regraph/hierarchies.py:1816-1831`). -/
def strictCheckDesc (rule : Rule) (rt : TypingRel) (desc : String) :
    Except Err Unit :=
  match lookupA rt desc with
  | none => throw Err.rewritingErr
  | some dt =>
    forEachE (fun rhsN =>
        match lookupA dt rhsN with
        | none => throw Err.rewritingErr
        | some s => if s.length ≠ 1 then throw Err.rewritingErr else pure ())
      rule.addedNodes

/-- Stage 0, strict-mode check (`regraph/hierarchies.py:1812-1831`): when the
rule adds nodes, every descendant of the origin must pass
`strictCheckDesc`. -/
def strictCheck (h : Hierarchy) (originId : String) (rule : Rule)
    (rt : TypingRel) : Except Err Unit :=
  if rule.addedNodes ≠ [] then
    forEachE (strictCheckDesc rule rt) (keysOf (getDescendants h originId))
  else pure ()

/-- Normalization of an optional control relation
(`regraph/hierarchies.py:1648-1655`): `None` becomes the empty dictionary,
anything else is normalized. -/
def optRel (t? : Option TypingRel) : TypingRel :=
  match t? with
  | none => []
  | some p => normalizeTypingRelation p

/-- All the non-strict phases of `_check_rule_instance_typing`
(`regraph/hierarchies.py:1640-1810`), in source order, returning the
normalized instance and control relations. -/
def checkMain (h : Hierarchy) (originId : String) (rule : Rule)
    (inst? : Option Mapping) (pt? rt? : Option TypingRel) :
    Except Err (Mapping × TypingRel × TypingRel) :=
  (checkInstanceValid h originId rule (normalizeInstanceArg rule inst?)) >>= fun _ =>
  (pTypingRetype h originId rule (normalizeInstanceArg rule inst?) (optRel pt?)) >>= fun _ =>
  (pTypingComposability h rule (optRel pt?)) >>= fun _ =>
  (autocompleteRhs h (optRel rt?)) >>= fun rt' =>
  (rhsTypingRetype h originId rule (normalizeInstanceArg rule inst?) rt') >>= fun _ =>
  pure (normalizeInstanceArg rule inst?, optRel pt?, rt')

/-- The full `_check_rule_instance_typing`
(`regraph/hierarchies.py:1640-1833`): the non-strict phases followed, when
`strict` holds, by the strict-mode check. -/
def checkRuleInstanceTyping (h : Hierarchy) (originId : String) (rule : Rule)
    (inst? : Option Mapping) (pt? rt? : Option TypingRel) (strict : Bool) :
    Except Err (Mapping × TypingRel × TypingRel) :=
  (checkMain h originId rule inst? pt? rt?) >>= fun r =>
  if strict then (strictCheck h originId rule r.2.2) >>= fun _ => pure r
  else pure r

/-- The four mutating stages of `rewrite` — `_restrictive_rewrite`,
`_propagate_backward`, `_expansive_rewrite`, `_propagate_forward` — are
abstract methods of the `Hierarchy` class (`regraph/hierarchies.py:398-416`
and 1835-1963, to be provided by a backend); `rewrite` is therefore
parametrized over them. -/
structure RewriteStages where
  restrictive : Hierarchy → String → Rule → Mapping →
    Except Err (Hierarchy × Mapping × Mapping)
  backward : Hierarchy → String → Rule → Mapping → Mapping → Mapping →
    TypingRel → Except Err Hierarchy
  expansive : Hierarchy → String → Rule → Mapping →
    Except Err (Hierarchy × Mapping × Mapping)
  forward : Hierarchy → String → Rule → Mapping → Mapping → Mapping →
    Mapping → TypingRel → Except Err Hierarchy

/-- The `rewrite` pipeline (`regraph/hierarchies.py:1566-1638`): Stage 0
type-checks the rule, instance and control relations before any mutation;
the four mutating stages run only when it succeeds, so an error of Stage 0
leaves the hierarchy untouched. -/
def rewrite (st : RewriteStages) (h : Hierarchy) (graphId : String)
    (rule : Rule) (inst? : Option Mapping) (pt? rt? : Option TypingRel)
    (strict : Bool) : Except Err (Hierarchy × Mapping) :=
  (checkRuleInstanceTyping h graphId rule inst? pt? rt? strict) >>= fun r =>
  (st.restrictive h graphId rule r.1) >>= fun a =>
  (st.backward a.1 graphId rule r.1 a.2.1 a.2.2 r.2.1) >>= fun h₂ =>
  (st.expansive h₂ graphId rule a.2.1) >>= fun b =>
  (st.forward b.1 graphId rule r.1 a.2.1 b.2.1 b.2.2 r.2.2) >>= fun h₄ =>
  pure (h₄, b.2.1)

/-- Extensional comparison of two mappings on a list of nodes. -/
def mapEqOn (dom : List String) (m₁ m₂ : Mapping) : Bool :=
  dom.all (fun n => lookupA m₁ n == lookupA m₂ n)

/-- Enumeration of the paths (with at least one edge) from a vertex to the
target `t`, bounded by fuel; on hierarchies satisfying the DAG invariant the
fuel `graphs.length + 1` used by `simplePaths` enumerates every path. -/
def spAux (h : Hierarchy) (t : String) : Nat → String → List (List String)
  | 0, _ => []
  | fuel+1, v =>
    (successors h v).foldr (fun w acc =>
        (if w = t then [[v, t]] else []) ++
        ((spAux h t fuel w).map (fun π => v :: π)) ++ acc) []

/-- All paths from `s` to `t` along typing edges (≥ 1 edge). -/
def simplePaths (h : Hierarchy) (s t : String) : List (List String) :=
  spAux h t (h.graphs.length + 1) s

/-- Modelled from the spec: `add_graph_from_data` of the in-memory backend
(not under src/): fails with `HierarchyError` on a duplicate id (spec §4.2),
otherwise stores the new graph. -/
def add_graph_from_data (h : Hierarchy) (gid : String)
    (nodeList : List (String × Attrs)) (edgeList : List (String × String × Attrs))
    (attrs : Attrs) : Except Err Hierarchy :=
  if (graphIds h).contains gid then .error .hierarchyErr
  else .ok { h with graphs := h.graphs ++ [⟨gid, ⟨nodeList, edgeList⟩, attrs⟩] }

/-- Modelled from the spec: `add_typing` of the in-memory backend (not under
src/), following the edge-addition acceptance algorithm of spec §4.2: the
graphs must exist, the ordered pair must be fresh, the mapping must be a
valid homomorphism (`InvalidHomomorphism` otherwise), the new edge must not
close a cycle (reverse reachability from the target to the source), and
every existing path between the two graphs must compose to the new mapping
on the source nodes. -/
def add_typing (h : Hierarchy) (s t : String) (mapping : Mapping)
    (attrs : Attrs) : Except Err Hierarchy :=
  match getGraph h s, getGraph h t with
  | some gs, some _gt =>
    if (getTyping h s t).isSome then .error .hierarchyErr
    else if !(checkHomB gs _gt mapping) then .error .invalidHomErr
    else if s = t || !(simplePaths h t s).isEmpty then .error .hierarchyErr
    else if !((simplePaths h s t).all (fun π =>
        mapEqOn gs.nodeIds (composePathTyping h π) mapping)) then
      .error .hierarchyErr
    else .ok { h with typings := h.typings ++ [⟨s, t, mapping, attrs⟩] }
  | _, _ => .error .hierarchyErr

/-- Modelled from the spec: `add_relation` of the in-memory backend (not
under src/): both graphs must exist, no relation may exist between the pair
in either orientation, and every node id of the relation must be in range
(spec §4.2). -/
def add_relation (h : Hierarchy) (l r : String)
    (rel : List (String × List String)) (attrs : Attrs) : Except Err Hierarchy :=
  match getGraph h l, getGraph h r with
  | some gl, some gr =>
    if (relationPairs h).contains (l, r) || (relationPairs h).contains (r, l) then
      .error .hierarchyErr
    else if !(rel.all (fun kv =>
        gl.nodeIds.contains kv.1 && kv.2.all (fun v => gr.nodeIds.contains v))) then
      .error .hierarchyErr
    else .ok { h with relations := h.relations ++ [⟨l, r, rel, attrs⟩] }
  | _, _ => .error .hierarchyErr

/-- Related graphs of a graph, translated from `adjacent_relations`
(`regraph/hierarchies.py:871-880`); only the stored orientation is
inspected, as in the source.  The missing-graph check of the source is left
to the callers, which access the graph first. -/
def adjacentRelations (h : Hierarchy) (g : String) : List String :=
  (relationPairs h).filterMap (fun lr => if lr.1 = g then some lr.2 else none)

/-- Re-attachment of one graph while copying
(`regraph/neo4j/hierarchies.py:664-670`): the typing in whichever direction
it existed, and the adjacent relation. -/
def copyAttachStep (gid newId : String) (h : Hierarchy) (a : String) :
    Except Err Hierarchy :=
  (if (successors h gid).contains a then
      add_typing h newId a ((getTyping h gid a).getD []) [] else pure h) >>= fun h =>
  (if (predecessors h gid).contains a then
      add_typing h a newId ((getTyping h a gid).getD []) [] else pure h) >>= fun h =>
  if (adjacentRelations h gid).contains a then
    add_relation h a newId ((getRelation h a gid).getD []) []
  else pure h

/-- Copy of a graph together with selected typings and relations, translated
from `Neo4jHierarchy.copy_graph` (`regraph/neo4j/hierarchies.py:641-670`):
fails when the new id exists; copies the graph with its attributes; then, for
each graph of `attach`, copies the typing edge in whichever direction it
existed and the adjacent relation. -/
def copy_graph (h : Hierarchy) (gid newId : String) (attach : List String) :
    Except Err Hierarchy :=
  (if (graphIds h).contains newId then throw Err.hierarchyErr else pure ()) >>= fun _ =>
  (getGraphE h gid) >>= fun g =>
  (orErr .hierarchyErr (getGraphAttrs h gid)) >>= fun attrs =>
  (add_graph_from_data h newId g.nodes g.edges attrs) >>= fun h₁ =>
  foldE (copyAttachStep gid newId) h₁ attach

/-- Copy of one typing edge `g → s` between duplicates, with the visited
pair recorded (`regraph/hierarchies.py:1493-1497`). -/
def dupTypingStepSuc (graphDict : List (String × String)) (g : String)
    (st : Hierarchy × List (String × String)) (s : String) :
    Except Err (Hierarchy × List (String × String)) :=
  (add_typing st.1 ((lookupA graphDict g).getD g) ((lookupA graphDict s).getD s)
    ((getTyping st.1 g s).getD []) []) >>= fun h' => pure (h', (g, s) :: st.2)

/-- Copy of one typing edge `p → g` between duplicates
(`regraph/hierarchies.py:1498-1502`). -/
def dupTypingStepPred (graphDict : List (String × String)) (g : String)
    (st : Hierarchy × List (String × String)) (p : String) :
    Except Err (Hierarchy × List (String × String)) :=
  (add_typing st.1 ((lookupA graphDict p).getD p) ((lookupA graphDict g).getD g)
    ((getTyping st.1 p g).getD []) []) >>= fun h' => pure (h', (p, g) :: st.2)

/-- Processing of one duplicated graph in the typing-copy phase of
`duplicate_subgraph` (`regraph/hierarchies.py:1486-1502`): the predecessor
and successor lists within the dictionary are computed up front, then the
typings to the successors and from the predecessors are copied. -/
def dupKeyStep (graphDict : List (String × String))
    (st : Hierarchy × List (String × String)) (g : String) :
    Except Err (Hierarchy × List (String × String)) :=
  let preds := (predecessors st.1 g).filter
    (fun p => (lookupA graphDict p).isSome && !(st.2.contains (p, g)))
  let sucs := (successors st.1 g).filter
    (fun p => (lookupA graphDict p).isSome && !(st.2.contains (g, p)))
  (foldE (dupTypingStepSuc graphDict g) st sucs) >>= fun st₁ =>
  foldE (dupTypingStepPred graphDict g) st₁ preds

/-- Collision check of `duplicate_subgraph`
(`regraph/hierarchies.py:1471-1478`): every new id is checked against the
graphs present before any copy is made. -/
def dupCollisionCheck (h₀ : Hierarchy) (graphDict : List (String × String)) :
    Except Err Unit :=
  forEachE (fun pr =>
      if (graphIds h₀).contains pr.2 then throw Err.hierarchyErr else pure ())
    graphDict

/-- Atomic multi-copy of a subgraph of the hierarchy, translated from
`duplicate_subgraph` (`regraph/hierarchies.py:1458-1502`): first every new id
is checked against the graphs present before any mutation; then every graph
of the dictionary is copied; finally every typing edge between two duplicated
graphs is reproduced between their copies, a visited set preventing double
copies. -/
def duplicate_subgraph (h₀ : Hierarchy) (graphDict : List (String × String))
    (attach : List String) : Except Err Hierarchy :=
  (dupCollisionCheck h₀ graphDict) >>= fun _ =>
  (foldE (fun h pr => copy_graph h pr.1 pr.2 attach) h₀ graphDict) >>= fun h =>
  (foldE (dupKeyStep graphDict) ((h, ([] : List (String × String))))
    (graphDict.map (·.1))) >>= fun st =>
  pure st.1

/-- JSON representation of a graph (spec §6; node and edge attribute
serialization is opaque to the core and modelled as the identity). -/
structure GraphJson where
  nodes : List (String × Attrs)
  edges : List (String × String × Attrs)
deriving DecidableEq, Repr

/-- Modelled from the spec: `Graph.to_json` (the graph class is not under
src/): nodes and edges with their attributes, in stored order. -/
def Graph.toJson (g : Graph) : GraphJson := ⟨g.nodes, g.edges⟩

/-- Entry of the `graphs` section of the JSON form: `{"id", "graph", "attrs"}`. -/
structure GraphEntryJson where
  id : String
  graph : GraphJson
  attrs : Attrs
deriving DecidableEq, Repr

/-- Entry of the `typing` section: `{"from", "to", "mapping", "attrs"}`. -/
structure TypingEntryJson where
  source : String
  target : String
  mapping : Mapping
  attrs : Attrs
deriving DecidableEq, Repr

/-- Entry of the `relations` section: `{"from", "to", "rel", "attrs"}`. -/
structure RelEntryJson where
  left : String
  right : String
  rel : List (String × List String)
  attrs : Attrs
deriving DecidableEq, Repr

/-- JSON representation of a hierarchy (spec §6). -/
structure HierarchyJson where
  graphs : List GraphEntryJson
  typing : List TypingEntryJson
  relations : List RelEntryJson
deriving DecidableEq, Repr

/-- Renaming of a node id through the optional `rename_nodes` dictionary. -/
def renameId (rename? : Option Mapping) (n : String) : String :=
  match rename? with
  | some m => match lookupA m n with | some n' => n' | none => n
  | none => n

/-- Serialization of a hierarchy, translated from `Hierarchy.to_json`
(`regraph/hierarchies.py:695-758`): graphs, then typing edges, then the
relations, each unordered pair emitted once through the `visited` set. -/
def toJson (h : Hierarchy) (rename? : Option Mapping) : HierarchyJson :=
  { graphs := h.graphs.map (fun g =>
      ⟨renameId rename? g.id, g.graph.toJson, g.attrs⟩),
    typing := h.typings.map (fun t =>
      ⟨renameId rename? t.source, renameId rename? t.target, t.mapping, t.attrs⟩),
    relations := (h.relations.foldl
      (fun (st : List (String × String) × List RelEntryJson) r =>
        if st.1.contains (r.left, r.right) || st.1.contains (r.right, r.left) then st
        else ((r.left, r.right) :: st.1,
          st.2 ++ [⟨renameId rename? r.left, renameId rename? r.right,
            ((getRelation h r.left r.right).getD []).map (fun kv => (kv.1, kv.2)),
            r.attrs⟩]))
      ([], [])).2 }

/-- Components to skip when loading a hierarchy from JSON
(`regraph/hierarchies.py:768-781`); an absent field models an absent key of
the `ignore` dictionary. -/
structure IgnoreSpec where
  graphs : Option (List String)
  typing : Option (List (String × String))
  relations : Option (List (String × String))
deriving DecidableEq, Repr

/-- Whether a graph id is ignored (`regraph/hierarchies.py:791-793`). -/
def ignoreGraph (ig? : Option IgnoreSpec) (gid : String) : Bool :=
  match ig? with
  | some ig => match ig.graphs with
    | some l => l.contains gid
    | none => false
  | none => false

/-- Whether a typing edge is ignored (`regraph/hierarchies.py:805-807`). -/
def ignoreTyping (ig? : Option IgnoreSpec) (s t : String) : Bool :=
  match ig? with
  | some ig => match ig.typing with
    | some l => l.contains (s, t)
    | none => false
  | none => false

/-- Whether a relation is ignored, in either orientation
(`regraph/hierarchies.py:824-827`). -/
def ignoreRelation (ig? : Option IgnoreSpec) (l r : String) : Bool :=
  match ig? with
  | some ig => match ig.relations with
    | some rl => rl.contains (l, r) || rl.contains (r, l)
    | none => false
  | none => false

/-- Addition of a graph from its JSON form, translated from
`add_graph_from_json` (`regraph/hierarchies.py:675-693`); attribute parsing
is the identity in the model. -/
def add_graph_from_json (h : Hierarchy) (gid : String) (gj : GraphJson)
    (attrs : Attrs) : Except Err Hierarchy :=
  add_graph_from_data h gid gj.nodes gj.edges attrs

/-- Loading of a hierarchy from JSON, translated from `Hierarchy.from_json`
(`regraph/hierarchies.py:760-841`): starting from the empty hierarchy, add
the graphs, then the typing edges, then the relations (skipping a relation
whose pair is already present), honouring the `ignore` specification. -/
def fromJson (j : HierarchyJson) (ig? : Option IgnoreSpec) :
    Except Err Hierarchy := do
  let h₁ ← foldE (fun h gd =>
      if ignoreGraph ig? gd.id then pure h
      else add_graph_from_json h gd.id gd.graph gd.attrs) ⟨[], [], []⟩ j.graphs
  let h₂ ← foldE (fun h td =>
      if ignoreTyping ig? td.source td.target then pure h
      else add_typing h td.source td.target td.mapping td.attrs) h₁ j.typing
  let h₃ ← foldE (fun h rd =>
      if ignoreRelation ig? rd.left rd.right then pure h
      else if (relationPairs h).contains (rd.left, rd.right) then pure h
      else add_relation h rd.left rd.right rd.rel rd.attrs) h₂ j.relations
  pure h₃

/-- Python tuple unpacking `x, y = s` of a string: yields the two characters
as one-character strings when the length is 2, raises `ValueError`
otherwise.  `get_rule_propagations` iterates its `ancestors`, `descendants`
and `rules` dictionaries directly (`regraph/hierarchies.py:1024`, 1072 and
1118), which yields the keys — graph-id strings — and unpacks each key this
way. -/
def pyUnpack2 (s : String) : Except Err (String × String) :=
  match s.toList with
  | [a, b] => .ok (String.singleton a, String.singleton b)
  | _ => .error .valueErr

/-- The rule produced for an ancestor by a pullback over empty graphs:
`Rule(p=∅, lhs=∅, p_lhs={})` with the right-hand side defaulting to a copy of
the interface. -/
def liftedEmptyRule : Rule := ⟨⟨[], []⟩, ⟨[], []⟩, ⟨[], []⟩, [], []⟩

/-- Result of `get_rule_propagations`: the `rules` and `rule_homomorphisms`
dictionaries of the returned rule hierarchy, and the `instances`
dictionary. -/
structure RuleHierarchyResult where
  rules : List (String × Rule)
  ruleHomomorphisms : List ((String × String) × (Mapping × Mapping × Mapping))
  instances : List (String × Mapping)
deriving DecidableEq, Repr

/-- One iteration of the ancestor loop of `get_rule_propagations`
(`regraph/hierarchies.py:1024-1065`).  The loop iterates the `ancestors`
dictionary, so each dictionary key is unpacked into
`(ancestor, origin_typing)` — both one-character strings, `ValueError`
otherwise.  The body then evaluates `self.get_graph(ancestor)`
(`HierarchyError` on a missing id) and calls `pullback` with the string
`origin_typing` in place of the typing dictionary: as soon as the pullback
enumerates one candidate node pair it indexes that string with a node id,
raising `TypeError`; with no candidate pairs (the ancestor graph or the
left-hand side empty) the pullbacks are empty and, when the one-character id
has a nonempty `p_typing` entry, `keys_by_value({}, k)[0]` raises
`IndexError` (line 1045); otherwise the iteration records the empty lifted
rule and an empty instance. -/
def ancStep (h : Hierarchy) (rule : Rule) (pt : TypingRel)
    (st : (List (String × Rule)) × (List (String × Mapping))) (key : String) :
    Except Err ((List (String × Rule)) × (List (String × Mapping))) := do
  let pr ← pyUnpack2 key
  let ag ← getGraphE h pr.1
  if ag.nodes ≠ [] ∧ rule.lhs.nodes ≠ [] then throw Err.typeErr
  else
    match lookupA pt pr.1 with
    | some entry =>
      if entry ≠ [] then throw Err.indexErr
      else pure (insertA st.1 pr.1 liftedEmptyRule, insertA st.2 pr.1 [])
    | none => pure (insertA st.1 pr.1 liftedEmptyRule, insertA st.2 pr.1 [])

/-- One iteration of the descendant loop of `get_rule_propagations`
(`regraph/hierarchies.py:1072-1115`).  Each key of the `descendants`
dictionary is unpacked into `(descendant, origin_typing)` (`ValueError`
unless the id has two characters); the body fetches the graph of the
one-character prefix, then `compose(instance, origin_typing)` indexes the
string `origin_typing`, raising `TypeError` as soon as the instance is
nonempty; with an empty instance, `image_factorization` indexes the empty
composed map with the nodes of the left-hand side (`KeyError` when L ≠ ∅)
and the pushout indexes the empty `l_l_t` with the interface nodes
(`KeyError` when P ≠ ∅).  With L, P and the instance all empty, `L_T = ∅`
and `R_T` is a copy of the right-hand side with the identity `r_r_t`; the
`rhs_typing` branch (lines 1085-1107) then adjoins to `L_T` the designated
target nodes, and line 1114 indexes the empty `l_l_t` through `p_lhs`
(`KeyError` when `p_lhs` is nonempty). -/
def descStep (h : Hierarchy) (rule : Rule) (inst : Mapping) (rt : TypingRel)
    (st : (List (String × Rule)) × (List (String × Mapping))) (key : String) :
    Except Err ((List (String × Rule)) × (List (String × Mapping))) := do
  let pr ← pyUnpack2 key
  let _ ← getGraphE h pr.1
  if inst ≠ [] then throw Err.typeErr
  else if rule.lhs.nodes ≠ [] then throw Err.keyErr
  else if rule.p.nodes ≠ [] then throw Err.keyErr
  else do
    let rrT := rule.rhs.nodeIds.map (fun n => (n, n))
    let st4 ← match lookupA rt pr.1 with
      | some entry => do
        let fact ← mapME (fun kv => do
            let k' ← orErr .keyErr (lookupA rrT kv.1)
            pure (k', kv.2)) entry
        pure (rule.rhs.nodeIds.foldl (fun s4 n =>
          match lookupA fact n with
          | some tNodes => tNodes.foldl (fun s4' tN =>
              if !((s4'.2.2.1.map (·.2)).contains tN) && !(s4'.2.2.2.contains tN) then
                (s4'.1 ++ [tN], insertA s4'.2.1 tN n,
                  insertA s4'.2.2.1 tN tN, tN :: s4'.2.2.2)
              else
                (s4'.1, insertA s4'.2.1 ((keysByValue s4'.2.2.1 tN).headD tN) n,
                  s4'.2.2.1, s4'.2.2.2)) s4
          | none => s4)
          (([], [], [], []) :
            List String × Mapping × Mapping × List String))
      | none =>
        pure (([], [], [], []) : List String × Mapping × Mapping × List String)
    if rule.p_lhs ≠ [] then throw Err.keyErr
    else
      let ltGraph : Graph := ⟨st4.1.map (fun n => (n, [])), []⟩
      let projRule : Rule :=
        ⟨ltGraph, ltGraph, rule.rhs, st4.1.map (fun n => (n, n)), st4.2.1⟩
      pure (insertA st.1 pr.1 projRule, insertA st.2 pr.1 st4.2.2.1)

/-- The `get_rule_propagations` entry point
(`regraph/hierarchies.py:974-1230`): Stage 0 type-checking, then the
ancestor loop, the descendant loop and the rule-homomorphism loop, all three
iterating dictionaries with tuple unpacking of the keys (see `pyUnpack2`).
In the homomorphism loop the body's membership tests
`graph_id in ancestors` / `graph_id in descendants` compare the
one-character prefix of a two-character key with the ancestor and descendant
ids; a run that reaches this loop has processed every ancestor and
descendant key through `pyUnpack2`, so those ids all have two characters and
the tests can only succeed for ids absent from the rules dictionary — the
branch, if taken, indexes the leaked loop variable `p_g_p` (line 1124) or
the undefined name `p_p_t` (line 1187), modelled as `KeyError`.  In every
completing run `rule_homomorphisms` stays empty. -/
def getRulePropagations (h : Hierarchy) (originId : String) (rule : Rule)
    (inst? : Option Mapping) (pt? rt? : Option TypingRel) :
    Except Err RuleHierarchyResult := do
  let (inst, pt, rt) ← checkRuleInstanceTyping h originId rule inst? pt? rt? false
  let ancestors := getAncestors h originId
  let descendants := getDescendants h originId
  let st₀ := (([(originId, rule)], [(originId, inst)]) :
    (List (String × Rule)) × (List (String × Mapping)))
  let st₁ ← foldE (ancStep h rule pt) st₀ (keysOf ancestors)
  let st₂ ← foldE (descStep h rule inst rt) st₁ (keysOf descendants)
  forEachE (fun key => do
      let pr ← pyUnpack2 key
      if (lookupA ancestors pr.1).isSome || (lookupA descendants pr.1).isSome then
        throw Err.keyErr
      else pure ()) (keysOf st₂.1)
  pure ⟨st₂.1, [], st₂.2⟩

/-! Combinator lemmas. -/

theorem forEachE_ok_iff {α : Type} {f : α → Except Err Unit} {l : List α} :
    forEachE f l = .ok () ↔ ∀ x ∈ l, f x = .ok () := by
  induction l with
  | nil => simp [forEachE]
  | cons x xs ih =>
    simp only [forEachE]
    cases hfx : f x with
    | ok u =>
      cases u
      simp only [List.mem_cons, ih]
      constructor
      · intro hall y hy
        rcases hy with rfl | hy
        · exact hfx
        · exact hall y hy
      · intro hall y hy
        exact hall y (Or.inr hy)
    | error e =>
      simp only [List.mem_cons]
      constructor
      · intro hcon; cases hcon
      · intro hall
        have := hall x (Or.inl rfl)
        rw [hfx] at this
        cases this

theorem forEachE_fails {α : Type} {f : α → Except Err Unit} {l : List α} {e₀ : Err}
    (hshape : ∀ x ∈ l, f x = .ok () ∨ f x = .error e₀)
    (hex : ∃ x ∈ l, f x ≠ .ok ()) : forEachE f l = .error e₀ := by
  induction l with
  | nil => rcases hex with ⟨x, hx, _⟩; cases hx
  | cons y ys ih =>
    simp only [forEachE]
    cases hfy : f y with
    | ok u =>
      cases u
      refine ih (fun x hx => hshape x (List.mem_cons_of_mem _ hx)) ?_
      rcases hex with ⟨x, hx, hne⟩
      rcases List.mem_cons.mp hx with rfl | hx
      · exact absurd hfy hne
      · exact ⟨x, hx, hne⟩
    | error e =>
      rcases hshape y (List.mem_cons_self _ _) with hok | herr
      · rw [hfy] at hok; cases hok
      · rw [hfy] at herr
        cases herr
        rfl

theorem foldE_ok_split {σ α : Type} {f : σ → α → Except Err σ} {s : σ}
    {x : α} {xs : List α} {r : σ} (h : foldE f s (x :: xs) = .ok r) :
    ∃ s', f s x = .ok s' ∧ foldE f s' xs = .ok r := by
  revert h
  simp only [foldE]
  cases hfx : f s x with
  | ok s' => intro h; exact ⟨s', rfl, h⟩
  | error e => intro h; cases h

/-! One-sidedness of hierarchy equality (claim C10). -/

/-- Left hierarchy of the asymmetric pair: a single graph. -/
def c10A : Hierarchy := ⟨[⟨"g1", ⟨[], []⟩, []⟩], [], []⟩

/-- Right hierarchy of the asymmetric pair: the same graph plus one more. -/
def c10B : Hierarchy := ⟨[⟨"g1", ⟨[], []⟩, []⟩, ⟨"h2", ⟨[], []⟩, []⟩], [], []⟩

/-- C10: `__eq__` tests only one-sided containment — whenever every graph of
the left hierarchy occurs in the right with equal attributes, every typing
edge occurs with equal attributes and every relation occurs in either
orientation with equal attributes, `__eq__` returns `True`; consequently
there is a concrete pair of hierarchies with `c10A == c10B` true while
`c10B` owns a graph absent from `c10A`, so `c10B == c10A` is false and `==`
is not symmetric. -/
theorem c10_eq_one_sided :
    (∀ a b : Hierarchy,
      (∀ g ∈ a.graphs, g.id ∈ graphIds b ∧ getGraphAttrs b g.id = some g.attrs) →
      (∀ t ∈ a.typings, (t.source, t.target) ∈ edgePairs b ∧
        getTypingAttrs b t.source t.target = some t.attrs) →
      (∀ r ∈ a.relations, ((r.left, r.right) ∈ relationPairs b ∨
        (r.right, r.left) ∈ relationPairs b) ∧
        getRelationAttrs b r.left r.right = some r.attrs) →
      hierEq a b = true) ∧
    hierEq c10A c10B = true ∧ hierEq c10B c10A = false ∧
    "h2" ∈ graphIds c10B ∧ "h2" ∉ graphIds c10A := by
  refine ⟨?_, by decide, by decide, by decide, by decide⟩
  intro a b hg ht hr
  simp only [hierEq, Bool.and_eq_true, List.all_eq_true]
  refine ⟨⟨?_, ?_⟩, ?_⟩
  · intro g hgm
    rcases hg g hgm with ⟨hmem, hat⟩
    simp [hmem, hat]
  · intro t htm
    rcases ht t htm with ⟨hmem, hat⟩
    simp [hmem, hat]
  · intro r hrm
    rcases hr r hrm with ⟨hmem, hat⟩
    rcases hmem with hmem | hmem <;> simp [hmem, hat]

/-- Witness for C10: the one-sided-containment hypotheses hold at the
concrete pair and the theorem yields `c10A == c10B`. -/
theorem c10_eq_one_sided_witness :
    (∀ g ∈ c10A.graphs, g.id ∈ graphIds c10B ∧
      getGraphAttrs c10B g.id = some g.attrs) ∧
    (∀ t ∈ c10A.typings, (t.source, t.target) ∈ edgePairs c10B ∧
      getTypingAttrs c10B t.source t.target = some t.attrs) ∧
    (∀ r ∈ c10A.relations, ((r.left, r.right) ∈ relationPairs c10B ∨
      (r.right, r.left) ∈ relationPairs c10B) ∧
      getRelationAttrs c10B r.left r.right = some r.attrs) ∧
    hierEq c10A c10B = true :=
  ⟨by decide, by decide, by decide,
    c10_eq_one_sided.1 c10A c10B (by decide) (by decide) (by decide)⟩

/-! Reduction lemmas for the `Except` combinators. -/

theorem bind_ok {α β : Type} (a : α) (k : α → Except Err β) :
    ((.ok a : Except Err α) >>= k) = k a := rfl

theorem bind_err {α β : Type} (e : Err) (k : α → Except Err β) :
    ((.error e : Except Err α) >>= k) = .error e := rfl

theorem throw_eq {α : Type} (e : Err) : (throw e : Except Err α) = .error e := rfl

theorem pure_eq {α : Type} (a : α) : (pure a : Except Err α) = .ok a := rfl

theorem orErr_some {α : Type} (e : Err) (a : α) : orErr e (some a) = .ok a := rfl

theorem orErr_none {α : Type} (e : Err) : (orErr e (none : Option α)) = .error e := rfl

theorem forEachE_shape {α : Type} {f : α → Except Err Unit} {l : List α} {e₀ : Err}
    (hshape : ∀ x ∈ l, f x = .ok () ∨ f x = .error e₀) :
    forEachE f l = .ok () ∨ forEachE f l = .error e₀ := by
  induction l with
  | nil => left; rfl
  | cons x xs ih =>
    simp only [forEachE]
    rcases hshape x (List.mem_cons_self _ _) with hx | hx <;> rw [hx]
    · exact ih (fun y hy => hshape y (List.mem_cons_of_mem _ hy))
    · right; rfl

/-! Stage-0 behaviour of the instance checks (claims C2, C3, C4). -/

theorem checkInstanceValid_error {h : Hierarchy} {o : String} {rule : Rule}
    {inst : Mapping} {G : Graph} (hg : getGraph h o = some G)
    (hbad : checkHomB rule.lhs G inst = false ∨ isMonicB inst = false) :
    checkInstanceValid h o rule inst = .error .rewritingErr := by
  unfold checkInstanceValid getGraphE
  rw [hg]
  rcases hbad with hb | hb
  · simp [hb, bind_ok, throw_eq]
  · cases hhom : checkHomB rule.lhs G inst <;> simp [hhom, hb, bind_ok, throw_eq]

theorem checkInstanceValid_ok {h : Hierarchy} {o : String} {rule : Rule}
    {inst : Mapping} {G : Graph} (hg : getGraph h o = some G)
    (hhom : checkHomB rule.lhs G inst = true) (hmono : isMonicB inst = true) :
    checkInstanceValid h o rule inst = .ok () := by
  unfold checkInstanceValid getGraphE
  rw [hg]
  simp [hhom, hmono, bind_ok, pure_eq]

/-- Trivial rewriting stages used by the witnesses (the abstract methods of
the hierarchy class are free parameters of `rewrite`). -/
def idStages : RewriteStages :=
  ⟨fun h _ _ _ => .ok (h, [], []), fun h _ _ _ _ _ _ => .ok h,
    fun h _ _ _ => .ok (h, [], []), fun h _ _ _ _ _ _ _ => .ok h⟩

/-- C2: when the instance from the left-hand side to the rewritten graph is
not a valid total homomorphism, or is not injective, `rewrite` raises
`RewritingError` during Stage 0 — before any mutating stage runs, whatever
those stages are, so no graph, typing or relation of the hierarchy is
mutated. -/
theorem c2_invalid_instance_rejected (st : RewriteStages) (h : Hierarchy)
    (o : String) (rule : Rule) (inst? : Option Mapping)
    (pt? rt? : Option TypingRel) (strict : Bool) (G : Graph)
    (hg : getGraph h o = some G)
    (hbad : checkHomB rule.lhs G (normalizeInstanceArg rule inst?) = false ∨
      isMonicB (normalizeInstanceArg rule inst?) = false) :
    rewrite st h o rule inst? pt? rt? strict = .error .rewritingErr := by
  have h1 := checkInstanceValid_error hg hbad
  unfold rewrite checkRuleInstanceTyping checkMain
  rw [h1]
  rfl

/-- Hierarchy of the C2 witness: one graph `g` with one node `x`. -/
def c2H : Hierarchy := ⟨[⟨"g", ⟨[("x", [])], []⟩, []⟩], [], []⟩

/-- Rule of the C2 witness: the left-hand side has one node `a`. -/
def c2Rule : Rule := ⟨⟨[("a", [])], []⟩, ⟨[], []⟩, ⟨[], []⟩, [], []⟩

/-- Witness for C2 at a concrete instance mapping `a` outside the graph. -/
theorem c2_witness :
    getGraph c2H "g" = some ⟨[("x", [])], []⟩ ∧
    (checkHomB c2Rule.lhs ⟨[("x", [])], []⟩
        (normalizeInstanceArg c2Rule (some [("a", "y")])) = false ∨
      isMonicB (normalizeInstanceArg c2Rule (some [("a", "y")])) = false) ∧
    rewrite idStages c2H "g" c2Rule (some [("a", "y")]) none none false =
      .error .rewritingErr :=
  ⟨by decide, Or.inl (by decide),
    c2_invalid_instance_rejected idStages c2H "g" c2Rule (some [("a", "y")])
      none none false ⟨[("x", [])], []⟩ (by decide) (Or.inl (by decide))⟩

theorem pTypingRetype_fails {h : Hierarchy} {o : String} {rule : Rule}
    {inst : Mapping} {pt : TypingRel}
    (hdef : ∀ gt ∈ pt, ∃ m, getTyping h gt.1 o = some m ∧
      ∀ kv ∈ gt.2, (lookupA m kv.1).isSome ∧
        ∀ v ∈ kv.2, ∃ l, lookupA rule.p_lhs v = some l ∧ (lookupA inst l).isSome)
    (hdis : ∃ gt ∈ pt, ∃ kv ∈ gt.2, ∃ v ∈ kv.2, ∃ m a l b,
      getTyping h gt.1 o = some m ∧ lookupA m kv.1 = some a ∧
      lookupA rule.p_lhs v = some l ∧ lookupA inst l = some b ∧ a ≠ b) :
    pTypingRetype h o rule inst pt = .error .rewritingErr := by
  unfold pTypingRetype
  have hshape : ∀ gt ∈ pt,
      (fun gt : String × List (String × List String) =>
        (orErr .hierarchyErr (getTyping h gt.1 o)) >>= fun graphToOrigin =>
        forEachE (fun kv =>
          forEachE (fun vv =>
            (orErr .keyErr (lookupA graphToOrigin kv.1)) >>= fun a =>
            (orErr .keyErr (lookupA rule.p_lhs vv)) >>= fun l =>
            (orErr .keyErr (lookupA inst l)) >>= fun b =>
            if a ≠ b then throw Err.rewritingErr else pure ())
            kv.2)
          gt.2) gt = .ok () ∨
      (fun gt : String × List (String × List String) =>
        (orErr .hierarchyErr (getTyping h gt.1 o)) >>= fun graphToOrigin =>
        forEachE (fun kv =>
          forEachE (fun vv =>
            (orErr .keyErr (lookupA graphToOrigin kv.1)) >>= fun a =>
            (orErr .keyErr (lookupA rule.p_lhs vv)) >>= fun l =>
            (orErr .keyErr (lookupA inst l)) >>= fun b =>
            if a ≠ b then throw Err.rewritingErr else pure ())
            kv.2)
          gt.2) gt = .error .rewritingErr := by
    intro gt hgt
    rcases hdef gt hgt with ⟨m, hm, hkv⟩
    simp only [hm, orErr_some, bind_ok]
    refine forEachE_shape (fun kv hkvm => ?_)
    rcases hkv kv hkvm with ⟨ha, hvv⟩
    refine forEachE_shape (fun v hv => ?_)
    rcases Option.isSome_iff_exists.mp ha with ⟨a, ha'⟩
    rcases hvv v hv with ⟨l, hl, hb⟩
    rcases Option.isSome_iff_exists.mp hb with ⟨b, hb'⟩
    simp only [ha', hl, hb', orErr_some, bind_ok]
    by_cases hab : a = b
    · subst hab; simp [pure_eq]
    · simp [hab, throw_eq]
  rcases hdis with ⟨gt, hgt, kv, hkvm, v, hv, m, a, l, b, hm, ha, hl, hb, hab⟩
  refine forEachE_fails hshape ⟨gt, hgt, ?_⟩
  rcases hdef gt hgt with ⟨m', hm', hkv'⟩
  rw [hm] at hm'
  cases hm'
  simp only [hm, orErr_some, bind_ok]
  intro hcon
  have hinner : forEachE (fun vv =>
      (orErr .keyErr (lookupA m kv.1)) >>= fun a' =>
      (orErr .keyErr (lookupA rule.p_lhs vv)) >>= fun l' =>
      (orErr .keyErr (lookupA inst l')) >>= fun b' =>
      if a' ≠ b' then throw Err.rewritingErr else pure ())
      kv.2 = .ok () := by
    have := forEachE_ok_iff.mp hcon kv hkvm
    exact this
  have := forEachE_ok_iff.mp hinner v hv
  simp only [ha, hl, hb, orErr_some, bind_ok] at this
  simp [hab] at this

/-- C4: a `p_typing` entry that re-types a node — the existing typing into
the origin sends the node to a value different from the instance image of
the L-image of one of its designated interface nodes — makes `rewrite`
raise `RewritingError` (before any mutating stage, whatever the stages). -/
theorem c4_p_typing_retype_rejected (st : RewriteStages) (h : Hierarchy)
    (o : String) (rule : Rule) (inst? : Option Mapping)
    (pt? rt? : Option TypingRel) (strict : Bool) (G : Graph)
    (hg : getGraph h o = some G)
    (hhom : checkHomB rule.lhs G (normalizeInstanceArg rule inst?) = true)
    (hmono : isMonicB (normalizeInstanceArg rule inst?) = true)
    (hdef : ∀ gt ∈ optRel pt?, ∃ m, getTyping h gt.1 o = some m ∧
      ∀ kv ∈ gt.2, (lookupA m kv.1).isSome ∧
        ∀ v ∈ kv.2, ∃ l, lookupA rule.p_lhs v = some l ∧
          (lookupA (normalizeInstanceArg rule inst?) l).isSome)
    (hdis : ∃ gt ∈ optRel pt?, ∃ kv ∈ gt.2, ∃ v ∈ kv.2, ∃ m a l b,
      getTyping h gt.1 o = some m ∧ lookupA m kv.1 = some a ∧
      lookupA rule.p_lhs v = some l ∧
      lookupA (normalizeInstanceArg rule inst?) l = some b ∧ a ≠ b) :
    rewrite st h o rule inst? pt? rt? strict = .error .rewritingErr := by
  have h1 := checkInstanceValid_ok hg hhom hmono
  have h2 := pTypingRetype_fails hdef hdis
  unfold rewrite checkRuleInstanceTyping checkMain
  rw [h1, bind_ok, h2]
  rfl

/-- Hierarchy of the C4 witness: graph `a` (node `na`) typed by graph `g`
(nodes `ng`, `mg`) through `na ↦ ng`. -/
def c4H : Hierarchy :=
  ⟨[⟨"a", ⟨[("na", [])], []⟩, []⟩, ⟨"g", ⟨[("ng", []), ("mg", [])], []⟩, []⟩],
   [⟨"a", "g", [("na", "ng")], []⟩], []⟩

/-- Rule of the C4 witness: one lhs node `x` with one interface preimage
`x1`. -/
def c4Rule : Rule :=
  ⟨⟨[("x", [])], []⟩, ⟨[("x1", [])], []⟩, ⟨[("x1", [])], []⟩,
   [("x1", "x")], [("x1", "x1")]⟩

/-- Witness for C4: the instance sends `x` to `mg` while the typing of `a`
sends `na` to `ng`, so the `p_typing` entry `na ↦ {x1}` re-types `na`. -/
theorem c4_witness :
    getGraph c4H "g" = some ⟨[("ng", []), ("mg", [])], []⟩ ∧
    checkHomB c4Rule.lhs ⟨[("ng", []), ("mg", [])], []⟩
      (normalizeInstanceArg c4Rule (some [("x", "mg")])) = true ∧
    isMonicB (normalizeInstanceArg c4Rule (some [("x", "mg")])) = true ∧
    rewrite idStages c4H "g" c4Rule (some [("x", "mg")])
      (some [("a", [("na", ["x1"])])]) none false = .error .rewritingErr :=
  ⟨by decide, by decide, by decide,
    c4_p_typing_retype_rejected idStages c4H "g" c4Rule (some [("x", "mg")])
      (some [("a", [("na", ["x1"])])]) none false
      ⟨[("ng", []), ("mg", [])], []⟩ (by decide) (by decide) (by decide)
      (by decide)
      ⟨("a", [("na", ["x1"])]), by decide, ("na", ["x1"]), by decide,
        "x1", by decide, [("na", "ng")], "ng", "x", "mg",
        by decide, by decide, by decide, by decide, by decide⟩⟩

theorem strictCheck_fails {h : Hierarchy} {o : String} {rule : Rule}
    {rt : TypingRel} (ha : rule.addedNodes ≠ [])
    (hbad : ∃ d ∈ keysOf (getDescendants h o),
      lookupA rt d = none ∨ ∃ n ∈ rule.addedNodes,
        lookupA ((lookupA rt d).getD []) n = none ∨
        ((lookupA ((lookupA rt d).getD []) n).getD []).length ≠ 1) :
    strictCheck h o rule rt = .error .rewritingErr := by
  unfold strictCheck
  rw [if_pos ha]
  have hshape : ∀ d ∈ keysOf (getDescendants h o),
      strictCheckDesc rule rt d = .ok () ∨
      strictCheckDesc rule rt d = .error .rewritingErr := by
    intro d _
    unfold strictCheckDesc
    cases hld : lookupA rt d with
    | none => right; rfl
    | some dt =>
      refine forEachE_shape (fun n _ => ?_)
      cases hln : lookupA dt n with
      | none => right; simp [hln]; rfl
      | some s =>
        by_cases hs : s.length = 1
        · left; simp [hln, hs, pure_eq]
        · right; simp [hln, hs, throw_eq]
  rcases hbad with ⟨d, hd, hbd⟩
  refine forEachE_fails hshape ⟨d, hd, ?_⟩
  unfold strictCheckDesc
  rcases hbd with hnone | ⟨n, hn, hbn⟩
  · simp only [hnone]
    intro hcon
    cases hcon
  · cases hld : lookupA rt d with
    | none => intro hcon; cases hcon
    | some dt =>
      rw [hld] at hbn
      simp only [Option.getD_some] at hbn
      intro hcon
      have hthis := forEachE_ok_iff.mp hcon n hn
      rcases hbn with hnone | hlen
      · simp [hnone, throw_eq] at hthis
      · cases hln : lookupA dt n with
        | none => simp [hln, throw_eq] at hthis
        | some s =>
          rw [hln] at hlen
          simp only [Option.getD_some] at hlen
          simp [hln, hlen, throw_eq] at hthis

/-- C3: when the rule adds nodes and `rewrite` is called with `strict=True`,
a descendant that lacks an `rhs_typing` entry — or whose entry misses an
added right-hand-side node or assigns it a non-singleton — makes `rewrite`
raise `RewritingError`, with no mutating stage run (whatever the stages), so
the hierarchy is left unchanged. -/
theorem c3_strict_missing_rhs_typing (st : RewriteStages) (h : Hierarchy)
    (o : String) (rule : Rule) (inst? : Option Mapping)
    (pt? rt? : Option TypingRel) (res : Mapping × TypingRel × TypingRel)
    (hm : checkMain h o rule inst? pt? rt? = .ok res)
    (ha : rule.addedNodes ≠ [])
    (hbad : ∃ d ∈ keysOf (getDescendants h o),
      lookupA res.2.2 d = none ∨ ∃ n ∈ rule.addedNodes,
        lookupA ((lookupA res.2.2 d).getD []) n = none ∨
        ((lookupA ((lookupA res.2.2 d).getD []) n).getD []).length ≠ 1) :
    rewrite st h o rule inst? pt? rt? true = .error .rewritingErr := by
  have h2 := strictCheck_fails ha hbad
  unfold rewrite checkRuleInstanceTyping
  rw [hm, bind_ok, if_pos rfl, h2]
  rfl

/-- Hierarchy of the C3 witness: empty graph `g` typed by empty graph `d`. -/
def c3H : Hierarchy :=
  ⟨[⟨"g", ⟨[], []⟩, []⟩, ⟨"d", ⟨[], []⟩, []⟩], [⟨"g", "d", [], []⟩], []⟩

/-- Rule of the C3 witness: adds the single node `c`. -/
def c3Rule : Rule := ⟨⟨[], []⟩, ⟨[], []⟩, ⟨[("c", [])], []⟩, [], []⟩

/-- Witness for C3: no `rhs_typing` is given, the descendant `d` has no
entry, and strict rewriting fails. -/
theorem c3_witness :
    checkMain c3H "g" c3Rule none none none = .ok ([], [], []) ∧
    c3Rule.addedNodes ≠ [] ∧
    (∃ d ∈ keysOf (getDescendants c3H "g"),
      lookupA (([], [], []) : Mapping × TypingRel × TypingRel).2.2 d = none) ∧
    rewrite idStages c3H "g" c3Rule none none none true = .error .rewritingErr :=
  ⟨rfl, by decide, ⟨"d", by decide, rfl⟩,
    c3_strict_missing_rhs_typing idStages c3H "g" c3Rule none none none
      ([], [], []) rfl (by decide)
      ⟨"d", by decide, Or.inl rfl⟩⟩

/-! Evaluation of the `p_typing` composability check on a canonical entry
(claim C5) and of `get_rule_propagations` (claim C6). -/

/-- Hierarchy of the C5 evaluation: a chain `p → a → g` of one-node graphs. -/
def c5H : Hierarchy :=
  ⟨[⟨"p", ⟨[("np", [])], []⟩, []⟩, ⟨"a", ⟨[("na", [])], []⟩, []⟩,
    ⟨"g", ⟨[("ng", [])], []⟩, []⟩],
   [⟨"p", "a", [("np", "na")], []⟩, ⟨"a", "g", [("na", "ng")], []⟩], []⟩

/-- Rule of the C5 evaluation: clones the lhs node `x` into `x1`, `x2`. -/
def c5Rule : Rule :=
  ⟨⟨[("x", [])], []⟩, ⟨[("x1", []), ("x2", [])], []⟩,
   ⟨[("x1", []), ("x2", [])], []⟩,
   [("x1", "x"), ("x2", "x")], [("x1", "x1"), ("x2", "x2")]⟩

/-- C5 (evaluation at the failing input): the `p_typing` entry of `a` is
canonical — it assigns `na` exactly the full set `{x1, x2}` of interface
preimages of its L-image `x` — and the predecessor `p` of `a` has no
`p_typing` entry, yet `_check_rule_instance_typing` (and hence `rewrite`)
raises `RewritingError`: the `canonical` flag of
`regraph/hierarchies.py:1697-1703` is initialized to `False` and set to
`False` again when the entry is found canonical, so it is never `True`. -/
theorem c5_canonical_p_typing_rejected :
    eqAsSet ["x1", "x2"] (keysByValue c5Rule.p_lhs "x") = true ∧
    predecessors c5H "a" = ["p"] ∧
    lookupA (([("a", [("na", ["x1", "x2"])])] : TypingRel)) "p" = none ∧
    checkRuleInstanceTyping c5H "g" c5Rule (some [("x", "ng")])
      (some [("a", [("na", ["x1", "x2"])])]) none false =
      .error .rewritingErr ∧
    rewrite idStages c5H "g" c5Rule (some [("x", "ng")])
      (some [("a", [("na", ["x1", "x2"])])]) none false =
      .error .rewritingErr :=
  ⟨by decide, rfl, rfl, rfl, rfl⟩

/-- Hierarchy of the first C6 evaluation: a single empty graph `g`. -/
def c6H : Hierarchy := ⟨[⟨"g", ⟨[], []⟩, []⟩], [], []⟩

/-- The empty (identity) rule used by the C6 evaluation. -/
def c6Rule : Rule := ⟨⟨[], []⟩, ⟨[], []⟩, ⟨[], []⟩, [], []⟩

/-- Hierarchy of the second C6 evaluation: empty graph `a` typed by empty
graph `b`. -/
def c6H2 : Hierarchy :=
  ⟨[⟨"a", ⟨[], []⟩, []⟩, ⟨"b", ⟨[], []⟩, []⟩], [⟨"a", "b", [], []⟩], []⟩

/-- C6 (evaluation at the failing inputs): `get_rule_propagations` raises
`ValueError` instead of returning the rule hierarchy.  On a hierarchy with a
single graph `g` and no typing edge (no ancestors, no descendants) the
homomorphism loop unpacks the one-character rules key `g` into two variables
(`regraph/hierarchies.py:1118`); on a hierarchy where the origin `b` has the
ancestor `a`, the ancestor loop unpacks the key `a` of the ancestors
dictionary (line 1024).  The claim requires the first call to return the
original rule at the origin and the second to also contain a lifted rule for
`a`. -/
theorem c6_get_rule_propagations_crashes :
    getAncestors c6H "g" = [] ∧ getDescendants c6H "g" = [] ∧
    getRulePropagations c6H "g" c6Rule none none none = .error .valueErr ∧
    getAncestors c6H2 "b" = [("a", [])] ∧
    getRulePropagations c6H2 "b" c6Rule none none none = .error .valueErr :=
  ⟨rfl, rfl, rfl, rfl, rfl⟩

/-! Atomicity of `duplicate_subgraph` (claim C7). -/

theorem lookupA_mem {α : Type} {d : List (String × α)} {k : String} {v : α}
    (h : lookupA d k = some v) : (k, v) ∈ d := by
  induction d with
  | nil => cases h
  | cons x xs ih =>
    obtain ⟨k₁, v₁⟩ := x
    simp only [lookupA] at h
    split at h
    · rename_i heq
      cases h
      subst heq
      exact List.mem_cons_self _ _
    · exact List.mem_cons_of_mem _ (ih h)

theorem keysOf_isSome {α : Type} {d : List (String × α)} {k : String}
    (h : k ∈ keysOf d) : (lookupA d k).isSome := by
  induction d with
  | nil => cases h
  | cons x xs ih =>
    obtain ⟨k₁, v₁⟩ := x
    simp only [keysOf, List.map_cons, List.mem_cons] at h
    simp only [lookupA]
    by_cases hk : k₁ = k
    · simp [hk]
    · rcases h with h | h
      · exact absurd h.symm hk
      · simp only [if_neg hk]
        exact ih h

theorem isSome_mem_keysOf {α : Type} {d : List (String × α)} {k : String}
    (h : (lookupA d k).isSome) : k ∈ keysOf d := by
  rcases Option.isSome_iff_exists.mp h with ⟨v, hv⟩
  have := lookupA_mem hv
  simpa [keysOf] using ⟨v, this⟩

theorem getTyping_mono {h h' : Hierarchy} {rest : List HTyping}
    (he : h'.typings = h.typings ++ rest) {a b : String} {m : Mapping}
    (hm : getTyping h a b = some m) : getTyping h' a b = some m := by
  unfold getTyping at hm ⊢
  rcases Option.map_eq_some'.mp hm with ⟨t, hfind, hmap⟩
  rw [he, List.find?_append, hfind]
  simp [hmap]

theorem getTyping_extendsOld {h₀ h' : Hierarchy} {rest : List HTyping}
    (he : h'.typings = h₀.typings ++ rest)
    (hrest : ∀ t ∈ rest, t.source ∉ graphIds h₀ ∨ t.target ∉ graphIds h₀)
    {a b : String} (ha : a ∈ graphIds h₀) (hb : b ∈ graphIds h₀) :
    getTyping h' a b = getTyping h₀ a b := by
  unfold getTyping
  rw [he, List.find?_append]
  have hnone : rest.find? (fun e => e.source = a ∧ e.target = b) = none := by
    rw [List.find?_eq_none]
    intro t ht
    simp only [decide_eq_true_eq, not_and]
    intro hsrc htgt
    rcases hrest t ht with hns | hnt
    · exact absurd (hsrc ▸ ha) hns
    · exact absurd (htgt ▸ hb) hnt
  rw [hnone]
  cases h₀.typings.find? (fun e => e.source = a ∧ e.target = b) <;> rfl

theorem find?_typing_self {t : HTyping} :
    ∀ {l : List HTyping}, (l.map (fun e => (e.source, e.target))).Nodup →
    t ∈ l → l.find? (fun e => e.source = t.source ∧ e.target = t.target) = some t := by
  intro l
  induction l with
  | nil => intro _ h; cases h
  | cons x xs ih =>
    intro hnd hmem
    simp only [List.map_cons, List.nodup_cons] at hnd
    rcases List.mem_cons.mp hmem with rfl | hmem
    · simp [List.find?]
    · have hne : ¬(x.source = t.source ∧ x.target = t.target) := by
        intro hp
        exact hnd.1 (by
          refine List.mem_map.mpr ⟨t, hmem, ?_⟩
          simp [hp.1, hp.2])
      simp only [List.find?, decide_eq_false hne]
      exact ih hnd.2 hmem

theorem getTyping_self {h : Hierarchy} (hnd : (edgePairs h).Nodup)
    {t : HTyping} (ht : t ∈ h.typings) :
    getTyping h t.source t.target = some t.mapping := by
  unfold getTyping
  rw [find?_typing_self hnd ht]
  rfl

theorem mem_successors {h : Hierarchy} {t : HTyping} (ht : t ∈ h.typings) :
    t.target ∈ successors h t.source := by
  unfold successors
  exact List.mem_filterMap.mpr ⟨t, ht, by simp⟩

theorem mem_predecessors {h : Hierarchy} {t : HTyping} (ht : t ∈ h.typings) :
    t.source ∈ predecessors h t.target := by
  unfold predecessors
  exact List.mem_filterMap.mpr ⟨t, ht, by simp⟩

theorem add_typing_ok_shape {h : Hierarchy} {s t : String} {m : Mapping}
    {a : Attrs} {h' : Hierarchy} (hk : add_typing h s t m a = .ok h') :
    h'.graphs = h.graphs ∧ h'.relations = h.relations ∧
    h'.typings = h.typings ++ [⟨s, t, m, a⟩] ∧ getTyping h s t = none := by
  unfold add_typing at hk
  cases hgs : getGraph h s with
  | none =>
    rw [hgs] at hk
    cases hgt : getGraph h t <;> rw [hgt] at hk <;> cases hk
  | some gs =>
    rw [hgs] at hk
    cases hgt : getGraph h t with
    | none => rw [hgt] at hk; cases hk
    | some gt =>
      rw [hgt] at hk
      dsimp only at hk
      by_cases h1 : ((getTyping h s t).isSome : Bool) = true
      · rw [if_pos h1] at hk; cases hk
      · rw [if_neg h1] at hk
        by_cases h2 : (!checkHomB gs gt m) = true
        · rw [if_pos h2] at hk; cases hk
        · rw [if_neg h2] at hk
          by_cases h3 : (s = t || !(simplePaths h t s).isEmpty) = true
          · rw [if_pos h3] at hk; cases hk
          · rw [if_neg h3] at hk
            by_cases h4 : (!((simplePaths h s t).all (fun π =>
                mapEqOn gs.nodeIds (composePathTyping h π) m))) = true
            · rw [if_pos h4] at hk; cases hk
            · rw [if_neg h4] at hk
              cases hk
              refine ⟨rfl, rfl, rfl, ?_⟩
              simpa [Option.not_isSome_iff_eq_none] using h1

theorem add_relation_ok_shape {h : Hierarchy} {l r : String}
    {rel : List (String × List String)} {a : Attrs} {h' : Hierarchy}
    (hk : add_relation h l r rel a = .ok h') :
    h'.graphs = h.graphs ∧ h'.typings = h.typings := by
  unfold add_relation at hk
  cases hgl : getGraph h l with
  | none =>
    rw [hgl] at hk
    cases hgr : getGraph h r <;> rw [hgr] at hk <;> cases hk
  | some gl =>
    rw [hgl] at hk
    cases hgr : getGraph h r with
    | none => rw [hgr] at hk; cases hk
    | some gr =>
      rw [hgr] at hk
      dsimp only at hk
      by_cases h1 : ((relationPairs h).contains (l, r) ||
          (relationPairs h).contains (r, l)) = true
      · rw [if_pos h1] at hk; cases hk
      · rw [if_neg h1] at hk
        by_cases h2 : (!(rel.all (fun kv => gl.nodeIds.contains kv.1 &&
            kv.2.all (fun v => gr.nodeIds.contains v)))) = true
        · rw [if_pos h2] at hk; cases hk
        · rw [if_neg h2] at hk
          cases hk
          exact ⟨rfl, rfl⟩

theorem add_graph_ok_shape {h : Hierarchy} {gid : String}
    {nl : List (String × Attrs)} {el : List (String × String × Attrs)}
    {a : Attrs} {h' : Hierarchy}
    (hk : add_graph_from_data h gid nl el a = .ok h') :
    h'.typings = h.typings ∧ h'.relations = h.relations := by
  unfold add_graph_from_data at hk
  by_cases h1 : ((graphIds h).contains gid) = true
  · rw [if_pos h1] at hk; cases hk
  · rw [if_neg h1] at hk
    cases hk
    exact ⟨rfl, rfl⟩

theorem copyAttachStep_typings {gid newId : String} {h : Hierarchy}
    {a : String} {h' : Hierarchy} (hk : copyAttachStep gid newId h a = .ok h') :
    ∃ rest, h'.typings = h.typings ++ rest ∧
      ∀ t ∈ rest, t.source = newId ∨ t.target = newId := by
  unfold copyAttachStep at hk
  cases h1 : (if (successors h gid).contains a then
      add_typing h newId a ((getTyping h gid a).getD []) [] else pure h) with
  | error e => rw [h1] at hk; cases hk
  | ok hA =>
    rw [h1, bind_ok] at hk
    have stepA : ∃ r₁, hA.typings = h.typings ++ r₁ ∧
        ∀ t ∈ r₁, t.source = newId ∨ t.target = newId := by
      split_ifs at h1
      · rcases add_typing_ok_shape h1 with ⟨_, _, hty, _⟩
        exact ⟨_, hty, by intro t ht; simp at ht; subst ht; left; rfl⟩
      · cases h1
        exact ⟨[], by simp, by intro t ht; cases ht⟩
    cases h2 : (if (predecessors hA gid).contains a then
        add_typing hA a newId ((getTyping hA a gid).getD []) [] else pure hA) with
    | error e => rw [h2] at hk; cases hk
    | ok hB =>
      rw [h2, bind_ok] at hk
      have stepB : ∃ r₂, hB.typings = hA.typings ++ r₂ ∧
          ∀ t ∈ r₂, t.source = newId ∨ t.target = newId := by
        split_ifs at h2
        · rcases add_typing_ok_shape h2 with ⟨_, _, hty, _⟩
          exact ⟨_, hty, by intro t ht; simp at ht; subst ht; right; rfl⟩
        · cases h2
          exact ⟨[], by simp, by intro t ht; cases ht⟩
      have stepC : h'.typings = hB.typings := by
        split_ifs at hk
        · exact (add_relation_ok_shape hk).2
        · cases hk; rfl
      rcases stepA with ⟨r₁, hr₁, hp₁⟩
      rcases stepB with ⟨r₂, hr₂, hp₂⟩
      refine ⟨r₁ ++ r₂, ?_, ?_⟩
      · rw [stepC, hr₂, hr₁, List.append_assoc]
      · intro t ht
        rcases List.mem_append.mp ht with ht | ht
        · exact hp₁ t ht
        · exact hp₂ t ht

theorem copy_graph_typings {h : Hierarchy} {gid newId : String}
    {attach : List String} {h' : Hierarchy}
    (hk : copy_graph h gid newId attach = .ok h') :
    ∃ rest, h'.typings = h.typings ++ rest ∧
      ∀ t ∈ rest, t.source = newId ∨ t.target = newId := by
  unfold copy_graph at hk
  by_cases hc : ((graphIds h).contains newId) = true
  · rw [if_pos hc] at hk; cases hk
  · rw [if_neg hc] at hk
    rw [pure_eq, bind_ok] at hk
    cases hg : getGraphE h gid with
    | error e => rw [hg] at hk; cases hk
    | ok g =>
      rw [hg, bind_ok] at hk
      cases hat : orErr Err.hierarchyErr (getGraphAttrs h gid) with
      | error e => rw [hat] at hk; cases hk
      | ok attrs =>
        rw [hat, bind_ok] at hk
        cases hadd : add_graph_from_data h newId g.nodes g.edges attrs with
        | error e => rw [hadd] at hk; cases hk
        | ok h₁ =>
          rw [hadd, bind_ok] at hk
          have hbase : h₁.typings = h.typings := (add_graph_ok_shape hadd).1
          clear hadd hat hg
          have main : ∀ (l : List String) (hstart hres : Hierarchy),
              foldE (copyAttachStep gid newId) hstart l = .ok hres →
              ∃ rest, hres.typings = hstart.typings ++ rest ∧
                ∀ t ∈ rest, t.source = newId ∨ t.target = newId := by
            intro l
            induction l with
            | nil =>
              intro hstart hres hfold
              cases hfold
              exact ⟨[], by simp, by intro t ht; cases ht⟩
            | cons x xs ih =>
              intro hstart hres hfold
              rcases foldE_ok_split hfold with ⟨hmid, hstep, hrest⟩
              rcases copyAttachStep_typings hstep with ⟨r₁, hr₁, hp₁⟩
              rcases ih _ _ hrest with ⟨r₂, hr₂, hp₂⟩
              refine ⟨r₁ ++ r₂, ?_, ?_⟩
              · rw [hr₂, hr₁, List.append_assoc]
              · intro t ht
                rcases List.mem_append.mp ht with ht | ht
                · exact hp₁ t ht
                · exact hp₂ t ht
          rcases main attach h₁ h' hk with ⟨rest, hr, hp⟩
          exact ⟨rest, by rw [hr, hbase], hp⟩

/-- Invariant of the typing-copy phase of `duplicate_subgraph`: the typings
of the current hierarchy extend those of the original with edges having at
least one endpoint outside the original graphs, and every visited pair has
its copy edge present with the original mapping. -/
def DupInv (h₀ : Hierarchy) (d : List (String × String))
    (st : Hierarchy × List (String × String)) : Prop :=
  (∃ rest, st.1.typings = h₀.typings ++ rest ∧
    ∀ t ∈ rest, t.source ∉ graphIds h₀ ∨ t.target ∉ graphIds h₀) ∧
  (∀ pq ∈ st.2, ∀ t ∈ h₀.typings, t.source = pq.1 → t.target = pq.2 →
    ∀ s' t'' : String, lookupA d t.source = some s' →
    lookupA d t.target = some t'' → getTyping st.1 s' t'' = some t.mapping)

theorem dupTypingStepSuc_inv {h₀ : Hierarchy} {d : List (String × String)}
    (hnd : (edgePairs h₀).Nodup)
    (hends : ∀ t ∈ h₀.typings, t.source ∈ graphIds h₀ ∧ t.target ∈ graphIds h₀)
    (hvals : ∀ pr ∈ d, pr.2 ∉ graphIds h₀)
    {g x : String} {st st' : Hierarchy × List (String × String)}
    {vg vx : String} (hg : lookupA d g = some vg) (hx : lookupA d x = some vx)
    (hinv : DupInv h₀ d st)
    (hk : dupTypingStepSuc d g st x = .ok st') :
    DupInv h₀ d st' ∧ st'.2 = (g, x) :: st.2 := by
  unfold dupTypingStepSuc at hk
  rw [hg, hx] at hk
  simp only [Option.getD_some] at hk
  cases ha : add_typing st.1 vg vx ((getTyping st.1 g x).getD []) [] with
  | error e => rw [ha] at hk; cases hk
  | ok h₂ =>
    rw [ha, bind_ok, pure_eq] at hk
    cases hk
    rcases hinv with ⟨⟨rest, hre, hrp⟩, hcov⟩
    rcases add_typing_ok_shape ha with ⟨_, _, hty, hnone⟩
    constructor
    · constructor
      · refine ⟨rest ++ [⟨vg, vx, (getTyping st.1 g x).getD [], []⟩], ?_, ?_⟩
        · rw [hty, hre, List.append_assoc]
        · intro t ht
          rcases List.mem_append.mp ht with ht | ht
          · exact hrp t ht
          · simp only [List.mem_singleton] at ht
            subst ht
            exact Or.inl (hvals _ (lookupA_mem hg))
      · intro pq hpq t ht hsrc htgt s' t'' hs' ht''
        rcases List.mem_cons.mp hpq with rfl | hpq
        · simp only at hsrc htgt
          rw [hsrc] at hs'
          rw [htgt] at ht''
          rw [hg] at hs'
          rw [hx] at ht''
          cases hs'
          cases ht''
          have hold : getTyping st.1 t.source t.target = some t.mapping := by
            rw [getTyping_extendsOld hre hrp (hends t ht).1 (hends t ht).2]
            exact getTyping_self hnd ht
          have hfind : st.1.typings.find?
              (fun e => e.source = vg ∧ e.target = vx) = none := by
            have := hnone
            unfold getTyping at this
            exact Option.map_eq_none'.mp this
          unfold getTyping
          rw [hty, List.find?_append, hfind]
          simp only [Option.none_or, List.find?]
          rw [hsrc, htgt] at hold
          simp [hold]
        · have := hcov pq hpq t ht hsrc htgt s' t'' hs' ht''
          exact getTyping_mono hty this
    · rfl

theorem dupTypingStepPred_inv {h₀ : Hierarchy} {d : List (String × String)}
    (hnd : (edgePairs h₀).Nodup)
    (hends : ∀ t ∈ h₀.typings, t.source ∈ graphIds h₀ ∧ t.target ∈ graphIds h₀)
    (hvals : ∀ pr ∈ d, pr.2 ∉ graphIds h₀)
    {g p : String} {st st' : Hierarchy × List (String × String)}
    {vg vp : String} (hg : lookupA d g = some vg) (hp : lookupA d p = some vp)
    (hinv : DupInv h₀ d st)
    (hk : dupTypingStepPred d g st p = .ok st') :
    DupInv h₀ d st' ∧ st'.2 = (p, g) :: st.2 := by
  unfold dupTypingStepPred at hk
  rw [hg, hp] at hk
  simp only [Option.getD_some] at hk
  cases ha : add_typing st.1 vp vg ((getTyping st.1 p g).getD []) [] with
  | error e => rw [ha] at hk; cases hk
  | ok h₂ =>
    rw [ha, bind_ok, pure_eq] at hk
    cases hk
    rcases hinv with ⟨⟨rest, hre, hrp⟩, hcov⟩
    rcases add_typing_ok_shape ha with ⟨_, _, hty, hnone⟩
    constructor
    · constructor
      · refine ⟨rest ++ [⟨vp, vg, (getTyping st.1 p g).getD [], []⟩], ?_, ?_⟩
        · rw [hty, hre, List.append_assoc]
        · intro t ht
          rcases List.mem_append.mp ht with ht | ht
          · exact hrp t ht
          · simp only [List.mem_singleton] at ht
            subst ht
            exact Or.inl (hvals _ (lookupA_mem hp))
      · intro pq hpq t ht hsrc htgt s' t'' hs' ht''
        rcases List.mem_cons.mp hpq with rfl | hpq
        · simp only at hsrc htgt
          rw [hsrc] at hs'
          rw [htgt] at ht''
          rw [hp] at hs'
          rw [hg] at ht''
          cases hs'
          cases ht''
          have hold : getTyping st.1 t.source t.target = some t.mapping := by
            rw [getTyping_extendsOld hre hrp (hends t ht).1 (hends t ht).2]
            exact getTyping_self hnd ht
          have hfind : st.1.typings.find?
              (fun e => e.source = vp ∧ e.target = vg) = none := by
            have := hnone
            unfold getTyping at this
            exact Option.map_eq_none'.mp this
          unfold getTyping
          rw [hty, List.find?_append, hfind]
          simp only [Option.none_or, List.find?]
          rw [hsrc, htgt] at hold
          simp [hold]
        · have := hcov pq hpq t ht hsrc htgt s' t'' hs' ht''
          exact getTyping_mono hty this
    · rfl

theorem dupFoldSuc_inv {h₀ : Hierarchy} {d : List (String × String)}
    (hnd : (edgePairs h₀).Nodup)
    (hends : ∀ t ∈ h₀.typings, t.source ∈ graphIds h₀ ∧ t.target ∈ graphIds h₀)
    (hvals : ∀ pr ∈ d, pr.2 ∉ graphIds h₀)
    {g vg : String} (hg : lookupA d g = some vg) :
    ∀ {l : List String} {st st' : Hierarchy × List (String × String)},
    foldE (dupTypingStepSuc d g) st l = .ok st' →
    (∀ x ∈ l, (lookupA d x).isSome) → DupInv h₀ d st →
    DupInv h₀ d st' ∧ (∀ x ∈ l, (g, x) ∈ st'.2) ∧ (∀ pq ∈ st.2, pq ∈ st'.2) := by
  intro l
  induction l with
  | nil =>
    intro st st' hf hl hinv
    cases hf
    exact ⟨hinv, by simp, fun pq hm => hm⟩
  | cons x xs ih =>
    intro st st' hf hl hinv
    rcases foldE_ok_split hf with ⟨st₁, hstep, hrest⟩
    rcases Option.isSome_iff_exists.mp (hl x (List.mem_cons_self _ _)) with ⟨vx, hvx⟩
    rcases dupTypingStepSuc_inv hnd hends hvals hg hvx hinv hstep with ⟨hinv₁, hpair⟩
    rcases ih hrest (fun y hy => hl y (List.mem_cons_of_mem _ hy)) hinv₁ with
      ⟨hinv', hall, hmono⟩
    refine ⟨hinv', ?_, ?_⟩
    · intro y hy
      rcases List.mem_cons.mp hy with rfl | hy
      · exact hmono _ (by rw [hpair]; exact List.mem_cons_self _ _)
      · exact hall y hy
    · intro pq hpq
      exact hmono _ (by rw [hpair]; exact List.mem_cons_of_mem _ hpq)

theorem dupFoldPred_inv {h₀ : Hierarchy} {d : List (String × String)}
    (hnd : (edgePairs h₀).Nodup)
    (hends : ∀ t ∈ h₀.typings, t.source ∈ graphIds h₀ ∧ t.target ∈ graphIds h₀)
    (hvals : ∀ pr ∈ d, pr.2 ∉ graphIds h₀)
    {g vg : String} (hg : lookupA d g = some vg) :
    ∀ {l : List String} {st st' : Hierarchy × List (String × String)},
    foldE (dupTypingStepPred d g) st l = .ok st' →
    (∀ x ∈ l, (lookupA d x).isSome) → DupInv h₀ d st →
    DupInv h₀ d st' ∧ (∀ x ∈ l, (x, g) ∈ st'.2) ∧ (∀ pq ∈ st.2, pq ∈ st'.2) := by
  intro l
  induction l with
  | nil =>
    intro st st' hf hl hinv
    cases hf
    exact ⟨hinv, by simp, fun pq hm => hm⟩
  | cons x xs ih =>
    intro st st' hf hl hinv
    rcases foldE_ok_split hf with ⟨st₁, hstep, hrest⟩
    rcases Option.isSome_iff_exists.mp (hl x (List.mem_cons_self _ _)) with ⟨vx, hvx⟩
    rcases dupTypingStepPred_inv hnd hends hvals hg hvx hinv hstep with ⟨hinv₁, hpair⟩
    rcases ih hrest (fun y hy => hl y (List.mem_cons_of_mem _ hy)) hinv₁ with
      ⟨hinv', hall, hmono⟩
    refine ⟨hinv', ?_, ?_⟩
    · intro y hy
      rcases List.mem_cons.mp hy with rfl | hy
      · exact hmono _ (by rw [hpair]; exact List.mem_cons_self _ _)
      · exact hall y hy
    · intro pq hpq
      exact hmono _ (by rw [hpair]; exact List.mem_cons_of_mem _ hpq)

theorem dupKeyStep_inv {h₀ : Hierarchy} {d : List (String × String)}
    (hnd : (edgePairs h₀).Nodup)
    (hends : ∀ t ∈ h₀.typings, t.source ∈ graphIds h₀ ∧ t.target ∈ graphIds h₀)
    (hvals : ∀ pr ∈ d, pr.2 ∉ graphIds h₀)
    {g : String} {st st' : Hierarchy × List (String × String)}
    (hgk : (lookupA d g).isSome)
    (hinv : DupInv h₀ d st) (hk : dupKeyStep d st g = .ok st') :
    DupInv h₀ d st' ∧ (∀ pq ∈ st.2, pq ∈ st'.2) ∧
    (∀ t ∈ h₀.typings, (lookupA d t.source).isSome →
      (lookupA d t.target).isSome →
      t.source = g ∨ t.target = g → (t.source, t.target) ∈ st'.2) := by
  rcases Option.isSome_iff_exists.mp hgk with ⟨vg, hvg⟩
  simp only [dupKeyStep] at hk
  cases hsuc : foldE (dupTypingStepSuc d g) st
      ((successors st.1 g).filter
        (fun p => (lookupA d p).isSome && !(st.2.contains (g, p)))) with
  | error e => rw [hsuc] at hk; cases hk
  | ok st₁ =>
    rw [hsuc, bind_ok] at hk
    have hsl : ∀ x ∈ (successors st.1 g).filter
        (fun p => (lookupA d p).isSome && !(st.2.contains (g, p))),
        (lookupA d x).isSome := by
      intro x hx
      have h2 := (List.mem_filter.mp hx).2
      simp only [Bool.and_eq_true] at h2
      exact h2.1
    rcases dupFoldSuc_inv hnd hends hvals hvg hsuc hsl hinv with ⟨hinv₁, hallS, hmono₁⟩
    have hpl : ∀ x ∈ (predecessors st.1 g).filter
        (fun p => (lookupA d p).isSome && !(st.2.contains (p, g))),
        (lookupA d x).isSome := by
      intro x hx
      have h2 := (List.mem_filter.mp hx).2
      simp only [Bool.and_eq_true] at h2
      exact h2.1
    rcases dupFoldPred_inv hnd hends hvals hvg hk hpl hinv₁ with ⟨hinv', hallP, hmono₂⟩
    refine ⟨hinv', fun pq hpq => hmono₂ _ (hmono₁ _ hpq), ?_⟩
    intro t ht hs hx hcase
    rcases hinv with ⟨⟨rest, hre, _⟩, _⟩
    have htmem : t ∈ st.1.typings := by
      rw [hre]; exact List.mem_append_left _ ht
    rcases hcase with hsrc | htgt
    · by_cases hvis : (t.source, t.target) ∈ st.2
      · exact hmono₂ _ (hmono₁ _ hvis)
      · have hxs : t.target ∈ (successors st.1 g).filter
            (fun p => (lookupA d p).isSome && !(st.2.contains (g, p))) := by
          refine List.mem_filter.mpr ⟨?_, ?_⟩
          · have := mem_successors htmem
            rwa [hsrc] at this
          · simp only [Bool.and_eq_true]
            refine ⟨hx, ?_⟩
            simp only [Bool.not_eq_true']
            rw [← hsrc]
            simpa using hvis
        have := hallS _ hxs
        rw [← hsrc] at this
        exact hmono₂ _ this
    · by_cases hvis : (t.source, t.target) ∈ st.2
      · exact hmono₂ _ (hmono₁ _ hvis)
      · have hxp : t.source ∈ (predecessors st.1 g).filter
            (fun p => (lookupA d p).isSome && !(st.2.contains (p, g))) := by
          refine List.mem_filter.mpr ⟨?_, ?_⟩
          · have := mem_predecessors htmem
            rwa [htgt] at this
          · simp only [Bool.and_eq_true]
            refine ⟨hs, ?_⟩
            simp only [Bool.not_eq_true']
            rw [← htgt]
            simpa using hvis
        have := hallP _ hxp
        rw [← htgt] at this
        exact this

theorem dupPhase2_inv {h₀ : Hierarchy} {d : List (String × String)}
    (hnd : (edgePairs h₀).Nodup)
    (hends : ∀ t ∈ h₀.typings, t.source ∈ graphIds h₀ ∧ t.target ∈ graphIds h₀)
    (hvals : ∀ pr ∈ d, pr.2 ∉ graphIds h₀) :
    ∀ {keys : List String} {st st' : Hierarchy × List (String × String)},
    foldE (dupKeyStep d) st keys = .ok st' →
    (∀ g ∈ keys, (lookupA d g).isSome) → DupInv h₀ d st →
    DupInv h₀ d st' ∧
    (∀ t ∈ h₀.typings, (lookupA d t.source).isSome →
      (lookupA d t.target).isSome →
      (t.source ∈ keys ∨ (t.source, t.target) ∈ st.2) →
      (t.source, t.target) ∈ st'.2) := by
  intro keys
  induction keys with
  | nil =>
    intro st st' hf hl hinv
    cases hf
    refine ⟨hinv, fun t ht h1 h2 hcase => ?_⟩
    rcases hcase with hmem | hvis
    · cases hmem
    · exact hvis
  | cons g keys ih =>
    intro st st' hf hl hinv
    rcases foldE_ok_split hf with ⟨st₁, hstep, hrest⟩
    rcases dupKeyStep_inv hnd hends hvals (hl g (List.mem_cons_self _ _)) hinv hstep
      with ⟨hinv₁, hmono₁, hcov₁⟩
    rcases ih hrest (fun y hy => hl y (List.mem_cons_of_mem _ hy)) hinv₁ with
      ⟨hinv', hcov'⟩
    refine ⟨hinv', fun t ht h1 h2 hcase => ?_⟩
    rcases hcase with hmem | hvis
    · rcases List.mem_cons.mp hmem with hsg | hmem
      · exact hcov' t ht h1 h2 (Or.inr (hcov₁ t ht h1 h2 (Or.inl hsg)))
      · exact hcov' t ht h1 h2 (Or.inl hmem)
    · exact hcov' t ht h1 h2 (Or.inr (hmono₁ _ hvis))

theorem copyFold_extends {h₀ : Hierarchy} {attach : List String} :
    ∀ {l : List (String × String)} {h h' : Hierarchy},
    foldE (fun h pr => copy_graph h pr.1 pr.2 attach) h l = .ok h' →
    (∀ pr ∈ l, pr.2 ∉ graphIds h₀) →
    (∃ rest, h.typings = h₀.typings ++ rest ∧
      ∀ t ∈ rest, t.source ∉ graphIds h₀ ∨ t.target ∉ graphIds h₀) →
    ∃ rest, h'.typings = h₀.typings ++ rest ∧
      ∀ t ∈ rest, t.source ∉ graphIds h₀ ∨ t.target ∉ graphIds h₀ := by
  intro l
  induction l with
  | nil =>
    intro h h' hf _ hext
    cases hf
    exact hext
  | cons pr prs ih =>
    intro h h' hf hl hext
    rcases foldE_ok_split hf with ⟨h₁, hstep, hrest⟩
    rcases copy_graph_typings hstep with ⟨r₁, hr₁, hp₁⟩
    rcases hext with ⟨rest, hre, hrp⟩
    refine ih hrest (fun q hq => hl q (List.mem_cons_of_mem _ hq)) ?_
    refine ⟨rest ++ r₁, by rw [hr₁, hre, List.append_assoc], ?_⟩
    intro t ht
    rcases List.mem_append.mp ht with ht | ht
    · exact hrp t ht
    · rcases hp₁ t ht with hsrc | htgt
      · exact Or.inl (hsrc ▸ hl pr (List.mem_cons_self _ _))
      · exact Or.inr (htgt ▸ hl pr (List.mem_cons_self _ _))

/-- C7: `duplicate_subgraph` is atomic with respect to id collisions — if
any new id of the dictionary already names a graph, the call raises
`HierarchyError` before any copy or typing addition, so the hierarchy is
unchanged; and on success every typing edge between two duplicated graphs is
reproduced between their copies with the same mapping. -/
theorem c7_duplicate_subgraph_atomic (h : Hierarchy)
    (graphDict : List (String × String)) (attach : List String)
    (hnd : (edgePairs h).Nodup)
    (hends : ∀ t ∈ h.typings, t.source ∈ graphIds h ∧ t.target ∈ graphIds h) :
    ((∃ pr ∈ graphDict, pr.2 ∈ graphIds h) →
      duplicate_subgraph h graphDict attach = .error .hierarchyErr) ∧
    (∀ h', duplicate_subgraph h graphDict attach = .ok h' →
      ∀ t ∈ h.typings, ∀ s' t'' : String,
        lookupA graphDict t.source = some s' →
        lookupA graphDict t.target = some t'' →
        getTyping h' s' t'' = some t.mapping) := by
  constructor
  · rintro ⟨pr, hpr, hmem⟩
    unfold duplicate_subgraph
    have hfail : dupCollisionCheck h graphDict = .error .hierarchyErr := by
      unfold dupCollisionCheck
      refine forEachE_fails (fun x _ => ?_) ⟨pr, hpr, ?_⟩
      · by_cases hc : ((graphIds h).contains x.2) = true
        · right; rw [if_pos hc]; rfl
        · left; rw [if_neg hc]; rfl
      · rw [if_pos (by simpa using hmem)]
        intro hcon
        cases hcon
    rw [hfail]
    rfl
  · intro h' hk
    unfold duplicate_subgraph at hk
    cases hc : dupCollisionCheck h graphDict with
    | error e => rw [hc] at hk; cases hk
    | ok u =>
      cases u
      rw [hc, bind_ok] at hk
      have hvals : ∀ pr ∈ graphDict, pr.2 ∉ graphIds h := by
        intro pr hpr
        have := forEachE_ok_iff.mp hc pr hpr
        by_cases hcc : ((graphIds h).contains pr.2) = true
        · rw [if_pos hcc] at this; cases this
        · simpa using hcc
      cases hcopy : foldE (fun h pr => copy_graph h pr.1 pr.2 attach) h graphDict with
      | error e => rw [hcopy] at hk; cases hk
      | ok h₁ =>
        rw [hcopy, bind_ok] at hk
        cases hp2 : foldE (dupKeyStep graphDict)
            ((h₁, ([] : List (String × String)))) (graphDict.map (·.1)) with
        | error e => rw [hp2] at hk; cases hk
        | ok stf =>
          rw [hp2, bind_ok, pure_eq] at hk
          cases hk
          have hbase : DupInv h graphDict (h₁, []) := by
            constructor
            · exact copyFold_extends hcopy hvals ⟨[], by simp, by intro t ht; cases ht⟩
            · intro pq hpq
              cases hpq
          have hkeys : ∀ g ∈ graphDict.map (·.1), (lookupA graphDict g).isSome :=
            fun g hg => keysOf_isSome hg
          rcases dupPhase2_inv hnd hends hvals hp2 hkeys hbase with ⟨hinv', hcov'⟩
          intro t ht s' t'' hs' ht''
          have hpair : (t.source, t.target) ∈ stf.2 := by
            refine hcov' t ht (by simp [hs']) (by simp [ht'']) (Or.inl ?_)
            exact isSome_mem_keysOf (by simp [hs'])
          exact hinv'.2 _ hpair t ht rfl rfl s' t'' hs' ht''

/-- Hierarchy of the C7 witness: `g1` (node `n`) typed by `g2` (node `m`). -/
def c7H : Hierarchy :=
  ⟨[⟨"g1", ⟨[("n", [])], []⟩, []⟩, ⟨"g2", ⟨[("m", [])], []⟩, []⟩],
   [⟨"g1", "g2", [("n", "m")], []⟩], []⟩

/-- Duplication dictionary of the C7 witness. -/
def c7Dict : List (String × String) := [("g1", "c1"), ("g2", "c2")]

/-- Result of the successful duplication of the C7 witness. -/
def c7Expected : Hierarchy :=
  ⟨[⟨"g1", ⟨[("n", [])], []⟩, []⟩, ⟨"g2", ⟨[("m", [])], []⟩, []⟩,
    ⟨"c1", ⟨[("n", [])], []⟩, []⟩, ⟨"c2", ⟨[("m", [])], []⟩, []⟩],
   [⟨"g1", "g2", [("n", "m")], []⟩, ⟨"c1", "c2", [("n", "m")], []⟩], []⟩

/-- Witness for C7: a colliding dictionary (new id `g2`) raises
`HierarchyError`, while the collision-free duplication succeeds and
reproduces the typing `g1 → g2` between the copies `c1 → c2`. -/
theorem c7_witness :
    (edgePairs c7H).Nodup ∧
    (∀ t ∈ c7H.typings, t.source ∈ graphIds c7H ∧ t.target ∈ graphIds c7H) ∧
    duplicate_subgraph c7H [("g1", "g2")] [] = .error .hierarchyErr ∧
    duplicate_subgraph c7H c7Dict [] = .ok c7Expected ∧
    getTyping c7Expected "c1" "c2" = some [("n", "m")] :=
  ⟨by decide, by decide,
    (c7_duplicate_subgraph_atomic c7H [("g1", "g2")] [] (by decide)
      (by decide)).1 ⟨("g1", "g2"), by decide, by decide⟩,
    rfl,
    (c7_duplicate_subgraph_atomic c7H c7Dict [] (by decide) (by decide)).2
      c7Expected rfl ⟨"g1", "g2", [("n", "m")], []⟩ (by decide) "c1" "c2"
      rfl rfl⟩

/-! Behaviour of `bfs_tree` (claim C9). -/

/-- Chain test along the BFS direction: consecutive elements are joined by a
typing edge in the walk direction. -/
def chainB (h : Hierarchy) (rev : Bool) : List String → Bool
  | [] => false
  | [_] => true
  | u :: v :: rest => (nbrs h rev u).contains v && chainB h rev (v :: rest)

/-- Reachability in exactly `n` steps along the BFS direction. -/
inductive StepsTo (h : Hierarchy) (rev : Bool) (g : String) : String → Nat → Prop where
  | refl : StepsTo h rev g g 0
  | step {v w : String} {n : Nat} : StepsTo h rev g v n → w ∈ nbrs h rev v →
      StepsTo h rev g w (n + 1)

/-- The BFS distance of a vertex is `n`: reachable in `n` steps and in no
fewer. -/
def DistIs (h : Hierarchy) (rev : Bool) (g v : String) (n : Nat) : Prop :=
  StepsTo h rev g v n ∧ ∀ m, StepsTo h rev g v m → n ≤ m

theorem distIs_unique {h : Hierarchy} {rev : Bool} {g v : String} {n m : Nat}
    (hn : DistIs h rev g v n) (hm : DistIs h rev g v m) : n = m :=
  Nat.le_antisymm (hn.2 m hm.1) (hm.2 n hn.1)

theorem distIs_self (h : Hierarchy) (rev : Bool) (g : String) :
    DistIs h rev g g 0 :=
  ⟨.refl, fun m _ => Nat.zero_le m⟩

theorem stepsTo_zero {h : Hierarchy} {rev : Bool} {g v : String}
    (hs : StepsTo h rev g v 0) : v = g := by
  cases hs
  rfl

theorem exists_distIs {h : Hierarchy} {rev : Bool} {g v : String} {n : Nat}
    (hs : StepsTo h rev g v n) : ∃ m, m ≤ n ∧ DistIs h rev g v m := by
  classical
  have hex : ∃ m, StepsTo h rev g v m := ⟨n, hs⟩
  exact ⟨Nat.find hex, Nat.find_min' hex hs,
    Nat.find_spec hex, fun m hm => Nat.find_min' hex hm⟩

theorem stepsTo_succ_inv {h : Hierarchy} {rev : Bool} {g v : String} {n : Nat}
    (hs : StepsTo h rev g v (n + 1)) :
    ∃ u, StepsTo h rev g u n ∧ v ∈ nbrs h rev u := by
  cases hs with
  | step hu hnb => exact ⟨_, hu, hnb⟩

theorem distIs_succ_inv {h : Hierarchy} {rev : Bool} {g v : String} {n : Nat}
    (hd : DistIs h rev g v (n + 1)) :
    ∃ u, DistIs h rev g u n ∧ v ∈ nbrs h rev u := by
  rcases stepsTo_succ_inv hd.1 with ⟨u, hu, hnb⟩
  rcases exists_distIs hu with ⟨m, hmn, hdu⟩
  rcases Nat.lt_or_ge m n with hlt | hge
  · exfalso
    have : StepsTo h rev g v (m + 1) := .step hdu.1 hnb
    have := hd.2 _ this
    omega
  · have hmn' : m = n := Nat.le_antisymm hmn hge
    subst hmn'
    exact ⟨u, hdu, hnb⟩

theorem distIs_intermediate {h : Hierarchy} {rev : Bool} {g : String} :
    ∀ {k : Nat} {v : String}, DistIs h rev g v k →
    ∀ j ≤ k, ∃ u, DistIs h rev g u j := by
  intro k
  induction k with
  | zero =>
    intro v hd j hj
    interval_cases j
    exact ⟨v, hd⟩
  | succ k ih =>
    intro v hd j hj
    rcases Nat.lt_or_ge j (k + 1) with hlt | hge
    · rcases distIs_succ_inv hd with ⟨u, hdu, _⟩
      exact ih hdu j (by omega)
    · have : j = k + 1 := by omega
      subst this
      exact ⟨v, hd⟩

theorem mem_successors_inv {h : Hierarchy} {u v : String}
    (hv : v ∈ successors h u) : ∃ t ∈ h.typings, t.source = u ∧ t.target = v := by
  unfold successors at hv
  rcases List.mem_filterMap.mp hv with ⟨t, ht, hteq⟩
  by_cases hc : t.source = u
  · rw [if_pos hc] at hteq
    injection hteq with he
    exact ⟨t, ht, hc, he⟩
  · rw [if_neg hc] at hteq
    cases hteq

theorem mem_predecessors_inv {h : Hierarchy} {u v : String}
    (hv : v ∈ predecessors h u) : ∃ t ∈ h.typings, t.target = u ∧ t.source = v := by
  unfold predecessors at hv
  rcases List.mem_filterMap.mp hv with ⟨t, ht, hteq⟩
  by_cases hc : t.target = u
  · rw [if_pos hc] at hteq
    injection hteq with he
    exact ⟨t, ht, hc, he⟩
  · rw [if_neg hc] at hteq
    cases hteq

theorem mem_nbrs_graphIds {h : Hierarchy} {rev : Bool} {u v : String}
    (hends : ∀ t ∈ h.typings, t.source ∈ graphIds h ∧ t.target ∈ graphIds h)
    (hv : v ∈ nbrs h rev u) : v ∈ graphIds h := by
  cases rev with
  | true =>
    rw [show nbrs h true u = predecessors h u from rfl] at hv
    rcases mem_predecessors_inv hv with ⟨t, ht, _, hsv⟩
    exact hsv ▸ (hends t ht).1
  | false =>
    rw [show nbrs h false u = successors h u from rfl] at hv
    rcases mem_successors_inv hv with ⟨t, ht, _, htv⟩
    exact htv ▸ (hends t ht).2

theorem stepsTo_graphIds {h : Hierarchy} {rev : Bool} {g v : String} {n : Nat}
    (hends : ∀ t ∈ h.typings, t.source ∈ graphIds h ∧ t.target ∈ graphIds h)
    (hg : g ∈ graphIds h) (hs : StepsTo h rev g v n) : v ∈ graphIds h := by
  cases hs with
  | refl => exact hg
  | step _ hnb => exact mem_nbrs_graphIds hends hnb

theorem distIs_bound {h : Hierarchy} {rev : Bool} {g v : String} {n : Nat}
    (hends : ∀ t ∈ h.typings, t.source ∈ graphIds h ∧ t.target ∈ graphIds h)
    (hg : g ∈ graphIds h) (hd : DistIs h rev g v n) : n ≤ h.graphs.length := by
  classical
  have hchoice : ∀ j : Fin (n + 1), ∃ u, DistIs h rev g u j :=
    fun j => distIs_intermediate hd j (by omega)
  choose f hf using hchoice
  have hinj : Function.Injective f := by
    intro i j hij
    have : (i : Nat) = (j : Nat) := by
      have h1 := hf i
      have h2 := hf j
      rw [hij] at h1
      exact distIs_unique h1 h2
    exact Fin.ext this
  have hmem : ∀ j : Fin (n + 1), f j ∈ (graphIds h).toFinset := by
    intro j
    have := (hf j).1
    simpa using stepsTo_graphIds hends hg this
  have hcard : (Finset.univ : Finset (Fin (n + 1))).card ≤ (graphIds h).toFinset.card :=
    Finset.card_le_card_of_injOn f (fun j _ => hmem j) (fun i _ j _ hij => hinj hij)
  have huniv : (Finset.univ : Finset (Fin (n + 1))).card = n + 1 := by simp
  have hlen1 : n + 1 ≤ (graphIds h).length := by
    calc n + 1 = (Finset.univ : Finset (Fin (n + 1))).card := huniv.symm
    _ ≤ (graphIds h).toFinset.card := hcard
    _ ≤ (graphIds h).length := (graphIds h).toFinset_card_le
  have hlen : (graphIds h).length = h.graphs.length := by
    simp [graphIds]
  omega

theorem no_self_nbr {h : Hierarchy} {rev : Bool} {g : String}
    (rank : String → Nat)
    (hrank : ∀ t ∈ h.typings, rank t.source < rank t.target) :
    g ∉ nbrs h rev g := by
  intro hmem
  cases rev with
  | true =>
    rw [show nbrs h true g = predecessors h g from rfl] at hmem
    rcases mem_predecessors_inv hmem with ⟨t, ht, htg, hsg⟩
    have hr := hrank t ht
    rw [htg, hsg] at hr
    exact lt_irrefl _ hr
  | false =>
    rw [show nbrs h false g = successors h g from rfl] at hmem
    rcases mem_successors_inv hmem with ⟨t, ht, hsg, htg⟩
    have hr := hrank t ht
    rw [htg, hsg] at hr
    exact lt_irrefl _ hr

/-- Membership in a `foldl` that appends `f u` for every `u` of the list. -/
theorem mem_foldl_collect {α β : Type} (f : α → List β) :
    ∀ (l : List α) (acc : List β) (v : β),
    v ∈ l.foldl (fun a x => a ++ f x) acc ↔ v ∈ acc ∨ ∃ u ∈ l, v ∈ f u := by
  intro l
  induction l with
  | nil => simp
  | cons x xs ih =>
    intro acc v
    rw [List.foldl_cons, ih]
    simp only [List.mem_append, List.mem_cons]
    constructor
    · rintro ((hv | hv) | ⟨u, hu, hfu⟩)
      · exact Or.inl hv
      · exact Or.inr ⟨x, Or.inl rfl, hv⟩
      · exact Or.inr ⟨u, Or.inr hu, hfu⟩
    · rintro (hv | ⟨u, (rfl | hu), hfu⟩)
      · exact Or.inl (Or.inl hv)
      · exact Or.inl (Or.inr hfu)
      · exact Or.inr ⟨u, hu, hfu⟩

/-- A node enters a BFS level iff it neighbours the previous level and is not
yet in the result. -/
theorem mem_levelNext {h : Hierarchy} {rev : Bool}
    {result current : List String} {v : String} :
    v ∈ levelNext h rev result current ↔
      ∃ u ∈ current, v ∈ nbrs h rev u ∧ v ∉ result := by
  unfold levelNext
  rw [mem_foldl_collect (fun u => (nbrs h rev u).filter
    (fun p => !(result.contains p)))]
  simp [List.mem_filter]

/-- The loop only appends to the result it is given. -/
theorem bfsLoop_extends (h : Hierarchy) (rev : Bool) :
    ∀ (fuel : Nat) (result current : List String),
    ∃ tail, bfsLoop h rev fuel result current = result ++ tail := by
  intro fuel
  induction fuel with
  | zero =>
    intro result current
    exact ⟨[], (List.append_nil _).symm⟩
  | succ fuel ih =>
    intro result current
    by_cases hemp : current.isEmpty = true
    · refine ⟨[], ?_⟩
      rw [show bfsLoop h rev (fuel+1) result current =
        if current.isEmpty then result
        else bfsLoop h rev fuel (result ++ levelNext h rev result current)
          (levelNext h rev result current) from rfl]
      rw [if_pos hemp, List.append_nil]
    · rcases ih (result ++ levelNext h rev result current)
        (levelNext h rev result current) with ⟨tail, htail⟩
      refine ⟨levelNext h rev result current ++ tail, ?_⟩
      rw [show bfsLoop h rev (fuel+1) result current =
        if current.isEmpty then result
        else bfsLoop h rev fuel (result ++ levelNext h rev result current)
          (levelNext h rev result current) from rfl]
      rw [if_neg hemp, htail, List.append_assoc]

/-- Position ordering used for the BFS guarantee: whatever the two BFS
distances are, the first is not larger. -/
def distLE (h : Hierarchy) (rev : Bool) (g : String) (u v : String) : Prop :=
  ∀ du dv, DistIs h rev g u du → DistIs h rev g v dv → du ≤ dv

/-- Main loop invariant: if `current` is exactly the distance-`k` level and
`result` is exactly the vertices within distance `k`, listed in nondecreasing
distance order, and the fuel dominates the remaining diameter, then the loop
returns exactly the reachable vertices in nondecreasing distance order. -/
theorem bfsLoop_correct {h : Hierarchy} {rev : Bool} {g : String}
    (hends : ∀ t ∈ h.typings, t.source ∈ graphIds h ∧ t.target ∈ graphIds h)
    (hg : g ∈ graphIds h) :
    ∀ (fuel k : Nat) (result current : List String),
    h.graphs.length + 1 ≤ fuel + k →
    (∀ v, v ∈ current ↔ DistIs h rev g v k) →
    (∀ v, v ∈ result ↔ ∃ m, m ≤ k ∧ StepsTo h rev g v m) →
    result.Pairwise (distLE h rev g) →
    (∀ v, v ∈ bfsLoop h rev fuel result current ↔ ∃ n, StepsTo h rev g v n) ∧
    (bfsLoop h rev fuel result current).Pairwise (distLE h rev g) := by
  intro fuel
  induction fuel with
  | zero =>
    intro k result current hfuel hA hB hP
    have hred : bfsLoop h rev 0 result current = result := rfl
    rw [hred]
    refine ⟨fun v => ⟨fun hv => ?_, fun hv => ?_⟩, hP⟩
    · rcases (hB v).mp hv with ⟨m, _, hs⟩
      exact ⟨m, hs⟩
    · rcases hv with ⟨n, hs⟩
      rcases exists_distIs hs with ⟨d, hdn, hd⟩
      have hdb : d ≤ h.graphs.length := distIs_bound hends hg hd
      exact (hB v).mpr ⟨d, by omega, hd.1⟩
  | succ fuel ih =>
    intro k result current hfuel hA hB hP
    by_cases hemp : current.isEmpty = true
    · have hcur : current = [] := by
        cases current with
        | nil => rfl
        | cons x xs => cases hemp
      subst hcur
      have hred : bfsLoop h rev (fuel+1) result [] = result := rfl
      rw [hred]
      refine ⟨fun v => ⟨fun hv => ?_, fun hv => ?_⟩, hP⟩
      · rcases (hB v).mp hv with ⟨m, _, hs⟩
        exact ⟨m, hs⟩
      · rcases hv with ⟨n, hs⟩
        rcases exists_distIs hs with ⟨d, hdn, hd⟩
        rcases le_or_lt d k with hdk | hdk
        · exact (hB v).mpr ⟨d, hdk, hd.1⟩
        · exfalso
          rcases distIs_intermediate hd k (by omega) with ⟨u, hu⟩
          exact absurd ((hA u).mpr hu) (List.not_mem_nil u)
    · have hred : bfsLoop h rev (fuel+1) result current =
          bfsLoop h rev fuel (result ++ levelNext h rev result current)
            (levelNext h rev result current) := by
        rw [show bfsLoop h rev (fuel+1) result current =
          if current.isEmpty then result
          else bfsLoop h rev fuel (result ++ levelNext h rev result current)
            (levelNext h rev result current) from rfl]
        rw [if_neg hemp]
      have hA' : ∀ v, v ∈ levelNext h rev result current ↔
          DistIs h rev g v (k+1) := by
        intro v
        rw [mem_levelNext]
        constructor
        · rintro ⟨u, hu, hvnb, hvres⟩
          have hdu := (hA u).mp hu
          refine ⟨.step hdu.1 hvnb, fun m hm => ?_⟩
          by_contra hlt
          push_neg at hlt
          exact hvres ((hB v).mpr ⟨m, by omega, hm⟩)
        · intro hd
          rcases distIs_succ_inv hd with ⟨u, hdu, hvnb⟩
          refine ⟨u, (hA u).mpr hdu, hvnb, fun hvres => ?_⟩
          rcases (hB v).mp hvres with ⟨m, hmk, hs⟩
          have := hd.2 m hs
          omega
      have hB' : ∀ v, v ∈ result ++ levelNext h rev result current ↔
          ∃ m, m ≤ k + 1 ∧ StepsTo h rev g v m := by
        intro v
        rw [List.mem_append]
        constructor
        · rintro (hv | hv)
          · rcases (hB v).mp hv with ⟨m, hmk, hs⟩
            exact ⟨m, by omega, hs⟩
          · exact ⟨k+1, le_refl _, ((hA' v).mp hv).1⟩
        · rintro ⟨m, hmk, hs⟩
          rcases exists_distIs hs with ⟨d, hdm, hd⟩
          rcases le_or_lt d k with hdk | hdk
          · exact Or.inl ((hB v).mpr ⟨d, hdk, hd.1⟩)
          · have hdk1 : d = k + 1 := by omega
            exact Or.inr ((hA' v).mpr (hdk1 ▸ hd))
      have hP' : (result ++ levelNext h rev result current).Pairwise
          (distLE h rev g) := by
        rw [List.pairwise_append]
        refine ⟨hP, ?_, ?_⟩
        · apply List.pairwise_of_forall_mem_list
          intro a ha b hb du dv hdu hdv
          have h1 := distIs_unique hdu ((hA' a).mp ha)
          have h2 := distIs_unique hdv ((hA' b).mp hb)
          omega
        · intro a ha b hb du dv hdu hdv
          rcases (hB a).mp ha with ⟨m, hmk, hs⟩
          have h1 : du ≤ m := hdu.2 m hs
          have h2 := distIs_unique hdv ((hA' b).mp hb)
          omega
      rw [hred]
      exact ih (k+1) _ _ (by omega) hA' hB' hP'

/-- C9 `corrected`: for a hierarchy whose typing edges form a DAG (witnessed
by a rank function) with endpoints among the graph ids, `bfs_tree(g, rev)`
starts at `g`, enumerates exactly the graphs reachable from `g` in the walk
direction (so membership is as claimed), and lists them in nondecreasing
BFS-distance order; but, contrary to the claim, a reachable graph need not
occur exactly once (see the counterexample). -/
theorem c9_bfs_tree_amended (h : Hierarchy) (rev : Bool) (g : String)
    (rank : String → Nat)
    (hrank : ∀ t ∈ h.typings, rank t.source < rank t.target)
    (hends : ∀ t ∈ h.typings, t.source ∈ graphIds h ∧ t.target ∈ graphIds h)
    (hg : g ∈ graphIds h) :
    (bfsTree h g rev).head? = some g ∧
    (∀ v, v ∈ bfsTree h g rev ↔ ∃ n, StepsTo h rev g v n) ∧
    (bfsTree h g rev).Pairwise (distLE h rev g) := by
  have hA1 : ∀ v, v ∈ nbrs h rev g ↔ DistIs h rev g v 1 := by
    intro v
    constructor
    · intro hv
      refine ⟨.step .refl hv, fun m hm => ?_⟩
      cases m with
      | zero =>
        have hvg : v = g := stepsTo_zero hm
        subst hvg
        exact absurd hv (no_self_nbr rank hrank)
      | succ m => omega
    · intro hd
      rcases stepsTo_succ_inv hd.1 with ⟨u, hu, hvnb⟩
      have hug : u = g := stepsTo_zero hu
      subst hug
      exact hvnb
  have hB1 : ∀ v, v ∈ g :: nbrs h rev g ↔
      ∃ m, m ≤ 1 ∧ StepsTo h rev g v m := by
    intro v
    rw [List.mem_cons]
    constructor
    · rintro (rfl | hv)
      · exact ⟨0, by omega, .refl⟩
      · exact ⟨1, le_refl _, .step .refl hv⟩
    · rintro ⟨m, hm1, hs⟩
      cases m with
      | zero => exact Or.inl (stepsTo_zero hs)
      | succ m =>
        have hm0 : m = 0 := by omega
        subst hm0
        rcases stepsTo_succ_inv hs with ⟨u, hu, hvnb⟩
        have hug : u = g := stepsTo_zero hu
        subst hug
        exact Or.inr hvnb
  have hP1 : (g :: nbrs h rev g).Pairwise (distLE h rev g) := by
    rw [List.pairwise_cons]
    constructor
    · intro v hv du dv hdu hdv
      have h0 : du = 0 := distIs_unique hdu (distIs_self h rev g)
      omega
    · apply List.pairwise_of_forall_mem_list
      intro a ha b hb du dv hdu hdv
      have h1 := distIs_unique hdu ((hA1 a).mp ha)
      have h2 := distIs_unique hdv ((hA1 b).mp hb)
      omega
  have hmain := bfsLoop_correct hends hg (h.graphs.length + 1) 1
    (g :: nbrs h rev g) (nbrs h rev g) (by omega) hA1 hB1 hP1
  have hbfs : bfsTree h g rev =
      bfsLoop h rev (h.graphs.length + 1) (g :: nbrs h rev g)
        (nbrs h rev g) := rfl
  refine ⟨?_, ?_, ?_⟩
  · rcases bfsLoop_extends h rev (h.graphs.length + 1)
      (g :: nbrs h rev g) (nbrs h rev g) with ⟨tail, htail⟩
    rw [hbfs, htail]
    rfl
  · intro v
    rw [hbfs]
    exact hmain.1 v
  · rw [hbfs]
    exact hmain.2

/-- Diamond hierarchy for the C9 counterexample: typing edges g→a, g→b,
a→c, b→c. -/
def c9H : Hierarchy :=
  ⟨[⟨"g", ⟨[], []⟩, []⟩, ⟨"a", ⟨[], []⟩, []⟩,
    ⟨"b", ⟨[], []⟩, []⟩, ⟨"c", ⟨[], []⟩, []⟩],
   [⟨"g", "a", [], []⟩, ⟨"g", "b", [], []⟩,
    ⟨"a", "c", [], []⟩, ⟨"b", "c", [], []⟩], []⟩

/-- C9 counterexample: on the diamond, `bfs_tree` lists the sink `c` twice —
within one level the filter only consults the result of earlier levels
(`regraph/neo4j/hierarchies.py:599-604`), so the claim's "every reachable
graph occurs exactly once" fails. -/
theorem c9_counterexample :
    bfsTree c9H "g" false = ["g", "a", "b", "c", "c"] ∧
    ¬ (bfsTree c9H "g" false).Nodup := by
  refine ⟨rfl, ?_⟩
  decide

/-- Two-graph hierarchy g→a used to instantiate the amended C9 theorem. -/
def c9W : Hierarchy :=
  ⟨[⟨"g", ⟨[], []⟩, []⟩, ⟨"a", ⟨[], []⟩, []⟩],
   [⟨"g", "a", [], []⟩], []⟩

/-- Witness for the amended C9 theorem on the concrete hierarchy `c9W`. -/
theorem c9_witness :
    (bfsTree c9W "g" false).head? = some "g" ∧
    (∀ v, v ∈ bfsTree c9W "g" false ↔ ∃ n, StepsTo c9W false "g" v n) ∧
    (bfsTree c9W "g" false).Pairwise (distLE c9W false "g") :=
  c9_bfs_tree_amended c9W false "g"
    (fun s => if s = "a" then 1 else 0) (by decide) (by decide) (by decide)

/-! Behaviour of `get_ancestors` / `get_descendants` (claim C8). -/

/-- A dictionary whose keys are pairwise distinct — an invariant every Python
dictionary enjoys. -/
def nodupKeys {α : Type} (m : List (String × α)) : Prop :=
  (keysOf m).Nodup

theorem lookupA_eq_none {α : Type} {m : List (String × α)} {k : String}
    (h : k ∉ keysOf m) : lookupA m k = none := by
  cases hl : lookupA m k with
  | none => rfl
  | some v => exact absurd (isSome_mem_keysOf (by rw [hl]; rfl)) h

theorem lookupA_of_mem_nodup {α : Type} :
    ∀ {m : List (String × α)} {k : String} {v : α},
    nodupKeys m → (k, v) ∈ m → lookupA m k = some v := by
  intro m
  induction m with
  | nil => intro k v _ hm; cases hm
  | cons x xs ih =>
    intro k v hnd hm
    obtain ⟨k₁, v₁⟩ := x
    simp only [nodupKeys, keysOf, List.map_cons, List.nodup_cons] at hnd
    rcases List.mem_cons.mp hm with heq | hm
    · injection heq with h1 h2
      subst h1
      subst h2
      simp [lookupA]
    · have hne : k₁ ≠ k := by
        intro he
        exact hnd.1 (he ▸ List.mem_map.mpr ⟨(k, v), hm, rfl⟩)
      simp only [lookupA, if_neg hne]
      exact ih hnd.2 hm

theorem lookupA_insertA {α : Type} :
    ∀ (m : List (String × α)) (k : String) (v : α) (x : String),
    lookupA (insertA m k v) x = if k = x then some v else lookupA m x := by
  intro m
  induction m with
  | nil =>
    intro k v x
    simp only [insertA, lookupA]
  | cons p rest ih =>
    intro k v x
    obtain ⟨k₁, v₁⟩ := p
    by_cases h1 : k₁ = k
    · subst h1
      simp only [insertA, if_pos rfl, lookupA]
      by_cases h2 : k₁ = x <;> simp [h2]
    · simp only [insertA, if_neg h1, lookupA]
      by_cases h2 : k₁ = x
      · subst h2
        rw [if_pos rfl, if_neg (fun he => h1 he.symm), if_pos rfl]
      · rw [if_neg h2, if_neg h2, ih]

theorem keysOf_insertA {α : Type} :
    ∀ (m : List (String × α)) (k : String) (v : α),
    keysOf (insertA m k v) = if k ∈ keysOf m then keysOf m else keysOf m ++ [k] := by
  intro m
  induction m with
  | nil => intro k v; simp [insertA, keysOf]
  | cons p rest ih =>
    intro k v
    obtain ⟨k₁, v₁⟩ := p
    by_cases h1 : k₁ = k
    · subst h1
      simp [insertA, keysOf]
    · rw [show insertA ((k₁, v₁) :: rest) k v = (k₁, v₁) :: insertA rest k v by
        simp [insertA, h1]]
      rw [show keysOf ((k₁, v₁) :: insertA rest k v) = k₁ :: keysOf (insertA rest k v)
        from rfl]
      rw [show keysOf ((k₁, v₁) :: rest) = k₁ :: keysOf rest from rfl]
      rw [ih]
      by_cases h2 : k ∈ keysOf rest
      · rw [if_pos h2, if_pos (List.mem_cons.mpr (Or.inr h2))]
      · rw [if_neg h2, if_neg (by
          intro hmem
          rcases List.mem_cons.mp hmem with he | he
          · exact h1 he.symm
          · exact h2 he)]
        rfl

theorem nodupKeys_insertA {α : Type} {m : List (String × α)} (k : String) (v : α)
    (h : nodupKeys m) : nodupKeys (insertA m k v) := by
  unfold nodupKeys at h ⊢
  rw [keysOf_insertA]
  by_cases h2 : k ∈ keysOf m
  · rw [if_pos h2]
    exact h
  · rw [if_neg h2]
    simpa [List.nodup_append] using ⟨h, h2⟩

theorem lookupA_updateA_none {α : Type} :
    ∀ {m₂ : List (String × α)} (m : List (String × α)) {k : String},
    lookupA m₂ k = none → lookupA (updateA m m₂) k = lookupA m k := by
  intro m₂
  induction m₂ with
  | nil => intro m k _; rfl
  | cons p rest ih =>
    intro m k hk
    obtain ⟨k₂, v₂⟩ := p
    simp only [lookupA] at hk
    by_cases h2 : k₂ = k
    · rw [if_pos h2] at hk
      cases hk
    · rw [if_neg h2] at hk
      have hstep : updateA m ((k₂, v₂) :: rest) = updateA (insertA m k₂ v₂) rest := rfl
      rw [hstep, ih _ hk, lookupA_insertA, if_neg h2]

theorem lookupA_updateA_some {α : Type} :
    ∀ {m₂ : List (String × α)} (m : List (String × α)) {k : String} {v : α},
    nodupKeys m₂ → lookupA m₂ k = some v →
    lookupA (updateA m m₂) k = some v := by
  intro m₂
  induction m₂ with
  | nil => intro m k v _ hk; cases hk
  | cons p rest ih =>
    intro m k v hnd hk
    obtain ⟨k₂, v₂⟩ := p
    simp only [nodupKeys, keysOf, List.map_cons, List.nodup_cons] at hnd
    simp only [lookupA] at hk
    have hstep : updateA m ((k₂, v₂) :: rest) = updateA (insertA m k₂ v₂) rest := rfl
    by_cases h2 : k₂ = k
    · rw [if_pos h2] at hk
      subst h2
      have hrest : lookupA rest k₂ = none :=
        lookupA_eq_none (by simpa [keysOf] using hnd.1)
      rw [hstep, lookupA_updateA_none _ hrest, lookupA_insertA, if_pos rfl, hk]
    · rw [if_neg h2] at hk
      rw [hstep]
      exact ih _ (by simpa [nodupKeys, keysOf] using hnd.2) hk

theorem nodupKeys_updateA {α : Type} :
    ∀ (m₂ m : List (String × α)), nodupKeys m → nodupKeys (updateA m m₂) := by
  intro m₂
  induction m₂ with
  | nil => intro m h; exact h
  | cons p rest ih =>
    intro m h
    exact ih _ (nodupKeys_insertA p.1 p.2 h)

theorem mem_keys_composeM {f g : Mapping} {x : String} :
    x ∈ keysOf (composeM f g) → x ∈ keysOf f := by
  intro hx
  unfold keysOf at hx ⊢
  unfold composeM at hx
  rcases List.mem_map.mp hx with ⟨p, hp, hpx⟩
  rcases List.mem_filterMap.mp hp with ⟨q, hq, hqp⟩
  rcases Option.map_eq_some'.mp hqp with ⟨w, _, hw⟩
  exact List.mem_map.mpr ⟨q, hq, by rw [← hpx, ← hw]⟩

theorem lookupA_composeM {g : Mapping} :
    ∀ {f : Mapping}, nodupKeys f → ∀ (x : String),
    lookupA (composeM f g) x = (lookupA f x).bind (fun y => lookupA g y) := by
  intro f
  induction f with
  | nil => intro _ x; rfl
  | cons p rest ih =>
    intro hnd x
    obtain ⟨k, v⟩ := p
    simp only [nodupKeys, keysOf, List.map_cons, List.nodup_cons] at hnd
    have hcm : composeM ((k, v) :: rest) g =
        match lookupA g v with
        | some w => (k, w) :: composeM rest g
        | none => composeM rest g := by
      simp only [composeM, List.filterMap_cons]
      cases lookupA g v <;> rfl
    have hnd2 : nodupKeys rest := by simpa [nodupKeys, keysOf] using hnd.2
    cases hgv : lookupA g v with
    | none =>
      rw [hcm, hgv]
      by_cases hk : k = x
      · subst hk
        have hcrest : lookupA (composeM rest g) k = none := by
          cases hl : lookupA (composeM rest g) k with
          | none => rfl
          | some w =>
            exact absurd
              (by simpa [keysOf] using
                mem_keys_composeM (isSome_mem_keysOf (by rw [hl]; rfl)))
              hnd.1
        simp [lookupA, hcrest, hgv]
      · have hred : lookupA ((k, v) :: rest) x = lookupA rest x := by
          simp [lookupA, hk]
        rw [hred, ih hnd2]
    | some w =>
      rw [hcm, hgv]
      by_cases hk : k = x
      · subst hk
        simp [lookupA, hgv]
      · simp only [lookupA, if_neg hk]
        rw [ih hnd2]

theorem nodupKeys_composeM {g : Mapping} :
    ∀ {f : Mapping}, nodupKeys f → nodupKeys (composeM f g) := by
  intro f
  induction f with
  | nil => intro _; exact List.nodup_nil
  | cons p rest ih =>
    intro hf
    obtain ⟨k, v⟩ := p
    simp only [nodupKeys, keysOf, List.map_cons, List.nodup_cons] at hf
    have hf2 : nodupKeys rest := by simpa [nodupKeys, keysOf] using hf.2
    have hcm : composeM ((k, v) :: rest) g =
        match lookupA g v with
        | some w => (k, w) :: composeM rest g
        | none => composeM rest g := by
      simp only [composeM, List.filterMap_cons]
      cases lookupA g v <;> rfl
    cases hgv : lookupA g v with
    | none =>
      rw [hcm, hgv]
      exact ih hf2
    | some w =>
      rw [hcm, hgv]
      simp only [nodupKeys, keysOf, List.map_cons, List.nodup_cons]
      refine ⟨fun hk => hf.1 ?_, ih hf2⟩
      simpa [keysOf] using mem_keys_composeM (f := rest) (g := g) (x := k)
        (by simpa [keysOf] using hk)

theorem composeM_assoc {f g k : Mapping} (hg : nodupKeys g) :
    composeM (composeM f g) k = composeM f (composeM g k) := by
  unfold composeM
  rw [List.filterMap_filterMap]
  apply List.filterMap_congr
  intro p _
  obtain ⟨a, b⟩ := p
  cases hgb : lookupA g b with
  | none =>
    simp only [Option.map_none', Option.none_bind]
    rw [show lookupA (List.filterMap
      (fun kv => Option.map (fun w => (kv.1, w)) (lookupA k kv.2)) g) b =
        (lookupA g b).bind (fun y => lookupA k y) from lookupA_composeM hg b]
    rw [hgb]
    rfl
  | some c =>
    simp only [Option.map_some', Option.some_bind]
    rw [show lookupA (List.filterMap
      (fun kv => Option.map (fun w => (kv.1, w)) (lookupA k kv.2)) g) b =
        (lookupA g b).bind (fun y => lookupA k y) from lookupA_composeM hg b]
    rw [hgb]
    rfl

/-- The set of node ids of the graph stored under an id (empty when the id
names no graph). -/
def nodeSet (h : Hierarchy) (a : String) : List String :=
  ((getGraph h a).getD ⟨[], []⟩).nodeIds

/-- Path along typing edges of the hierarchy, recorded as the list of typing
edges traversed from the first graph to the last. -/
inductive PathTo (h : Hierarchy) : String → String → List HTyping → Prop where
  | nil (a : String) : PathTo h a a []
  | cons {c : String} {es : List HTyping} (t : HTyping) :
      t ∈ h.typings → PathTo h t.target c es → PathTo h t.source c (t :: es)

/-- Composition of the typing homomorphisms along a path, first edge first,
composed left to right with the modelled `compose` (the shape of the
accumulation in `get_ancestors` / `get_descendants` / `compose_path_typing`). -/
def pathComp : List HTyping → Mapping
  | [] => []
  | t :: rest => rest.foldl (fun acc e => composeM acc e.mapping) t.mapping

theorem pathTo_nil_inv {h : Hierarchy} {a b : String}
    (hp : PathTo h a b []) : a = b := by
  cases hp
  rfl

theorem pathTo_mem {h : Hierarchy} {a b : String} {es : List HTyping}
    (hp : PathTo h a b es) : ∀ e ∈ es, e ∈ h.typings := by
  induction hp with
  | nil => intro e he; cases he
  | cons t ht _ ih =>
    intro e he
    rcases List.mem_cons.mp he with rfl | he
    · exact ht
    · exact ih e he

theorem pathTo_snoc {h : Hierarchy} {a b : String} {es : List HTyping}
    (hp : PathTo h a b es) (t : HTyping) (ht : t ∈ h.typings)
    (hs : t.source = b) : PathTo h a t.target (es ++ [t]) := by
  induction hp with
  | nil a => exact hs ▸ PathTo.cons t ht (PathTo.nil t.target)
  | cons e he _ ih => exact PathTo.cons e he (ih hs)

theorem pathTo_snoc_inv_aux {h : Hierarchy} {a b : String} {l : List HTyping}
    (hp : PathTo h a b l) :
    ∀ (es : List HTyping) (t : HTyping), l = es ++ [t] →
    PathTo h a t.source es ∧ t ∈ h.typings ∧ t.target = b := by
  induction hp with
  | nil =>
    intro es t hl
    simp at hl
  | cons e he hrest ih =>
    intro es t hl
    cases es with
    | nil =>
      rw [List.nil_append] at hl
      injection hl with h1 h2
      subst h1
      subst h2
      exact ⟨PathTo.nil _, he, pathTo_nil_inv hrest⟩
    | cons e₂ es₂ =>
      rw [List.cons_append] at hl
      injection hl with h1 h2
      subst h1
      rcases ih es₂ t h2 with ⟨h3, h4, h5⟩
      exact ⟨PathTo.cons e he h3, h4, h5⟩

theorem pathTo_snoc_inv {h : Hierarchy} {t : HTyping} {es : List HTyping}
    {a b : String} (hp : PathTo h a b (es ++ [t])) :
    PathTo h a t.source es ∧ t ∈ h.typings ∧ t.target = b :=
  pathTo_snoc_inv_aux hp es t rfl

theorem pathTo_rank_le {h : Hierarchy} (rank : String → Nat)
    (hrank : ∀ t ∈ h.typings, rank t.source < rank t.target)
    {a b : String} {es : List HTyping} (hp : PathTo h a b es) :
    rank a ≤ rank b := by
  induction hp with
  | nil => exact le_refl _
  | cons t ht _ ih => exact le_of_lt (lt_of_lt_of_le (hrank t ht) ih)

theorem pathTo_rank_lt {h : Hierarchy} (rank : String → Nat)
    (hrank : ∀ t ∈ h.typings, rank t.source < rank t.target)
    {a b : String} {es : List HTyping} (hp : PathTo h a b es) (hne : es ≠ []) :
    rank a < rank b := by
  cases hp with
  | nil => exact absurd rfl hne
  | cons t ht hrest =>
    exact lt_of_lt_of_le (hrank t ht) (pathTo_rank_le rank hrank hrest)

theorem pathTo_self_nil {h : Hierarchy} (rank : String → Nat)
    (hrank : ∀ t ∈ h.typings, rank t.source < rank t.target)
    {a : String} {es : List HTyping} (hp : PathTo h a a es) : es = [] := by
  by_contra hne
  exact lt_irrefl _ (pathTo_rank_lt rank hrank hp hne)

theorem pathTo_source_ge {h : Hierarchy} (rank : String → Nat)
    (hrank : ∀ t ∈ h.typings, rank t.source < rank t.target)
    {a b : String} {es : List HTyping} (hp : PathTo h a b es) :
    ∀ e ∈ es, rank a ≤ rank e.source := by
  induction hp with
  | nil => intro e he; cases he
  | cons t ht hrest ih =>
    intro e he
    rcases List.mem_cons.mp he with rfl | he
    · exact le_refl _
    · exact le_of_lt (lt_of_lt_of_le (hrank t ht) (ih e he))

theorem pathTo_pairwise {h : Hierarchy} (rank : String → Nat)
    (hrank : ∀ t ∈ h.typings, rank t.source < rank t.target)
    {a b : String} {es : List HTyping} (hp : PathTo h a b es) :
    es.Pairwise (fun e f => rank e.source < rank f.source) := by
  induction hp with
  | nil => exact List.Pairwise.nil
  | cons t ht hrest ih =>
    refine List.pairwise_cons.mpr ⟨?_, ih⟩
    intro e he
    exact lt_of_lt_of_le (hrank t ht) (pathTo_source_ge rank hrank hrest e he)

theorem pathTo_nodup {h : Hierarchy} (rank : String → Nat)
    (hrank : ∀ t ∈ h.typings, rank t.source < rank t.target)
    {a b : String} {es : List HTyping} (hp : PathTo h a b es) : es.Nodup := by
  refine (pathTo_pairwise rank hrank hp).imp ?_
  intro e f hlt heq
  subst heq
  exact lt_irrefl _ hlt

theorem pathTo_length_le {h : Hierarchy} (rank : String → Nat)
    (hrank : ∀ t ∈ h.typings, rank t.source < rank t.target)
    {a b : String} {es : List HTyping} (hp : PathTo h a b es) :
    es.length ≤ h.typings.length := by
  classical
  have hnd := pathTo_nodup rank hrank hp
  calc es.length = es.toFinset.card := (List.toFinset_card_of_nodup hnd).symm
  _ ≤ h.typings.toFinset.card := Finset.card_le_card (by
      intro e he
      exact List.mem_toFinset.mpr (pathTo_mem hp e (List.mem_toFinset.mp he)))
  _ ≤ h.typings.length := h.typings.toFinset_card_le

theorem pathComp_single (t : HTyping) : pathComp [t] = t.mapping := rfl

theorem pathComp_snoc {es : List HTyping} (hne : es ≠ []) (e : HTyping) :
    pathComp (es ++ [e]) = composeM (pathComp es) e.mapping := by
  cases es with
  | nil => exact absurd rfl hne
  | cons t rest =>
    simp [pathComp, List.foldl_append]

theorem foldl_composeM_left :
    ∀ (es : List HTyping) (f acc : Mapping), nodupKeys acc →
    es.foldl (fun m e => composeM m e.mapping) (composeM f acc)
      = composeM f (es.foldl (fun m e => composeM m e.mapping) acc) := by
  intro es
  induction es with
  | nil => intro f acc _; rfl
  | cons e rest ih =>
    intro f acc hacc
    simp only [List.foldl_cons]
    rw [composeM_assoc hacc, ih f (composeM acc e.mapping) (nodupKeys_composeM hacc)]

theorem pathComp_cons {e t : HTyping} {rest : List HTyping}
    (ht : nodupKeys t.mapping) :
    pathComp (e :: t :: rest) = composeM e.mapping (pathComp (t :: rest)) := by
  show (t :: rest).foldl (fun m f => composeM m f.mapping) e.mapping = _
  simp only [List.foldl_cons]
  exact foldl_composeM_left rest e.mapping t.mapping ht

/-- Along a nonempty path, the composed homomorphism has duplicate-free keys,
its keys are exactly the nodes of the first graph and its values are nodes of
the last graph (given totality of every stored typing). -/
theorem pathComp_keys {h : Hierarchy}
    (hmnd : ∀ t ∈ h.typings, nodupKeys t.mapping)
    (htot : ∀ t ∈ h.typings,
      (∀ x, (lookupA t.mapping x).isSome ↔ x ∈ nodeSet h t.source) ∧
      (∀ x y, lookupA t.mapping x = some y → y ∈ nodeSet h t.target)) :
    ∀ {es : List HTyping} {a b : String}, PathTo h a b es → es ≠ [] →
    nodupKeys (pathComp es) ∧
    (∀ x, (lookupA (pathComp es) x).isSome ↔ x ∈ nodeSet h a) ∧
    (∀ x y, lookupA (pathComp es) x = some y → y ∈ nodeSet h b) := by
  intro es
  induction es with
  | nil => intro a b _ hne; exact absurd rfl hne
  | cons e rest ih =>
    intro a b hp _
    cases hp with
    | cons _ he hrest =>
      cases rest with
      | nil =>
        have hb : e.target = b := pathTo_nil_inv hrest
        rw [pathComp_single]
        exact ⟨hmnd e he, (htot e he).1, hb ▸ (htot e he).2⟩
      | cons t rest₂ =>
        have hne₂ : (t :: rest₂) ≠ ([] : List HTyping) := by simp
        rcases ih hrest hne₂ with ⟨hnd₂, hkeys₂, hvals₂⟩
        have htmem : t ∈ h.typings := pathTo_mem hrest t (List.mem_cons_self t rest₂)
        rw [pathComp_cons (hmnd t htmem)]
        have hbind := lookupA_composeM (g := pathComp (t :: rest₂)) (hmnd e he)
        refine ⟨nodupKeys_composeM (hmnd e he), fun x => ?_, fun x y hxy => ?_⟩
        · rw [hbind x]
          constructor
          · intro hs
            cases hex : lookupA e.mapping x with
            | none => rw [hex] at hs; cases hs
            | some yx => exact (htot e he).1 x |>.mp (by rw [hex]; rfl)
          · intro hx
            have h1 : (lookupA e.mapping x).isSome := ((htot e he).1 x).mpr hx
            rcases Option.isSome_iff_exists.mp h1 with ⟨yx, hyx⟩
            rw [hyx]
            have h2 : yx ∈ nodeSet h e.target := (htot e he).2 x yx hyx
            exact (hkeys₂ yx).mpr h2
        · rw [hbind x] at hxy
          cases hex : lookupA e.mapping x with
          | none => rw [hex] at hxy; cases hxy
          | some yx =>
            rw [hex] at hxy
            exact hvals₂ yx y hxy

/-- Membership in the `in_edges` view. -/
theorem mem_inEdges {h : Hierarchy} {g p q : String} :
    (p, q) ∈ inEdges h g ↔
      ∃ e ∈ h.typings, e.target = g ∧ e.source = p ∧ e.target = q := by
  unfold inEdges
  rw [List.mem_filterMap]
  constructor
  · rintro ⟨e, he, heq⟩
    by_cases hc : e.target = g
    · rw [if_pos hc] at heq
      injection heq with heq
      injection heq with h1 h2
      exact ⟨e, he, hc, h1, h2⟩
    · rw [if_neg hc] at heq
      cases heq
  · rintro ⟨e, he, hc, hp, hq⟩
    exact ⟨e, he, by rw [if_pos hc, hp, hq]⟩

/-- Membership in the `out_edges` view. -/
theorem mem_outEdges {h : Hierarchy} {g p q : String} :
    (p, q) ∈ outEdges h g ↔
      ∃ e ∈ h.typings, e.source = g ∧ e.source = p ∧ e.target = q := by
  unfold outEdges
  rw [List.mem_filterMap]
  constructor
  · rintro ⟨e, he, heq⟩
    by_cases hc : e.source = g
    · rw [if_pos hc] at heq
      injection heq with heq
      injection heq with h1 h2
      exact ⟨e, he, hc, h1, h2⟩
    · rw [if_neg hc] at heq
      cases heq
  · rintro ⟨e, he, hc, hp, hq⟩
    exact ⟨e, he, by rw [if_pos hc, hp, hq]⟩

/-- Under the duplicate-free-edges invariant, a typing edge is determined by
its endpoints. -/
theorem typing_unique {h : Hierarchy} (hnd : (edgePairs h).Nodup)
    {e f : HTyping} (he : e ∈ h.typings) (hf : f ∈ h.typings)
    (hs : e.source = f.source) (ht : e.target = f.target) : e = f := by
  have h1 := getTyping_self hnd he
  have h2 := getTyping_self hnd hf
  rw [hs, ht] at h1
  have hm : e.mapping = f.mapping := by
    rw [h1] at h2
    injection h2
  have ha : e.attrs = f.attrs := by
    have g1 : getTypingAttrs h e.source e.target = some e.attrs := by
      unfold getTypingAttrs
      rw [find?_typing_self hnd he]
      rfl
    have g2 : getTypingAttrs h f.source f.target = some f.attrs := by
      unfold getTypingAttrs
      rw [find?_typing_self hnd hf]
      rfl
    rw [hs, ht, g2] at g1
    injection g1 with g1
    exact g1.symm
  cases e
  cases f
  simp only at hs ht hm ha
  simp [hs, ht, hm, ha]

/-- Specification of one value of the ancestors dictionary of `g`:
duplicate-free keys, keys exactly the nodes of the ancestor graph, and
agreement with the composition along every typing path to `g`. -/
def ancEntryOK (h : Hierarchy) (g a : String) (m : Mapping) : Prop :=
  nodupKeys m ∧
  (∀ x, (lookupA m x).isSome ↔ x ∈ nodeSet h a) ∧
  (∀ es, PathTo h a g es → es ≠ [] → ∀ x, lookupA m x = lookupA (pathComp es) x)

/-- Specification of the full ancestors dictionary of `g`: keys are exactly
the graphs with a nonempty typing path to `g` and every value satisfies
`ancEntryOK`. -/
def ancDict (h : Hierarchy) (g : String) (d : List (String × Mapping)) : Prop :=
  nodupKeys d ∧
  (∀ a m, lookupA d a = some m → ancEntryOK h g a m) ∧
  (∀ a, (lookupA d a).isSome ↔ ∃ es, es ≠ [] ∧ PathTo h a g es)

/-- Invariant of the outer fold of `get_ancestors` after the in-edges listed
in `P` have been processed. -/
def ancInvP (h : Hierarchy) (g : String) (P : List (String × String))
    (d : List (String × Mapping)) : Prop :=
  nodupKeys d ∧
  (∀ a m, lookupA d a = some m → ancEntryOK h g a m) ∧
  (∀ a, (lookupA d a).isSome ↔
    ∃ es e, PathTo h a g (es ++ [e]) ∧ (e.source, g) ∈ P)

/-- Invariant of the inner fold of `get_ancestors` over the ancestors of one
predecessor `p` of `g`: entries keep the right key sets throughout, entries
outside the unprocessed remainder `R` are fully correct, and the key set of
the accumulator is the keys of the outer dictionary plus `p` plus the
processed prefix. -/
theorem anc_inner_fold {h : Hierarchy}
    (hmnd : ∀ t ∈ h.typings, nodupKeys t.mapping)
    (htot : ∀ t ∈ h.typings,
      (∀ x, (lookupA t.mapping x).isSome ↔ x ∈ nodeSet h t.source) ∧
      (∀ x y, lookupA t.mapping x = some y → y ∈ nodeSet h t.target))
    (hcomm : ∀ (a b : String) (es es' : List HTyping),
      PathTo h a b es → PathTo h a b es' → es ≠ [] → es' ≠ [] →
      ∀ x, lookupA (pathComp es) x = lookupA (pathComp es') x)
    {g p : String} {e₀ : HTyping} (he₀ : e₀ ∈ h.typings)
    (hes : e₀.source = p) (het : e₀.target = g)
    {predAnc : List (String × Mapping)} (hpa : ancDict h p predAnc)
    (d : List (String × Mapping))
    (step : List (String × Mapping) → String × Mapping → List (String × Mapping))
    (hstep : ∀ acc anc ancTyp, step acc (anc, ancTyp) =
      match lookupA acc anc with
      | some cur => insertA acc anc (updateA cur (composeM ancTyp e₀.mapping))
      | none => insertA acc anc (composeM ancTyp e₀.mapping)) :
    ∀ (R Q acc : List (String × Mapping)),
    predAnc = Q ++ R →
    nodupKeys acc →
    (∀ a m, lookupA acc a = some m →
      nodupKeys m ∧ (∀ x, (lookupA m x).isSome ↔ x ∈ nodeSet h a)) →
    (∀ a m, lookupA acc a = some m → a ∉ keysOf R → ancEntryOK h g a m) →
    (∀ a, (lookupA acc a).isSome →
      (lookupA d a).isSome ∨ a = p ∨ a ∈ keysOf predAnc) →
    (∀ a, (lookupA d a).isSome ∨ a = p ∨ a ∈ keysOf Q → (lookupA acc a).isSome) →
    nodupKeys (R.foldl step acc) ∧
    (∀ a m, lookupA (R.foldl step acc) a = some m → ancEntryOK h g a m) ∧
    (∀ a, (lookupA (R.foldl step acc) a).isSome ↔
      (lookupA d a).isSome ∨ a = p ∨ a ∈ keysOf predAnc) := by
  intro R
  induction R with
  | nil =>
    intro Q acc hQR hK hKeys hOK hBound hCover
    have hQ : Q = predAnc := by simpa using hQR.symm
    subst hQ
    rw [List.foldl_nil]
    exact ⟨hK, fun a m hm => hOK a m hm (by simp [keysOf]),
      fun a => ⟨hBound a, hCover a⟩⟩
  | cons av R' ih =>
    intro Q acc hQR hK hKeys hOK hBound hCover
    obtain ⟨anc, ancTyp⟩ := av
    have hmemA : (anc, ancTyp) ∈ predAnc := by
      rw [hQR]
      exact List.mem_append.mpr (Or.inr (List.mem_cons_self _ _))
    obtain ⟨hpaN, hpaV, hpaK⟩ := hpa
    have hluk : lookupA predAnc anc = some ancTyp := lookupA_of_mem_nodup hpaN hmemA
    obtain ⟨hancN, hancKeys, hancPaths⟩ := hpaV _ _ hluk
    obtain ⟨esp, hespne, hesp⟩ := (hpaK anc).mp (by rw [hluk]; rfl)
    have hpath : PathTo h anc g (esp ++ [e₀]) := by
      have hx := pathTo_snoc hesp e₀ he₀ hes
      rw [het] at hx
      exact hx
    have hpathne : esp ++ [e₀] ≠ ([] : List HTyping) := by simp
    have hpc := pathComp_keys hmnd htot hesp hespne
    have hφcomp : ∀ x, lookupA (composeM ancTyp e₀.mapping) x
        = lookupA (pathComp (esp ++ [e₀])) x := by
      intro x
      rw [lookupA_composeM hancN x, pathComp_snoc hespne e₀,
        lookupA_composeM hpc.1 x, hancPaths esp hesp hespne x]
    have hφN : nodupKeys (composeM ancTyp e₀.mapping) := nodupKeys_composeM hancN
    have hφOK : ancEntryOK h g anc (composeM ancTyp e₀.mapping) := by
      have hpck := pathComp_keys hmnd htot hpath hpathne
      refine ⟨hφN, fun x => ?_, fun es hpes hne x => ?_⟩
      · rw [hφcomp x]
        exact hpck.2.1 x
      · rw [hφcomp x]
        exact hcomm anc g (esp ++ [e₀]) es hpath hpes hpathne hne x
    have hmemKeys : anc ∈ keysOf predAnc :=
      List.mem_map.mpr ⟨(anc, ancTyp), hmemA, rfl⟩
    have hQR' : predAnc = (Q ++ [(anc, ancTyp)]) ++ R' := by
      rw [hQR, List.append_assoc, List.singleton_append]
    rw [List.foldl_cons, hstep]
    cases hl : lookupA acc anc with
    | some cur =>
      obtain ⟨hcurN, hcurKeys⟩ := hKeys anc cur hl
      have hψφ : ∀ x, lookupA (updateA cur (composeM ancTyp e₀.mapping)) x
          = lookupA (composeM ancTyp e₀.mapping) x := by
        intro x
        cases hx : lookupA (composeM ancTyp e₀.mapping) x with
        | some v => exact lookupA_updateA_some _ hφN hx
        | none =>
          rw [lookupA_updateA_none _ hx]
          have hnot : x ∉ nodeSet h anc := by
            intro hmem
            have hcon := (hφOK.2.1 x).mpr hmem
            rw [hx] at hcon
            cases hcon
          cases hcx : lookupA cur x with
          | none => rfl
          | some w => exact absurd ((hcurKeys x).mp (by rw [hcx]; rfl)) hnot
      have hψOK : ancEntryOK h g anc (updateA cur (composeM ancTyp e₀.mapping)) := by
        refine ⟨nodupKeys_updateA _ _ hcurN, fun x => ?_, fun es hpes hne x => ?_⟩
        · rw [hψφ x]
          exact hφOK.2.1 x
        · rw [hψφ x]
          exact hφOK.2.2 es hpes hne x
      apply ih (Q ++ [(anc, ancTyp)]) _ hQR' (nodupKeys_insertA _ _ hK)
      · intro a m hm
        rw [lookupA_insertA] at hm
        by_cases ha : anc = a
        · rw [if_pos ha] at hm
          injection hm with hm
          subst ha
          exact hm ▸ ⟨hψOK.1, hψOK.2.1⟩
        · rw [if_neg ha] at hm
          exact hKeys a m hm
      · intro a m hm hnotR
        rw [lookupA_insertA] at hm
        by_cases ha : anc = a
        · rw [if_pos ha] at hm
          injection hm with hm
          subst ha
          exact hm ▸ hψOK
        · rw [if_neg ha] at hm
          refine hOK a m hm ?_
          intro hmem
          have hmem2 : a = anc ∨ a ∈ keysOf R' := by simpa [keysOf] using hmem
          rcases hmem2 with he | he
          · exact ha he.symm
          · exact hnotR he
      · intro a ha
        rw [lookupA_insertA] at ha
        by_cases hcase : anc = a
        · exact Or.inr (Or.inr (hcase ▸ hmemKeys))
        · rw [if_neg hcase] at ha
          exact hBound a ha
      · intro a ha
        rw [lookupA_insertA]
        by_cases hcase : anc = a
        · rw [if_pos hcase]
          rfl
        · rw [if_neg hcase]
          apply hCover
          rcases ha with ha | ha | ha
          · exact Or.inl ha
          · exact Or.inr (Or.inl ha)
          · refine Or.inr (Or.inr ?_)
            simp only [keysOf, List.map_append, List.mem_append] at ha
            rcases ha with ha | ha
            · simpa [keysOf] using ha
            · have he2 : a = anc := by simpa [keysOf] using ha
              exact absurd he2.symm hcase
    | none =>
      apply ih (Q ++ [(anc, ancTyp)]) _ hQR' (nodupKeys_insertA _ _ hK)
      · intro a m hm
        rw [lookupA_insertA] at hm
        by_cases ha : anc = a
        · rw [if_pos ha] at hm
          injection hm with hm
          subst ha
          exact hm ▸ ⟨hφOK.1, hφOK.2.1⟩
        · rw [if_neg ha] at hm
          exact hKeys a m hm
      · intro a m hm hnotR
        rw [lookupA_insertA] at hm
        by_cases ha : anc = a
        · rw [if_pos ha] at hm
          injection hm with hm
          subst ha
          exact hm ▸ hφOK
        · rw [if_neg ha] at hm
          refine hOK a m hm ?_
          intro hmem
          have hmem2 : a = anc ∨ a ∈ keysOf R' := by simpa [keysOf] using hmem
          rcases hmem2 with he | he
          · exact ha he.symm
          · exact hnotR he
      · intro a ha
        rw [lookupA_insertA] at ha
        by_cases hcase : anc = a
        · exact Or.inr (Or.inr (hcase ▸ hmemKeys))
        · rw [if_neg hcase] at ha
          exact hBound a ha
      · intro a ha
        rw [lookupA_insertA]
        by_cases hcase : anc = a
        · rw [if_pos hcase]
          rfl
        · rw [if_neg hcase]
          apply hCover
          rcases ha with ha | ha | ha
          · exact Or.inl ha
          · exact Or.inr (Or.inl ha)
          · refine Or.inr (Or.inr ?_)
            simp only [keysOf, List.map_append, List.mem_append] at ha
            rcases ha with ha | ha
            · simpa [keysOf] using ha
            · have he2 : a = anc := by simpa [keysOf] using ha
              exact absurd he2.symm hcase

/-- The inner fold step of `get_ancestors` for the predecessor `p`
(hierarchies.py:910-915), named for use in the fold lemmas. -/
def ancInner (h : Hierarchy) (g p : String)
    (acc : List (String × Mapping)) (av : String × Mapping) :
    List (String × Mapping) :=
  match lookupA acc av.1 with
  | some cur => insertA acc av.1
      (updateA cur (composeM av.2 ((getTyping h p g).getD [])))
  | none => insertA acc av.1 (composeM av.2 ((getTyping h p g).getD []))

/-- Invariant of the outer fold of `get_ancestors` over the in-edges of `g`. -/
theorem anc_outer_fold {h : Hierarchy}
    (hnd : (edgePairs h).Nodup)
    (hmnd : ∀ t ∈ h.typings, nodupKeys t.mapping)
    (htot : ∀ t ∈ h.typings,
      (∀ x, (lookupA t.mapping x).isSome ↔ x ∈ nodeSet h t.source) ∧
      (∀ x y, lookupA t.mapping x = some y → y ∈ nodeSet h t.target))
    (hcomm : ∀ (a b : String) (es es' : List HTyping),
      PathTo h a b es → PathTo h a b es' → es ≠ [] → es' ≠ [] →
      ∀ x, lookupA (pathComp es) x = lookupA (pathComp es') x)
    (g : String) (fuel : Nat)
    (hpred : ∀ p, (p, g) ∈ inEdges h g → ancDict h p (getAncestorsF h fuel p))
    (ostep : List (String × Mapping) → String × String → List (String × Mapping))
    (hostep : ∀ (d : List (String × Mapping)) (p q : String), ostep d (p, q) =
      (getAncestorsF h fuel p).foldl (ancInner h g p)
        (if (lookupA d p).isSome then updateA d (getAncestorsF h fuel p)
         else insertA d p ((getTyping h p g).getD []))) :
    ∀ (rest P : List (String × String)) (d : List (String × Mapping)),
    inEdges h g = P ++ rest →
    ancInvP h g P d →
    ancInvP h g (P ++ rest) (rest.foldl ostep d) := by
  intro rest
  induction rest with
  | nil =>
    intro P d hdec hinv
    rw [List.foldl_nil, List.append_nil]
    exact hinv
  | cons pq rest' ih =>
    intro P d hdec hinv
    obtain ⟨p, q⟩ := pq
    have hmem_pq : (p, q) ∈ inEdges h g := by
      rw [hdec]
      exact List.mem_append.mpr (Or.inr (List.mem_cons_self _ _))
    rcases mem_inEdges.mp hmem_pq with ⟨e₀, he₀, het, hesp, hetq⟩
    have hq : q = g := by rw [← hetq, het]
    rw [hq] at hdec hmem_pq ⊢
    have hgt : (getTyping h p g).getD [] = e₀.mapping := by
      have hx := getTyping_self hnd he₀
      rw [hesp, het] at hx
      rw [hx]
      rfl
    obtain ⟨hdN, hdV, hdK⟩ := hinv
    obtain ⟨hpaN, hpaV, hpaK⟩ := hpred p hmem_pq
    have hpa' : ancDict h p (getAncestorsF h fuel p) := ⟨hpaN, hpaV, hpaK⟩
    have htrans : ∀ a,
        ((lookupA d a).isSome ∨ a = p ∨ a ∈ keysOf (getAncestorsF h fuel p)) ↔
        (∃ es e, PathTo h a g (es ++ [e]) ∧ (e.source, g) ∈ P ++ [(p, g)]) := by
      intro a
      constructor
      · rintro (ha | rfl | ha)
        · rcases (hdK a).mp ha with ⟨es, e, hp1, hp2⟩
          exact ⟨es, e, hp1, List.mem_append.mpr (Or.inl hp2)⟩
        · refine ⟨[], e₀, ?_, List.mem_append.mpr (Or.inr (by simp [hesp]))⟩
          rw [List.nil_append]
          have hq1 : PathTo h e₀.source e₀.target [e₀] :=
            PathTo.cons e₀ he₀ (PathTo.nil e₀.target)
          rw [hesp, het] at hq1
          exact hq1
        · have hsome := keysOf_isSome ha
          rcases (hpaK a).mp hsome with ⟨es, hne, hpes⟩
          refine ⟨es, e₀, ?_, List.mem_append.mpr (Or.inr (by simp [hesp]))⟩
          have hq1 := pathTo_snoc hpes e₀ he₀ hesp
          rw [het] at hq1
          exact hq1
      · rintro ⟨es, e, hpath, hmem⟩
        rcases List.mem_append.mp hmem with hmem | hmem
        · exact Or.inl ((hdK a).mpr ⟨es, e, hpath, hmem⟩)
        · have hpair := List.mem_singleton.mp hmem
          have hesp2 : e.source = p := congrArg Prod.fst hpair
          rcases pathTo_snoc_inv hpath with ⟨hpre, hemem, hetg⟩
          cases es with
          | nil =>
            have ha2 : a = e.source := pathTo_nil_inv hpre
            exact Or.inr (Or.inl (by rw [ha2, hesp2]))
          | cons e₂ es₂ =>
            refine Or.inr (Or.inr ?_)
            have hps : PathTo h a p (e₂ :: es₂) := by
              rw [← hesp2]
              exact hpre
            exact isSome_mem_keysOf ((hpaK a).mpr ⟨e₂ :: es₂, by simp, hps⟩)
    have hstepinv : ancInvP h g (P ++ [(p, g)]) (ostep d (p, g)) := by
      rw [hostep, hgt]
      by_cases hdp : (lookupA d p).isSome = true
      · rw [if_pos hdp]
        obtain ⟨hin1, hin2, hin3⟩ :=
          anc_inner_fold hmnd htot hcomm he₀ hesp het hpa' d (ancInner h g p)
            (by
              intro acc anc ancTyp
              unfold ancInner
              dsimp only
              cases lookupA acc anc <;> rw [hgt])
            (getAncestorsF h fuel p) [] (updateA d (getAncestorsF h fuel p)) rfl
            (nodupKeys_updateA _ _ hdN)
            (by
              intro a m hm
              cases hpl : lookupA (getAncestorsF h fuel p) a with
              | some m2 =>
                rw [lookupA_updateA_some _ hpaN hpl] at hm
                injection hm with hm
                obtain ⟨h1, h2, _⟩ := hpaV a m2 hpl
                exact hm ▸ ⟨h1, h2⟩
              | none =>
                rw [lookupA_updateA_none _ hpl] at hm
                obtain ⟨h1, h2, _⟩ := hdV a m hm
                exact ⟨h1, h2⟩)
            (by
              intro a m hm hnot
              have hpl : lookupA (getAncestorsF h fuel p) a = none :=
                lookupA_eq_none hnot
              rw [lookupA_updateA_none _ hpl] at hm
              exact hdV a m hm)
            (by
              intro a ha
              cases hpl : lookupA (getAncestorsF h fuel p) a with
              | some m2 =>
                exact Or.inr (Or.inr (isSome_mem_keysOf (by rw [hpl]; rfl)))
              | none =>
                rw [lookupA_updateA_none _ hpl] at ha
                exact Or.inl ha)
            (by
              intro a ha
              have hda : (lookupA d a).isSome := by
                rcases ha with ha | ha | ha
                · exact ha
                · subst ha
                  exact hdp
                · simp [keysOf] at ha
              cases hpl : lookupA (getAncestorsF h fuel p) a with
              | some m2 => rw [lookupA_updateA_some _ hpaN hpl]; rfl
              | none => rw [lookupA_updateA_none _ hpl]; exact hda)
        exact ⟨hin1, hin2, fun a => (hin3 a).trans (htrans a)⟩
      · rw [if_neg hdp]
        have hdpn : lookupA d p = none := by
          cases hx : lookupA d p with
          | none => rfl
          | some v => exact absurd (by rw [hx]; rfl) hdp
        have hpE : ancEntryOK h g p e₀.mapping := by
          have hk := (htot e₀ he₀).1
          rw [hesp] at hk
          refine ⟨hmnd e₀ he₀, hk, fun es hpes hne x => ?_⟩
          have hq1 : PathTo h e₀.source e₀.target [e₀] :=
            PathTo.cons e₀ he₀ (PathTo.nil e₀.target)
          rw [hesp, het] at hq1
          have := hcomm p g [e₀] es hq1 hpes (by simp) hne x
          rw [← this, pathComp_single]
        obtain ⟨hin1, hin2, hin3⟩ :=
          anc_inner_fold hmnd htot hcomm he₀ hesp het hpa' d (ancInner h g p)
            (by
              intro acc anc ancTyp
              unfold ancInner
              dsimp only
              cases lookupA acc anc <;> rw [hgt])
            (getAncestorsF h fuel p) [] (insertA d p e₀.mapping) rfl
            (nodupKeys_insertA _ _ hdN)
            (by
              intro a m hm
              rw [lookupA_insertA] at hm
              by_cases hpa2 : p = a
              · rw [if_pos hpa2] at hm
                injection hm with hm
                subst hpa2
                subst hm
                exact ⟨hpE.1, hpE.2.1⟩
              · rw [if_neg hpa2] at hm
                obtain ⟨h1, h2, _⟩ := hdV a m hm
                exact ⟨h1, h2⟩)
            (by
              intro a m hm _
              rw [lookupA_insertA] at hm
              by_cases hpa2 : p = a
              · rw [if_pos hpa2] at hm
                injection hm with hm
                subst hpa2
                subst hm
                exact hpE
              · rw [if_neg hpa2] at hm
                exact hdV a m hm)
            (by
              intro a ha
              rw [lookupA_insertA] at ha
              by_cases hpa2 : p = a
              · exact Or.inr (Or.inl hpa2.symm)
              · rw [if_neg hpa2] at ha
                exact Or.inl ha)
            (by
              intro a ha
              rw [lookupA_insertA]
              by_cases hpa2 : p = a
              · rw [if_pos hpa2]
                rfl
              · rw [if_neg hpa2]
                rcases ha with ha | ha | ha
                · exact ha
                · exact absurd ha.symm hpa2
                · simp [keysOf] at ha)
        exact ⟨hin1, hin2, fun a => (hin3 a).trans (htrans a)⟩
    have hdec' : inEdges h g = (P ++ [(p, g)]) ++ rest' := by
      rw [hdec, List.append_assoc, List.singleton_append]
    have HH := ih (P ++ [(p, g)]) (ostep d (p, g)) hdec' hstepinv
    rw [List.append_assoc, List.singleton_append] at HH
    rw [List.foldl_cons]
    exact HH

/-- Correctness of the fuelled `get_ancestors` under the hierarchy
invariants, for every fuel dominating the length of every typing path into
the target graph. -/
theorem getAncestorsF_correct {h : Hierarchy}
    (hnd : (edgePairs h).Nodup)
    (hmnd : ∀ t ∈ h.typings, nodupKeys t.mapping)
    (htot : ∀ t ∈ h.typings,
      (∀ x, (lookupA t.mapping x).isSome ↔ x ∈ nodeSet h t.source) ∧
      (∀ x y, lookupA t.mapping x = some y → y ∈ nodeSet h t.target))
    (hcomm : ∀ (a b : String) (es es' : List HTyping),
      PathTo h a b es → PathTo h a b es' → es ≠ [] → es' ≠ [] →
      ∀ x, lookupA (pathComp es) x = lookupA (pathComp es') x) :
    ∀ (fuel : Nat) (g : String),
    (∀ (a : String) (es : List HTyping), PathTo h a g es → es.length < fuel) →
    ancDict h g (getAncestorsF h fuel g) := by
  intro fuel
  induction fuel with
  | zero =>
    intro g hfuel
    exact absurd (hfuel g [] (PathTo.nil g)) (by omega)
  | succ fuel ih =>
    intro g hfuel
    have hpred : ∀ p, (p, g) ∈ inEdges h g →
        ancDict h p (getAncestorsF h fuel p) := by
      intro p hp
      rcases mem_inEdges.mp hp with ⟨e₀, he₀, het, hesp, _⟩
      apply ih
      intro a es hpath
      have hsn := pathTo_snoc hpath e₀ he₀ hesp
      rw [het] at hsn
      have hlen := hfuel a (es ++ [e₀]) hsn
      simp only [List.length_append, List.length_singleton] at hlen
      omega
    have hostep : ∀ (d : List (String × Mapping)) (p q : String),
        (fun ancestors (pe : String × String) =>
          let pred := pe.1
          let typing := (getTyping h pred g).getD []
          let predAncestors := getAncestorsF h fuel pred
          let ancestors₁ :=
            if (lookupA ancestors pred).isSome then updateA ancestors predAncestors
            else insertA ancestors pred typing
          predAncestors.foldl
            (fun acc av =>
              match lookupA acc av.1 with
              | some cur => insertA acc av.1 (updateA cur (composeM av.2 typing))
              | none => insertA acc av.1 (composeM av.2 typing))
            ancestors₁) d (p, q) =
        (getAncestorsF h fuel p).foldl (ancInner h g p)
          (if (lookupA d p).isSome then updateA d (getAncestorsF h fuel p)
           else insertA d p ((getTyping h p g).getD [])) := by
      intro d p q
      dsimp only
      congr 1
    have hinit : ancInvP h g [] [] := by
      refine ⟨List.nodup_nil, ?_, ?_⟩
      · intro a m hm
        simp [lookupA] at hm
      · intro a
        constructor
        · intro ha
          simp [lookupA] at ha
        · rintro ⟨a2, e2, -, hmem⟩
          cases hmem
    have HH := anc_outer_fold hnd hmnd htot hcomm g fuel hpred
      (fun ancestors (pe : String × String) =>
        let pred := pe.1
        let typing := (getTyping h pred g).getD []
        let predAncestors := getAncestorsF h fuel pred
        let ancestors₁ :=
          if (lookupA ancestors pred).isSome then updateA ancestors predAncestors
          else insertA ancestors pred typing
        predAncestors.foldl
          (fun acc av =>
            match lookupA acc av.1 with
            | some cur => insertA acc av.1 (updateA cur (composeM av.2 typing))
            | none => insertA acc av.1 (composeM av.2 typing))
          ancestors₁)
      hostep (inEdges h g) [] [] (by rw [List.nil_append]) hinit
    rw [List.nil_append] at HH
    have hd : getAncestorsF h (fuel+1) g = (inEdges h g).foldl
        (fun ancestors (pe : String × String) =>
          let pred := pe.1
          let typing := (getTyping h pred g).getD []
          let predAncestors := getAncestorsF h fuel pred
          let ancestors₁ :=
            if (lookupA ancestors pred).isSome then updateA ancestors predAncestors
            else insertA ancestors pred typing
          predAncestors.foldl
            (fun acc av =>
              match lookupA acc av.1 with
              | some cur => insertA acc av.1 (updateA cur (composeM av.2 typing))
              | none => insertA acc av.1 (composeM av.2 typing))
            ancestors₁) [] := rfl
    rw [← hd] at HH
    obtain ⟨H1, H2, H3⟩ := HH
    refine ⟨H1, H2, fun a => (H3 a).trans ?_⟩
    constructor
    · rintro ⟨es, e, hpath, _⟩
      exact ⟨es ++ [e], by simp, hpath⟩
    · rintro ⟨es, hne, hp⟩
      rcases List.eq_nil_or_concat es with rfl | ⟨L, e, hL⟩
      · exact absurd rfl hne
      · rw [List.concat_eq_append] at hL
        subst hL
        rcases pathTo_snoc_inv hp with ⟨_, hemem, hetg⟩
        exact ⟨L, e, hp, mem_inEdges.mpr ⟨e, hemem, hetg, rfl, hetg⟩⟩

/-- Correctness of `get_ancestors` itself. -/
theorem getAncestors_correct {h : Hierarchy} (rank : String → Nat)
    (hrank : ∀ t ∈ h.typings, rank t.source < rank t.target)
    (hnd : (edgePairs h).Nodup)
    (hmnd : ∀ t ∈ h.typings, nodupKeys t.mapping)
    (htot : ∀ t ∈ h.typings,
      (∀ x, (lookupA t.mapping x).isSome ↔ x ∈ nodeSet h t.source) ∧
      (∀ x y, lookupA t.mapping x = some y → y ∈ nodeSet h t.target))
    (hcomm : ∀ (a b : String) (es es' : List HTyping),
      PathTo h a b es → PathTo h a b es' → es ≠ [] → es' ≠ [] →
      ∀ x, lookupA (pathComp es) x = lookupA (pathComp es') x)
    (g : String) : ancDict h g (getAncestors h g) :=
  getAncestorsF_correct hnd hmnd htot hcomm (h.typings.length + 1) g
    (fun _ _ hp => Nat.lt_succ_of_le (pathTo_length_le rank hrank hp))

theorem pathTo_cons_inv {h : Hierarchy} {a b : String} {e : HTyping}
    {es : List HTyping} (hp : PathTo h a b (e :: es)) :
    e ∈ h.typings ∧ e.source = a ∧ PathTo h e.target b es := by
  cases hp with
  | cons _ he hrest => exact ⟨he, rfl, hrest⟩

/-- Specification of one value of the descendants dictionary of `g`:
duplicate-free keys, keys exactly the nodes of `g`, and agreement with the
composition along every typing path out of `g`. -/
def descEntryOK (h : Hierarchy) (g a : String) (m : Mapping) : Prop :=
  nodupKeys m ∧
  (∀ x, (lookupA m x).isSome ↔ x ∈ nodeSet h g) ∧
  (∀ es, PathTo h g a es → es ≠ [] → ∀ x, lookupA m x = lookupA (pathComp es) x)

/-- Specification of the full descendants dictionary of `g`. -/
def descDict (h : Hierarchy) (g : String) (d : List (String × Mapping)) : Prop :=
  nodupKeys d ∧
  (∀ a m, lookupA d a = some m → descEntryOK h g a m) ∧
  (∀ a, (lookupA d a).isSome ↔ ∃ es, es ≠ [] ∧ PathTo h g a es)

/-- Invariant of the outer fold of `get_descendants` after the out-edges
listed in `P` have been processed. -/
def descInvP (h : Hierarchy) (g : String) (P : List (String × String))
    (d : List (String × Mapping)) : Prop :=
  nodupKeys d ∧
  (∀ a m, lookupA d a = some m → descEntryOK h g a m) ∧
  (∀ a, (lookupA d a).isSome ↔
    ∃ e es, PathTo h g a (e :: es) ∧ (g, e.target) ∈ P)

/-- The inner fold step of `get_descendants` for the successor `s`
(hierarchies.py:926-931), named for use in the fold lemmas. -/
def descInner (h : Hierarchy) (g s : String)
    (acc : List (String × Mapping)) (av : String × Mapping) :
    List (String × Mapping) :=
  match lookupA acc av.1 with
  | some cur => insertA acc av.1
      (updateA cur (composeM ((getTyping h g s).getD []) av.2))
  | none => insertA acc av.1 (composeM ((getTyping h g s).getD []) av.2)

/-- Invariant of the inner fold of `get_descendants` over the descendants of
one successor `s` of `g`. -/
theorem desc_inner_fold {h : Hierarchy}
    (hmnd : ∀ t ∈ h.typings, nodupKeys t.mapping)
    (htot : ∀ t ∈ h.typings,
      (∀ x, (lookupA t.mapping x).isSome ↔ x ∈ nodeSet h t.source) ∧
      (∀ x y, lookupA t.mapping x = some y → y ∈ nodeSet h t.target))
    (hcomm : ∀ (a b : String) (es es' : List HTyping),
      PathTo h a b es → PathTo h a b es' → es ≠ [] → es' ≠ [] →
      ∀ x, lookupA (pathComp es) x = lookupA (pathComp es') x)
    {g s : String} {e₀ : HTyping} (he₀ : e₀ ∈ h.typings)
    (hes : e₀.source = g) (het : e₀.target = s)
    {sucDesc : List (String × Mapping)} (hsd : descDict h s sucDesc)
    (d : List (String × Mapping))
    (step : List (String × Mapping) → String × Mapping → List (String × Mapping))
    (hstep : ∀ acc anc typ, step acc (anc, typ) =
      match lookupA acc anc with
      | some cur => insertA acc anc (updateA cur (composeM e₀.mapping typ))
      | none => insertA acc anc (composeM e₀.mapping typ)) :
    ∀ (R Q acc : List (String × Mapping)),
    sucDesc = Q ++ R →
    nodupKeys acc →
    (∀ a m, lookupA acc a = some m → descEntryOK h g a m) →
    (∀ a, (lookupA acc a).isSome →
      (lookupA d a).isSome ∨ a = s ∨ a ∈ keysOf sucDesc) →
    (∀ a, (lookupA d a).isSome ∨ a = s ∨ a ∈ keysOf Q → (lookupA acc a).isSome) →
    nodupKeys (R.foldl step acc) ∧
    (∀ a m, lookupA (R.foldl step acc) a = some m → descEntryOK h g a m) ∧
    (∀ a, (lookupA (R.foldl step acc) a).isSome ↔
      (lookupA d a).isSome ∨ a = s ∨ a ∈ keysOf sucDesc) := by
  intro R
  induction R with
  | nil =>
    intro Q acc hQR hK hOK hBound hCover
    have hQ : Q = sucDesc := by simpa using hQR.symm
    subst hQ
    rw [List.foldl_nil]
    exact ⟨hK, hOK, fun a => ⟨hBound a, hCover a⟩⟩
  | cons av R' ih =>
    intro Q acc hQR hK hOK hBound hCover
    obtain ⟨anc, typ⟩ := av
    have hmemA : (anc, typ) ∈ sucDesc := by
      rw [hQR]
      exact List.mem_append.mpr (Or.inr (List.mem_cons_self _ _))
    obtain ⟨hsdN, hsdV, hsdK⟩ := hsd
    have hluk : lookupA sucDesc anc = some typ := lookupA_of_mem_nodup hsdN hmemA
    obtain ⟨htypN, htypKeys, htypPaths⟩ := hsdV _ _ hluk
    obtain ⟨esp, hespne, hesp⟩ := (hsdK anc).mp (by rw [hluk]; rfl)
    have hpath : PathTo h g anc (e₀ :: esp) := by
      have hx : PathTo h e₀.target anc esp := by
        rw [het]
        exact hesp
      have hy := PathTo.cons e₀ he₀ hx
      rw [hes] at hy
      exact hy
    have he₀N : nodupKeys e₀.mapping := hmnd e₀ he₀
    have hφcomp : ∀ x, lookupA (composeM e₀.mapping typ) x
        = lookupA (pathComp (e₀ :: esp)) x := by
      intro x
      cases esp with
      | nil => exact absurd rfl hespne
      | cons t rest =>
        have htm : t ∈ h.typings := pathTo_mem hesp t (List.mem_cons_self t rest)
        rw [lookupA_composeM he₀N x, pathComp_cons (hmnd t htm),
          lookupA_composeM he₀N x]
        cases hy : lookupA e₀.mapping x with
        | none => rfl
        | some y =>
          simp only [Option.some_bind]
          exact htypPaths (t :: rest) hesp (by simp) y
    have hφkeys : ∀ x, (lookupA (composeM e₀.mapping typ) x).isSome ↔
        x ∈ nodeSet h g := by
      intro x
      rw [lookupA_composeM he₀N x]
      constructor
      · intro hs2
        cases hy : lookupA e₀.mapping x with
        | none =>
          rw [hy] at hs2
          cases hs2
        | some y =>
          have hk := (htot e₀ he₀).1 x
          rw [hes] at hk
          exact hk.mp (by rw [hy]; rfl)
      · intro hx
        have hk := (htot e₀ he₀).1 x
        rw [hes] at hk
        rcases Option.isSome_iff_exists.mp (hk.mpr hx) with ⟨y, hy⟩
        rw [hy]
        have hv := (htot e₀ he₀).2 x y hy
        rw [het] at hv
        exact (htypKeys y).mpr hv
    have hφOK : descEntryOK h g anc (composeM e₀.mapping typ) := by
      refine ⟨nodupKeys_composeM he₀N, hφkeys, fun es hpes hne x => ?_⟩
      rw [hφcomp x]
      exact hcomm g anc (e₀ :: esp) es hpath hpes (by simp) hne x
    have hmemKeys : anc ∈ keysOf sucDesc :=
      List.mem_map.mpr ⟨(anc, typ), hmemA, rfl⟩
    have hQR' : sucDesc = (Q ++ [(anc, typ)]) ++ R' := by
      rw [hQR, List.append_assoc, List.singleton_append]
    rw [List.foldl_cons, hstep]
    cases hl : lookupA acc anc with
    | some cur =>
      obtain ⟨hcurN, hcurKeys, _⟩ := hOK anc cur hl
      have hψφ : ∀ x, lookupA (updateA cur (composeM e₀.mapping typ)) x
          = lookupA (composeM e₀.mapping typ) x := by
        intro x
        cases hx : lookupA (composeM e₀.mapping typ) x with
        | some v => exact lookupA_updateA_some _ (nodupKeys_composeM he₀N) hx
        | none =>
          rw [lookupA_updateA_none _ hx]
          have hnot : x ∉ nodeSet h g := by
            intro hmem
            have hcon := (hφkeys x).mpr hmem
            rw [hx] at hcon
            cases hcon
          cases hcx : lookupA cur x with
          | none => rfl
          | some w => exact absurd ((hcurKeys x).mp (by rw [hcx]; rfl)) hnot
      have hψOK : descEntryOK h g anc (updateA cur (composeM e₀.mapping typ)) := by
        refine ⟨nodupKeys_updateA _ _ hcurN, fun x => ?_, fun es hpes hne x => ?_⟩
        · rw [hψφ x]
          exact hφOK.2.1 x
        · rw [hψφ x]
          exact hφOK.2.2 es hpes hne x
      apply ih (Q ++ [(anc, typ)]) _ hQR' (nodupKeys_insertA _ _ hK)
      · intro a m hm
        rw [lookupA_insertA] at hm
        by_cases ha : anc = a
        · rw [if_pos ha] at hm
          injection hm with hm
          subst ha
          exact hm ▸ hψOK
        · rw [if_neg ha] at hm
          exact hOK a m hm
      · intro a ha
        rw [lookupA_insertA] at ha
        by_cases hcase : anc = a
        · exact Or.inr (Or.inr (hcase ▸ hmemKeys))
        · rw [if_neg hcase] at ha
          exact hBound a ha
      · intro a ha
        rw [lookupA_insertA]
        by_cases hcase : anc = a
        · rw [if_pos hcase]
          rfl
        · rw [if_neg hcase]
          apply hCover
          rcases ha with ha | ha | ha
          · exact Or.inl ha
          · exact Or.inr (Or.inl ha)
          · refine Or.inr (Or.inr ?_)
            simp only [keysOf, List.map_append, List.mem_append] at ha
            rcases ha with ha | ha
            · simpa [keysOf] using ha
            · have he2 : a = anc := by simpa [keysOf] using ha
              exact absurd he2.symm hcase
    | none =>
      apply ih (Q ++ [(anc, typ)]) _ hQR' (nodupKeys_insertA _ _ hK)
      · intro a m hm
        rw [lookupA_insertA] at hm
        by_cases ha : anc = a
        · rw [if_pos ha] at hm
          injection hm with hm
          subst ha
          exact hm ▸ hφOK
        · rw [if_neg ha] at hm
          exact hOK a m hm
      · intro a ha
        rw [lookupA_insertA] at ha
        by_cases hcase : anc = a
        · exact Or.inr (Or.inr (hcase ▸ hmemKeys))
        · rw [if_neg hcase] at ha
          exact hBound a ha
      · intro a ha
        rw [lookupA_insertA]
        by_cases hcase : anc = a
        · rw [if_pos hcase]
          rfl
        · rw [if_neg hcase]
          apply hCover
          rcases ha with ha | ha | ha
          · exact Or.inl ha
          · exact Or.inr (Or.inl ha)
          · refine Or.inr (Or.inr ?_)
            simp only [keysOf, List.map_append, List.mem_append] at ha
            rcases ha with ha | ha
            · simpa [keysOf] using ha
            · have he2 : a = anc := by simpa [keysOf] using ha
              exact absurd he2.symm hcase

/-- Invariant of the outer fold of `get_descendants` over the out-edges of
`g`. -/
theorem desc_outer_fold {h : Hierarchy}
    (hnd : (edgePairs h).Nodup)
    (hmnd : ∀ t ∈ h.typings, nodupKeys t.mapping)
    (htot : ∀ t ∈ h.typings,
      (∀ x, (lookupA t.mapping x).isSome ↔ x ∈ nodeSet h t.source) ∧
      (∀ x y, lookupA t.mapping x = some y → y ∈ nodeSet h t.target))
    (hcomm : ∀ (a b : String) (es es' : List HTyping),
      PathTo h a b es → PathTo h a b es' → es ≠ [] → es' ≠ [] →
      ∀ x, lookupA (pathComp es) x = lookupA (pathComp es') x)
    (g : String) (fuel : Nat)
    (hsuc : ∀ s, (g, s) ∈ outEdges h g → descDict h s (getDescendantsF h fuel s))
    (ostep : List (String × Mapping) → String × String → List (String × Mapping))
    (hostep : ∀ (d : List (String × Mapping)) (p q : String), ostep d (p, q) =
      (getDescendantsF h fuel q).foldl (descInner h g q)
        (match lookupA d q with
         | some cur => insertA d q (updateA cur ((getTyping h g q).getD []))
         | none => insertA d q ((getTyping h g q).getD []))) :
    ∀ (rest P : List (String × String)) (d : List (String × Mapping)),
    outEdges h g = P ++ rest →
    descInvP h g P d →
    descInvP h g (P ++ rest) (rest.foldl ostep d) := by
  intro rest
  induction rest with
  | nil =>
    intro P d hdec hinv
    rw [List.foldl_nil, List.append_nil]
    exact hinv
  | cons pq rest' ih =>
    intro P d hdec hinv
    obtain ⟨p, q⟩ := pq
    have hmem_pq : (p, q) ∈ outEdges h g := by
      rw [hdec]
      exact List.mem_append.mpr (Or.inr (List.mem_cons_self _ _))
    rcases mem_outEdges.mp hmem_pq with ⟨e₀, he₀, hes, hesp, het⟩
    have hp : p = g := by rw [← hesp, hes]
    rw [hp] at hdec hmem_pq ⊢
    have hgt : (getTyping h g q).getD [] = e₀.mapping := by
      have hx := getTyping_self hnd he₀
      rw [hes, het] at hx
      rw [hx]
      rfl
    obtain ⟨hdN, hdV, hdK⟩ := hinv
    obtain ⟨hsdN, hsdV, hsdK⟩ := hsuc q hmem_pq
    have hsd' : descDict h q (getDescendantsF h fuel q) := ⟨hsdN, hsdV, hsdK⟩
    have he₀N : nodupKeys e₀.mapping := hmnd e₀ he₀
    have hpath0 : PathTo h g q [e₀] := by
      have hy := PathTo.cons e₀ he₀ (PathTo.nil e₀.target)
      rw [hes, het] at hy
      exact hy
    have hE : descEntryOK h g q e₀.mapping := by
      have hk := (htot e₀ he₀).1
      rw [hes] at hk
      refine ⟨he₀N, hk, fun es hpes hne x => ?_⟩
      have hq1 := hcomm g q [e₀] es hpath0 hpes (by simp) hne x
      rw [← hq1, pathComp_single]
    have htrans : ∀ a,
        ((lookupA d a).isSome ∨ a = q ∨ a ∈ keysOf (getDescendantsF h fuel q)) ↔
        (∃ e es, PathTo h g a (e :: es) ∧ (g, e.target) ∈ P ++ [(g, q)]) := by
      intro a
      constructor
      · rintro (ha | rfl | ha)
        · rcases (hdK a).mp ha with ⟨e, es, hp1, hp2⟩
          exact ⟨e, es, hp1, List.mem_append.mpr (Or.inl hp2)⟩
        · exact ⟨e₀, [], hpath0, List.mem_append.mpr (Or.inr (by simp [het]))⟩
        · have hsome := keysOf_isSome ha
          rcases (hsdK a).mp hsome with ⟨es, hne, hpes⟩
          have hx : PathTo h e₀.target a es := by
            rw [het]
            exact hpes
          have hy := PathTo.cons e₀ he₀ hx
          rw [hes] at hy
          exact ⟨e₀, es, hy, List.mem_append.mpr (Or.inr (by simp [het]))⟩
      · rintro ⟨e, es, hpath, hmem⟩
        rcases List.mem_append.mp hmem with hmem | hmem
        · exact Or.inl ((hdK a).mpr ⟨e, es, hpath, hmem⟩)
        · have hpair := List.mem_singleton.mp hmem
          have hetq2 : e.target = q := congrArg Prod.snd hpair
          rcases pathTo_cons_inv hpath with ⟨hemem, hesrc, hrest⟩
          rw [hetq2] at hrest
          cases es with
          | nil => exact Or.inr (Or.inl (pathTo_nil_inv hrest).symm)
          | cons e₂ es₂ =>
            exact Or.inr (Or.inr (isSome_mem_keysOf
              ((hsdK a).mpr ⟨e₂ :: es₂, by simp, hrest⟩)))
    have hstepinv : descInvP h g (P ++ [(g, q)]) (ostep d (g, q)) := by
      rw [hostep, hgt]
      cases hl : lookupA d q with
      | some cur =>
        obtain ⟨hcurN, hcurKeys, _⟩ := hdV q cur hl
        have hψφ : ∀ x, lookupA (updateA cur e₀.mapping) x
            = lookupA e₀.mapping x := by
          intro x
          cases hx : lookupA e₀.mapping x with
          | some v => exact lookupA_updateA_some _ he₀N hx
          | none =>
            rw [lookupA_updateA_none _ hx]
            have hnot : x ∉ nodeSet h g := by
              intro hmem
              have hcon := (hE.2.1 x).mpr hmem
              rw [hx] at hcon
              cases hcon
            cases hcx : lookupA cur x with
            | none => rfl
            | some w => exact absurd ((hcurKeys x).mp (by rw [hcx]; rfl)) hnot
        have hψOK : descEntryOK h g q (updateA cur e₀.mapping) := by
          refine ⟨nodupKeys_updateA _ _ hcurN, fun x => ?_, fun es hpes hne x => ?_⟩
          · rw [hψφ x]
            exact hE.2.1 x
          · rw [hψφ x]
            exact hE.2.2 es hpes hne x
        obtain ⟨hin1, hin2, hin3⟩ :=
          desc_inner_fold hmnd htot hcomm he₀ hes het hsd' d (descInner h g q)
            (by
              intro acc anc typ
              unfold descInner
              dsimp only
              cases lookupA acc anc <;> rw [hgt])
            (getDescendantsF h fuel q) [] (insertA d q (updateA cur e₀.mapping)) rfl
            (nodupKeys_insertA _ _ hdN)
            (by
              intro a m hm
              rw [lookupA_insertA] at hm
              by_cases hqa : q = a
              · rw [if_pos hqa] at hm
                injection hm with hm
                subst hqa
                exact hm ▸ hψOK
              · rw [if_neg hqa] at hm
                exact hdV a m hm)
            (by
              intro a ha
              rw [lookupA_insertA] at ha
              by_cases hqa : q = a
              · exact Or.inr (Or.inl hqa.symm)
              · rw [if_neg hqa] at ha
                exact Or.inl ha)
            (by
              intro a ha
              rw [lookupA_insertA]
              by_cases hqa : q = a
              · rw [if_pos hqa]
                rfl
              · rw [if_neg hqa]
                rcases ha with ha | ha | ha
                · exact ha
                · exact absurd ha.symm hqa
                · simp [keysOf] at ha)
        exact ⟨hin1, hin2, fun a => (hin3 a).trans (htrans a)⟩
      | none =>
        obtain ⟨hin1, hin2, hin3⟩ :=
          desc_inner_fold hmnd htot hcomm he₀ hes het hsd' d (descInner h g q)
            (by
              intro acc anc typ
              unfold descInner
              dsimp only
              cases lookupA acc anc <;> rw [hgt])
            (getDescendantsF h fuel q) [] (insertA d q e₀.mapping) rfl
            (nodupKeys_insertA _ _ hdN)
            (by
              intro a m hm
              rw [lookupA_insertA] at hm
              by_cases hqa : q = a
              · rw [if_pos hqa] at hm
                injection hm with hm
                subst hqa
                exact hm ▸ hE
              · rw [if_neg hqa] at hm
                exact hdV a m hm)
            (by
              intro a ha
              rw [lookupA_insertA] at ha
              by_cases hqa : q = a
              · exact Or.inr (Or.inl hqa.symm)
              · rw [if_neg hqa] at ha
                exact Or.inl ha)
            (by
              intro a ha
              rw [lookupA_insertA]
              by_cases hqa : q = a
              · rw [if_pos hqa]
                rfl
              · rw [if_neg hqa]
                rcases ha with ha | ha | ha
                · exact ha
                · exact absurd ha.symm hqa
                · simp [keysOf] at ha)
        exact ⟨hin1, hin2, fun a => (hin3 a).trans (htrans a)⟩
    have hdec' : outEdges h g = (P ++ [(g, q)]) ++ rest' := by
      rw [hdec, List.append_assoc, List.singleton_append]
    have HH := ih (P ++ [(g, q)]) (ostep d (g, q)) hdec' hstepinv
    rw [List.append_assoc, List.singleton_append] at HH
    rw [List.foldl_cons]
    exact HH

/-- Correctness of the fuelled `get_descendants` under the hierarchy
invariants, for every fuel dominating the length of every typing path out of
the origin graph. -/
theorem getDescendantsF_correct {h : Hierarchy}
    (hnd : (edgePairs h).Nodup)
    (hmnd : ∀ t ∈ h.typings, nodupKeys t.mapping)
    (htot : ∀ t ∈ h.typings,
      (∀ x, (lookupA t.mapping x).isSome ↔ x ∈ nodeSet h t.source) ∧
      (∀ x y, lookupA t.mapping x = some y → y ∈ nodeSet h t.target))
    (hcomm : ∀ (a b : String) (es es' : List HTyping),
      PathTo h a b es → PathTo h a b es' → es ≠ [] → es' ≠ [] →
      ∀ x, lookupA (pathComp es) x = lookupA (pathComp es') x) :
    ∀ (fuel : Nat) (g : String),
    (∀ (a : String) (es : List HTyping), PathTo h g a es → es.length < fuel) →
    descDict h g (getDescendantsF h fuel g) := by
  intro fuel
  induction fuel with
  | zero =>
    intro g hfuel
    exact absurd (hfuel g [] (PathTo.nil g)) (by omega)
  | succ fuel ih =>
    intro g hfuel
    have hsuc : ∀ s, (g, s) ∈ outEdges h g →
        descDict h s (getDescendantsF h fuel s) := by
      intro s hp
      rcases mem_outEdges.mp hp with ⟨e₀, he₀, hes, _, het⟩
      apply ih
      intro a es hpath
      have hx : PathTo h e₀.target a es := by
        rw [het]
        exact hpath
      have hy := PathTo.cons e₀ he₀ hx
      rw [hes] at hy
      have hlen := hfuel a (e₀ :: es) hy
      simp only [List.length_cons] at hlen
      omega
    have hostep : ∀ (d : List (String × Mapping)) (p q : String),
        (fun descendants (pe : String × String) =>
          let suc := pe.2
          let mapping := (getTyping h g suc).getD []
          let sucDescendants := getDescendantsF h fuel suc
          let descendants₁ :=
            match lookupA descendants suc with
            | some cur => insertA descendants suc (updateA cur mapping)
            | none => insertA descendants suc mapping
          sucDescendants.foldl
            (fun acc av =>
              match lookupA acc av.1 with
              | some cur => insertA acc av.1 (updateA cur (composeM mapping av.2))
              | none => insertA acc av.1 (composeM mapping av.2))
            descendants₁) d (p, q) =
        (getDescendantsF h fuel q).foldl (descInner h g q)
          (match lookupA d q with
           | some cur => insertA d q (updateA cur ((getTyping h g q).getD []))
           | none => insertA d q ((getTyping h g q).getD [])) := by
      intro d p q
      dsimp only
      congr 1
    have hinit : descInvP h g [] [] := by
      refine ⟨List.nodup_nil, ?_, ?_⟩
      · intro a m hm
        simp [lookupA] at hm
      · intro a
        constructor
        · intro ha
          simp [lookupA] at ha
        · rintro ⟨a2, e2, -, hmem⟩
          cases hmem
    have HH := desc_outer_fold hnd hmnd htot hcomm g fuel hsuc
      (fun descendants (pe : String × String) =>
        let suc := pe.2
        let mapping := (getTyping h g suc).getD []
        let sucDescendants := getDescendantsF h fuel suc
        let descendants₁ :=
          match lookupA descendants suc with
          | some cur => insertA descendants suc (updateA cur mapping)
          | none => insertA descendants suc mapping
        sucDescendants.foldl
          (fun acc av =>
            match lookupA acc av.1 with
            | some cur => insertA acc av.1 (updateA cur (composeM mapping av.2))
            | none => insertA acc av.1 (composeM mapping av.2))
          descendants₁)
      hostep (outEdges h g) [] [] (by rw [List.nil_append]) hinit
    rw [List.nil_append] at HH
    obtain ⟨H1, H2, H3⟩ := HH
    have H1' : nodupKeys (getDescendantsF h (fuel+1) g) := H1
    have H2' : ∀ a m, lookupA (getDescendantsF h (fuel+1) g) a = some m →
        descEntryOK h g a m := H2
    have H3' : ∀ a, (lookupA (getDescendantsF h (fuel+1) g) a).isSome ↔
        ∃ e es, PathTo h g a (e :: es) ∧ (g, e.target) ∈ outEdges h g := H3
    refine ⟨H1', H2', fun a => (H3' a).trans ?_⟩
    constructor
    · rintro ⟨e, es, hpath, _⟩
      exact ⟨e :: es, by simp, hpath⟩
    · rintro ⟨es, hne, hp⟩
      cases es with
      | nil => exact absurd rfl hne
      | cons e es₂ =>
        rcases pathTo_cons_inv hp with ⟨hemem, hesrc, _⟩
        exact ⟨e, es₂, hp, mem_outEdges.mpr ⟨e, hemem, hesrc, hesrc, rfl⟩⟩

/-- Correctness of `get_descendants` itself. -/
theorem getDescendants_correct {h : Hierarchy} (rank : String → Nat)
    (hrank : ∀ t ∈ h.typings, rank t.source < rank t.target)
    (hnd : (edgePairs h).Nodup)
    (hmnd : ∀ t ∈ h.typings, nodupKeys t.mapping)
    (htot : ∀ t ∈ h.typings,
      (∀ x, (lookupA t.mapping x).isSome ↔ x ∈ nodeSet h t.source) ∧
      (∀ x y, lookupA t.mapping x = some y → y ∈ nodeSet h t.target))
    (hcomm : ∀ (a b : String) (es es' : List HTyping),
      PathTo h a b es → PathTo h a b es' → es ≠ [] → es' ≠ [] →
      ∀ x, lookupA (pathComp es) x = lookupA (pathComp es') x)
    (g : String) : descDict h g (getDescendants h g) :=
  getDescendantsF_correct hnd hmnd htot hcomm (h.typings.length + 1) g
    (fun _ _ hp => Nat.lt_succ_of_le (pathTo_length_le rank hrank hp))

/-- C8: for every hierarchy satisfying the DAG invariant (strict rank),
duplicate-free typing edges, duplicate-free total typing mappings and
commuting path compositions, `get_ancestors(g)` has as keys exactly the
graphs with a nonempty typing path into `g`, each mapped to a dictionary that
agrees with the composition of the typing homomorphisms along every such
path; symmetrically `get_descendants(g)` has as keys exactly the graphs
reachable from `g`, mapped to the compositions of the typings out of `g`. -/
theorem c8_ancestors_descendants_correct (h : Hierarchy) (rank : String → Nat)
    (hrank : ∀ t ∈ h.typings, rank t.source < rank t.target)
    (hnd : (edgePairs h).Nodup)
    (hmnd : ∀ t ∈ h.typings, nodupKeys t.mapping)
    (htot : ∀ t ∈ h.typings,
      (∀ x, (lookupA t.mapping x).isSome ↔ x ∈ nodeSet h t.source) ∧
      (∀ x y, lookupA t.mapping x = some y → y ∈ nodeSet h t.target))
    (hcomm : ∀ (a b : String) (es es' : List HTyping),
      PathTo h a b es → PathTo h a b es' → es ≠ [] → es' ≠ [] →
      ∀ x, lookupA (pathComp es) x = lookupA (pathComp es') x)
    (g : String) :
    (∀ a, (lookupA (getAncestors h g) a).isSome ↔
      ∃ es, es ≠ [] ∧ PathTo h a g es) ∧
    (∀ a m es, lookupA (getAncestors h g) a = some m → PathTo h a g es →
      es ≠ [] → ∀ x, lookupA m x = lookupA (pathComp es) x) ∧
    (∀ a, (lookupA (getDescendants h g) a).isSome ↔
      ∃ es, es ≠ [] ∧ PathTo h g a es) ∧
    (∀ a m es, lookupA (getDescendants h g) a = some m → PathTo h g a es →
      es ≠ [] → ∀ x, lookupA m x = lookupA (pathComp es) x) := by
  obtain ⟨_, hav, hak⟩ := getAncestors_correct rank hrank hnd hmnd htot hcomm g
  obtain ⟨_, hdv, hdk⟩ := getDescendants_correct rank hrank hnd hmnd htot hcomm g
  exact ⟨hak, fun a m es hm hp hne => (hav a m hm).2.2 es hp hne,
    hdk, fun a m es hm hp hne => (hdv a m hm).2.2 es hp hne⟩

/-- The one typing edge of the C8 witness hierarchy. -/
def c8T : HTyping := ⟨"a", "b", [("x", "y")], []⟩

/-- C8 witness hierarchy: graphs `a` (node `x`) and `b` (node `y`), one total
typing `a → b`. -/
def c8WH : Hierarchy :=
  ⟨[⟨"a", ⟨[("x", [])], []⟩, []⟩, ⟨"b", ⟨[("y", [])], []⟩, []⟩], [c8T], []⟩

theorem c8WH_tot : ∀ t ∈ c8WH.typings,
    (∀ x, (lookupA t.mapping x).isSome ↔ x ∈ nodeSet c8WH t.source) ∧
    (∀ x y, lookupA t.mapping x = some y → y ∈ nodeSet c8WH t.target) := by
  intro t ht
  have ht2 : t = c8T := by simpa [c8WH] using ht
  subst ht2
  constructor
  · intro x
    show (lookupA [("x", "y")] x).isSome ↔ x ∈ nodeSet c8WH "a"
    have h1 : lookupA [("x", "y")] x = if "x" = x then some "y" else none := rfl
    have h2 : nodeSet c8WH "a" = ["x"] := rfl
    rw [h1, h2]
    by_cases hx : "x" = x
    · subst hx
      simp
    · rw [if_neg hx]
      simp only [Option.isSome_none, Bool.false_eq_true, false_iff,
        List.mem_singleton]
      exact fun he => hx he.symm
  · intro x y hxy
    show y ∈ nodeSet c8WH "b"
    have h2 : nodeSet c8WH "b" = ["y"] := rfl
    rw [h2]
    have h1 : lookupA [("x", "y")] x = if "x" = x then some "y" else none := rfl
    have hxy2 : (if "x" = x then some "y" else none) = some y := by
      rw [← h1]
      exact hxy
    by_cases hx : "x" = x
    · rw [if_pos hx] at hxy2
      injection hxy2 with hxy2
      simp [← hxy2]
    · rw [if_neg hx] at hxy2
      cases hxy2

theorem c8WH_path_unique : ∀ (a b : String) (es : List HTyping),
    PathTo c8WH a b es → es ≠ [] → es = [c8T] := by
  intro a b es hp hne
  cases es with
  | nil => exact absurd rfl hne
  | cons e es₂ =>
    rcases pathTo_cons_inv hp with ⟨hmem, _, hrest⟩
    have he : e = c8T := by simpa [c8WH] using hmem
    subst he
    cases es₂ with
    | nil => rfl
    | cons e₂ es₃ =>
      rcases pathTo_cons_inv hrest with ⟨hmem2, hsrc2, _⟩
      have he2 : e₂ = c8T := by simpa [c8WH] using hmem2
      rw [he2] at hsrc2
      exact absurd hsrc2 (by decide)

theorem c8WH_comm : ∀ (a b : String) (es es' : List HTyping),
    PathTo c8WH a b es → PathTo c8WH a b es' → es ≠ [] → es' ≠ [] →
    ∀ x, lookupA (pathComp es) x = lookupA (pathComp es') x := by
  intro a b es es' hp hp' hne hne' x
  rw [c8WH_path_unique a b es hp hne, c8WH_path_unique a b es' hp' hne']

/-- Witness for C8 on the concrete hierarchy `c8WH` at the graph `b`. -/
theorem c8_witness :
    (∀ a, (lookupA (getAncestors c8WH "b") a).isSome ↔
      ∃ es, es ≠ [] ∧ PathTo c8WH a "b" es) ∧
    (∀ a m es, lookupA (getAncestors c8WH "b") a = some m →
      PathTo c8WH a "b" es → es ≠ [] →
      ∀ x, lookupA m x = lookupA (pathComp es) x) ∧
    (∀ a, (lookupA (getDescendants c8WH "b") a).isSome ↔
      ∃ es, es ≠ [] ∧ PathTo c8WH "b" a es) ∧
    (∀ a m es, lookupA (getDescendants c8WH "b") a = some m →
      PathTo c8WH "b" a es → es ≠ [] →
      ∀ x, lookupA m x = lookupA (pathComp es) x) :=
  c8_ancestors_descendants_correct c8WH (fun s => if s = "b" then 1 else 0)
    (by decide) (by decide)
    (by
      intro t ht
      have ht2 : t = c8T := by simpa [c8WH] using ht
      subst ht2
      unfold nodupKeys
      decide)
    c8WH_tot c8WH_comm "b"

/-! Round-trip of the JSON serialization (claim C1). -/

theorem pathTo_single {h : Hierarchy} {t : HTyping} (ht : t ∈ h.typings) :
    PathTo h t.source t.target [t] :=
  PathTo.cons t ht (PathTo.nil t.target)

theorem pathTo_mono {h h' : Hierarchy}
    (hsub : ∀ e ∈ h'.typings, e ∈ h.typings) :
    ∀ {a b : String} {es : List HTyping}, PathTo h' a b es → PathTo h a b es := by
  intro a b es hp
  induction hp with
  | nil a => exact PathTo.nil a
  | cons e he _ ihe => exact PathTo.cons e (hsub e he) ihe

theorem getGraph_isSome {h : Hierarchy} {gid : String} (hm : gid ∈ graphIds h) :
    (getGraph h gid).isSome := by
  unfold graphIds at hm
  rcases List.mem_map.mp hm with ⟨g, hg, hid⟩
  unfold getGraph
  have hf : (h.graphs.find? (fun x => x.id = gid)).isSome := by
    rw [List.find?_isSome]
    exact ⟨g, hg, by simp [hid]⟩
  rcases Option.isSome_iff_exists.mp hf with ⟨g₂, hg₂⟩
  rw [hg₂]
  rfl

/-- Every element enumerated by `spAux` is a genuine typing path to `t`,
recorded as its vertex list. -/
theorem spAux_sound {h : Hierarchy} {t : String} :
    ∀ (fuel : Nat) (v : String) (π : List String),
    π ∈ spAux h t fuel v →
    ∃ es, es ≠ [] ∧ PathTo h v t es ∧ π = v :: es.map (fun e => e.target) := by
  intro fuel
  induction fuel with
  | zero =>
    intro v π hπ
    cases hπ
  | succ fuel ih =>
    intro v π hπ
    have main : ∀ (ws : List String), (∀ w ∈ ws, w ∈ successors h v) →
        π ∈ ws.foldr (fun w acc =>
          (if w = t then [[v, t]] else []) ++
          ((spAux h t fuel w).map (fun π₂ => v :: π₂)) ++ acc) [] →
        ∃ es, es ≠ [] ∧ PathTo h v t es ∧
          π = v :: es.map (fun e => e.target) := by
      intro ws
      induction ws with
      | nil =>
        intro _ hmem
        cases hmem
      | cons w ws₂ ihw =>
        intro hsub hmem
        rw [List.foldr_cons] at hmem
        rcases List.mem_append.mp hmem with hAB | hacc
        swap
        · exact ihw (fun w₂ hw₂ => hsub w₂ (List.mem_cons.mpr (Or.inr hw₂))) hacc
        rcases List.mem_append.mp hAB with hA | hB
        · by_cases hwt : w = t
          · rw [if_pos hwt] at hA
            have hπ2 : π = [v, t] := List.mem_singleton.mp hA
            have hw : w ∈ successors h v := hsub w (List.mem_cons_self _ _)
            rcases mem_successors_inv hw with ⟨e, he, hes, het⟩
            refine ⟨[e], by simp, ?_, ?_⟩
            · have hq := PathTo.cons e he (PathTo.nil e.target)
              rw [hes, het, hwt] at hq
              exact hq
            · rw [hπ2]
              simp [het, hwt]
          · rw [if_neg hwt] at hA
            cases hA
        · rcases List.mem_map.mp hB with ⟨π₂, hπ₂, hcons⟩
          rcases ih w π₂ hπ₂ with ⟨es₂, hne₂, hp₂, hv₂⟩
          have hw : w ∈ successors h v := hsub w (List.mem_cons_self _ _)
          rcases mem_successors_inv hw with ⟨e, he, hes, het⟩
          refine ⟨e :: es₂, by simp, ?_, ?_⟩
          · have hp₃ : PathTo h e.target t es₂ := by
              rw [het]
              exact hp₂
            have hq := PathTo.cons e he hp₃
            rw [hes] at hq
            exact hq
          · rw [← hcons, hv₂]
            simp [het]
    exact main (successors h v) (fun w hw => hw) hπ

theorem composePathGo_eq {h : Hierarchy} (hnd : (edgePairs h).Nodup) :
    ∀ (es : List HTyping) {b : String} (prev : String) (acc : Mapping),
    PathTo h prev b es →
    composePathGo h acc prev (es.map (fun e => e.target)) =
    es.foldl (fun a f => composeM a f.mapping) acc := by
  intro es
  induction es with
  | nil =>
    intro b prev acc _
    rfl
  | cons f rest ihe =>
    intro b prev acc hp
    rcases pathTo_cons_inv hp with ⟨hf, hfs, hrest⟩
    have hgt : getTyping h prev f.target = some f.mapping := by
      have hq := getTyping_self hnd hf
      rw [hfs] at hq
      exact hq
    show composePathGo h (composeM acc ((getTyping h prev f.target).getD []))
      f.target (rest.map (fun e => e.target)) = _
    rw [hgt]
    exact ihe f.target (composeM acc f.mapping) hrest

theorem composePathTyping_verts {h : Hierarchy} (hnd : (edgePairs h).Nodup) :
    ∀ {es : List HTyping} {v b : String}, PathTo h v b es → es ≠ [] →
    composePathTyping h (v :: es.map (fun e => e.target)) = pathComp es := by
  intro es v b hp hne
  cases es with
  | nil => exact absurd rfl hne
  | cons f rest =>
    rcases pathTo_cons_inv hp with ⟨hf, hfs, hrest⟩
    have hgt : getTyping h v f.target = some f.mapping := by
      have hq := getTyping_self hnd hf
      rw [hfs] at hq
      exact hq
    show composePathGo h ((getTyping h v f.target).getD []) f.target
      (rest.map (fun e => e.target)) = _
    rw [hgt]
    exact composePathGo_eq hnd rest f.target f.mapping hrest

theorem foldE_cons_ok {σ α : Type} {f : σ → α → Except Err σ} {s s' : σ}
    {x : α} {xs : List α} (hx : f s x = .ok s') :
    foldE f s (x :: xs) = foldE f s' xs := by
  show (match f s x with
    | .ok s2 => foldE f s2 xs
    | .error e => .error e) = _
  rw [hx]

/-- Replaying the `graphs` section of the serialized hierarchy rebuilds the
graph list. -/
theorem fromJson_phase1 {h : Hierarchy} (hgnd : (graphIds h).Nodup) :
    ∀ (rest done : List HGraph), h.graphs = done ++ rest →
    foldE (fun hh (gd : GraphEntryJson) =>
        if ignoreGraph none gd.id then pure hh
        else add_graph_from_json hh gd.id gd.graph gd.attrs)
      ⟨done, [], []⟩
      (rest.map (fun g => (⟨renameId none g.id, g.graph.toJson, g.attrs⟩ :
        GraphEntryJson))) =
    .ok ⟨h.graphs, [], []⟩ := by
  intro rest
  induction rest with
  | nil =>
    intro done hdone
    rw [List.map_nil]
    show Except.ok (⟨done, [], []⟩ : Hierarchy) = _
    rw [hdone, List.append_nil]
  | cons g rest' ihr =>
    intro done hdone
    have hids : ((done ++ g :: rest').map (fun x => x.id)).Nodup := by
      have hq : graphIds h = (done ++ g :: rest').map (fun x => x.id) := by
        unfold graphIds
        rw [hdone]
      rw [← hq]
      exact hgnd
    have hmem : g.id ∉ done.map (fun x => x.id) := by
      rw [List.map_append, List.nodup_append] at hids
      intro hin
      exact hids.2.2 hin (by simp)
    have hnotin : (graphIds (⟨done, [], []⟩ : Hierarchy)).contains g.id = false := by
      have hq : graphIds (⟨done, [], []⟩ : Hierarchy) = done.map (fun x => x.id) := rfl
      rw [hq]
      simpa using hmem
    have hstep :
        (if ignoreGraph none (renameId none g.id) then
          pure (⟨done, [], []⟩ : Hierarchy)
        else add_graph_from_json ⟨done, [], []⟩ (renameId none g.id)
          g.graph.toJson g.attrs)
        = Except.ok (⟨done ++ [g], [], []⟩ : Hierarchy) := by
      show add_graph_from_json ⟨done, [], []⟩ g.id g.graph.toJson g.attrs = _
      unfold add_graph_from_json add_graph_from_data
      rw [hnotin]
      rw [if_neg Bool.false_ne_true]
      rfl
    rw [List.map_cons, foldE_cons_ok hstep]
    exact ihr (done ++ [g]) (by rw [hdone, List.append_assoc, List.singleton_append])

/-- Replaying the `typing` section of the serialized hierarchy passes every
check of `add_typing` and rebuilds the typing list. -/
theorem fromJson_phase2 {h : Hierarchy} (rank : String → Nat)
    (hrank : ∀ t ∈ h.typings, rank t.source < rank t.target)
    (hnd : (edgePairs h).Nodup)
    (hends : ∀ t ∈ h.typings, t.source ∈ graphIds h ∧ t.target ∈ graphIds h)
    (hhom : ∀ t ∈ h.typings, checkHomB ((getGraph h t.source).getD ⟨[], []⟩)
      ((getGraph h t.target).getD ⟨[], []⟩) t.mapping = true)
    (hcomm : ∀ (a b : String) (es es' : List HTyping),
      PathTo h a b es → PathTo h a b es' → es ≠ [] → es' ≠ [] →
      ∀ x, lookupA (pathComp es) x = lookupA (pathComp es') x) :
    ∀ (rest done : List HTyping), h.typings = done ++ rest →
    foldE (fun hh (td : TypingEntryJson) =>
        if ignoreTyping none td.source td.target then pure hh
        else add_typing hh td.source td.target td.mapping td.attrs)
      ⟨h.graphs, done, []⟩
      (rest.map (fun t => (⟨renameId none t.source, renameId none t.target,
        t.mapping, t.attrs⟩ : TypingEntryJson))) =
    .ok ⟨h.graphs, h.typings, []⟩ := by
  intro rest
  induction rest with
  | nil =>
    intro done hdone
    rw [List.map_nil]
    show Except.ok (⟨h.graphs, done, []⟩ : Hierarchy) = _
    rw [hdone, List.append_nil]
  | cons t rest' ihr =>
    intro done hdone
    have ht : t ∈ h.typings := by
      rw [hdone]
      exact List.mem_append.mpr (Or.inr (List.mem_cons_self _ _))
    have hpairs : ((done.map (fun e => (e.source, e.target))) ++
        ((t.source, t.target) :: rest'.map (fun e => (e.source, e.target)))).Nodup := by
      have hq : edgePairs h = (done.map (fun e => (e.source, e.target))) ++
          ((t.source, t.target) :: rest'.map (fun e => (e.source, e.target))) := by
        unfold edgePairs
        rw [hdone, List.map_append, List.map_cons]
      rw [← hq]
      exact hnd
    have hsub : ∀ e ∈ (⟨h.graphs, done, []⟩ : Hierarchy).typings, e ∈ h.typings := by
      intro e he
      rw [hdone]
      exact List.mem_append.mpr (Or.inl he)
    have hndDone : (edgePairs (⟨h.graphs, done, []⟩ : Hierarchy)).Nodup := by
      have hq : edgePairs (⟨h.graphs, done, []⟩ : Hierarchy) =
          done.map (fun e => (e.source, e.target)) := rfl
      rw [hq]
      exact (List.nodup_append.mp hpairs).1
    have hfresh : getTyping (⟨h.graphs, done, []⟩ : Hierarchy) t.source t.target
        = none := by
      unfold getTyping
      have hq : (done.find? (fun e => e.source = t.source ∧ e.target = t.target))
          = none := by
        rw [List.find?_eq_none]
        intro e he
        simp only [decide_eq_true_eq, not_and]
        intro h1 h2
        have hin : (t.source, t.target) ∈
            done.map (fun e => (e.source, e.target)) :=
          List.mem_map.mpr ⟨e, he, by rw [h1, h2]⟩
        exact (List.nodup_append.mp hpairs).2.2 hin (List.mem_cons_self _ _)
      show ((done.find? (fun e => e.source = t.source ∧ e.target = t.target)).map
        (fun e => e.mapping)) = none
      rw [hq]
      rfl
    obtain ⟨gs, hgs⟩ := Option.isSome_iff_exists.mp (getGraph_isSome (hends t ht).1)
    obtain ⟨gt, hgt2⟩ := Option.isSome_iff_exists.mp (getGraph_isSome (hends t ht).2)
    have hhomB : checkHomB gs gt t.mapping = true := by
      have hq := hhom t ht
      rw [hgs, hgt2] at hq
      exact hq
    have htne : t.source ≠ t.target := by
      intro he
      have hl := hrank t ht
      rw [he] at hl
      exact lt_irrefl _ hl
    have hcycnil : simplePaths (⟨h.graphs, done, []⟩ : Hierarchy) t.target t.source
        = [] := by
      rw [List.eq_nil_iff_forall_not_mem]
      intro π hπ
      rcases spAux_sound _ _ _ hπ with ⟨es, hne, hp, _⟩
      have hp2 : PathTo h t.target t.source es := pathTo_mono hsub hp
      have h1 := pathTo_rank_lt rank hrank hp2 hne
      have h2 := hrank t ht
      omega
    have hall : ∀ π ∈ simplePaths (⟨h.graphs, done, []⟩ : Hierarchy)
        t.source t.target,
        mapEqOn gs.nodeIds
          (composePathTyping (⟨h.graphs, done, []⟩ : Hierarchy) π) t.mapping
          = true := by
      intro π hπ
      rcases spAux_sound _ _ _ hπ with ⟨es, hne, hp, hπv⟩
      have hcpt : composePathTyping (⟨h.graphs, done, []⟩ : Hierarchy) π
          = pathComp es := by
        rw [hπv]
        exact composePathTyping_verts hndDone hp hne
      have hp2 : PathTo h t.source t.target es := pathTo_mono hsub hp
      have heq : ∀ x, lookupA (pathComp es) x = lookupA t.mapping x := by
        intro x
        have hq := hcomm t.source t.target es [t] hp2 (pathTo_single ht)
          hne (by simp) x
        rw [hq]
        rfl
      rw [hcpt]
      unfold mapEqOn
      rw [List.all_eq_true]
      intro n _
      rw [heq n]
      exact beq_self_eq_true _
    have hallB : (simplePaths (⟨h.graphs, done, []⟩ : Hierarchy)
        t.source t.target).all
        (fun π => mapEqOn gs.nodeIds
          (composePathTyping (⟨h.graphs, done, []⟩ : Hierarchy) π) t.mapping)
        = true := by
      rw [List.all_eq_true]
      exact hall
    have hstep :
        (if ignoreTyping none (renameId none t.source) (renameId none t.target) then
          pure (⟨h.graphs, done, []⟩ : Hierarchy)
        else add_typing ⟨h.graphs, done, []⟩ (renameId none t.source)
          (renameId none t.target) t.mapping t.attrs)
        = Except.ok (⟨h.graphs, done ++ [t], []⟩ : Hierarchy) := by
      show add_typing ⟨h.graphs, done, []⟩ t.source t.target t.mapping t.attrs = _
      unfold add_typing
      have hgs' : getGraph (⟨h.graphs, done, []⟩ : Hierarchy) t.source
          = some gs := hgs
      have hgt' : getGraph (⟨h.graphs, done, []⟩ : Hierarchy) t.target
          = some gt := hgt2
      rw [hgs', hgt']
      dsimp only
      simp only [hfresh, Option.isSome_none]
      rw [if_neg Bool.false_ne_true]
      simp only [hhomB, Bool.not_true]
      rw [if_neg Bool.false_ne_true]
      simp only [hcycnil, List.isEmpty_nil, Bool.not_true, Bool.or_false]
      rw [if_neg (by
        simp only [decide_eq_true_eq]
        exact htne)]
      simp only [hallB, Bool.not_true]
      rw [if_neg Bool.false_ne_true]
    rw [List.map_cons, foldE_cons_ok hstep]
    exact ihr (done ++ [t]) (by rw [hdone, List.append_assoc, List.singleton_append])

theorem map_pair_eta {α β : Type} :
    ∀ (l : List (α × β)), l.map (fun kv => (kv.1, kv.2)) = l := by
  intro l
  induction l with
  | nil => rfl
  | cons p rest ih =>
    rw [List.map_cons, ih]

theorem find?_rel_self {r : HRel} :
    ∀ {l : List HRel},
    l.Pairwise (fun r₁ r₂ =>
      ¬(r₁.left = r₂.left ∧ r₁.right = r₂.right) ∧
      ¬(r₁.left = r₂.right ∧ r₁.right = r₂.left)) →
    r ∈ l → l.find? (fun e => e.left = r.left ∧ e.right = r.right) = some r := by
  intro l
  induction l with
  | nil =>
    intro _ hm
    cases hm
  | cons x xs ih =>
    intro hpw hm
    rw [List.pairwise_cons] at hpw
    rcases List.mem_cons.mp hm with rfl | hm
    · simp [List.find?]
    · have hne : ¬(x.left = r.left ∧ x.right = r.right) := (hpw.1 r hm).1
      simp only [List.find?, decide_eq_false hne]
      exact ih hpw.2 hm

theorem getRelation_self {h : Hierarchy}
    (hpw : h.relations.Pairwise (fun r₁ r₂ =>
      ¬(r₁.left = r₂.left ∧ r₁.right = r₂.right) ∧
      ¬(r₁.left = r₂.right ∧ r₁.right = r₂.left)))
    {r : HRel} (hr : r ∈ h.relations) :
    getRelation h r.left r.right = some r.rel := by
  unfold getRelation
  rw [find?_rel_self hpw hr]

/-- Under the once-per-pair invariant the serialized relation list is just
the stored relation list (each unordered pair emitted exactly once). -/
theorem toJson_rel_fold {h : Hierarchy}
    (hpw : h.relations.Pairwise (fun r₁ r₂ =>
      ¬(r₁.left = r₂.left ∧ r₁.right = r₂.right) ∧
      ¬(r₁.left = r₂.right ∧ r₁.right = r₂.left))) :
    ∀ (rest done : List HRel) (vis : List (String × String))
      (E : List RelEntryJson),
    h.relations = done ++ rest →
    (∀ x ∈ vis, ∃ r ∈ done, x = (r.left, r.right)) →
    (rest.foldl
      (fun (st : List (String × String) × List RelEntryJson) r =>
        if st.1.contains (r.left, r.right) || st.1.contains (r.right, r.left) then st
        else ((r.left, r.right) :: st.1,
          st.2 ++ [⟨renameId none r.left, renameId none r.right,
            ((getRelation h r.left r.right).getD []).map (fun kv => (kv.1, kv.2)),
            r.attrs⟩]))
      (vis, E)).2
    = E ++ rest.map (fun r =>
        (⟨r.left, r.right, r.rel, r.attrs⟩ : RelEntryJson)) := by
  intro rest
  induction rest with
  | nil =>
    intro done vis E _ _
    simp
  | cons r rest' ihr =>
    intro done vis E hdone hvis
    have hr : r ∈ h.relations := by
      rw [hdone]
      exact List.mem_append.mpr (Or.inr (List.mem_cons_self _ _))
    have hpw2 : ∀ r₂ ∈ done,
        ¬(r₂.left = r.left ∧ r₂.right = r.right) ∧
        ¬(r₂.left = r.right ∧ r₂.right = r.left) := by
      have hq := hpw
      rw [hdone, List.pairwise_append] at hq
      intro r₂ hr₂
      exact hq.2.2 r₂ hr₂ r (List.mem_cons_self _ _)
    have h1 : (r.left, r.right) ∉ vis := by
      intro hin
      rcases hvis _ hin with ⟨r₂, hr₂, hx⟩
      injection hx with e1 e2
      exact (hpw2 r₂ hr₂).1 ⟨e1.symm, e2.symm⟩
    have h2 : (r.right, r.left) ∉ vis := by
      intro hin
      rcases hvis _ hin with ⟨r₂, hr₂, hx⟩
      injection hx with e1 e2
      exact (hpw2 r₂ hr₂).2 ⟨e1.symm, e2.symm⟩
    have hcheck : (vis.contains (r.left, r.right)
        || vis.contains (r.right, r.left)) = false := by
      simp [h1, h2]
    have hentry : (⟨renameId none r.left, renameId none r.right,
        ((getRelation h r.left r.right).getD []).map (fun kv => (kv.1, kv.2)),
        r.attrs⟩ : RelEntryJson) = ⟨r.left, r.right, r.rel, r.attrs⟩ := by
      rw [getRelation_self hpw hr]
      show (⟨r.left, r.right, r.rel.map (fun kv => (kv.1, kv.2)), r.attrs⟩ :
        RelEntryJson) = _
      rw [map_pair_eta]
    rw [List.foldl_cons]
    dsimp only
    simp only [hcheck]
    rw [if_neg Bool.false_ne_true, hentry]
    rw [ihr (done ++ [r]) ((r.left, r.right) :: vis)
      (E ++ [(⟨r.left, r.right, r.rel, r.attrs⟩ : RelEntryJson)])
      (by rw [hdone, List.append_assoc, List.singleton_append])
      (by
        intro x hx
        rcases List.mem_cons.mp hx with rfl | hx
        · exact ⟨r, List.mem_append.mpr (Or.inr (List.mem_cons_self _ _)), rfl⟩
        · rcases hvis x hx with ⟨r₂, hr₂, hx₂⟩
          exact ⟨r₂, List.mem_append.mpr (Or.inl hr₂), hx₂⟩)]
    rw [List.map_cons, List.append_assoc, List.singleton_append]

/-- Replaying the `relations` section of the serialized hierarchy passes
every check of `add_relation` and rebuilds the relation list. -/
theorem fromJson_phase3 {h : Hierarchy}
    (hpw : h.relations.Pairwise (fun r₁ r₂ =>
      ¬(r₁.left = r₂.left ∧ r₁.right = r₂.right) ∧
      ¬(r₁.left = r₂.right ∧ r₁.right = r₂.left)))
    (hrelends : ∀ r ∈ h.relations, r.left ∈ graphIds h ∧ r.right ∈ graphIds h)
    (hrelrange : ∀ r ∈ h.relations,
      (r.rel.all (fun kv =>
        ((getGraph h r.left).getD ⟨[], []⟩).nodeIds.contains kv.1 &&
        kv.2.all (fun v =>
          ((getGraph h r.right).getD ⟨[], []⟩).nodeIds.contains v))) = true) :
    ∀ (rest done : List HRel), h.relations = done ++ rest →
    foldE (fun hh (rd : RelEntryJson) =>
        if ignoreRelation none rd.left rd.right then pure hh
        else if (relationPairs hh).contains (rd.left, rd.right) then pure hh
        else add_relation hh rd.left rd.right rd.rel rd.attrs)
      ⟨h.graphs, h.typings, done⟩
      (rest.map (fun r => (⟨r.left, r.right, r.rel, r.attrs⟩ : RelEntryJson))) =
    .ok ⟨h.graphs, h.typings, h.relations⟩ := by
  intro rest
  induction rest with
  | nil =>
    intro done hdone
    rw [List.map_nil]
    show Except.ok (⟨h.graphs, h.typings, done⟩ : Hierarchy) = _
    rw [hdone, List.append_nil]
  | cons r rest' ihr =>
    intro done hdone
    have hr : r ∈ h.relations := by
      rw [hdone]
      exact List.mem_append.mpr (Or.inr (List.mem_cons_self _ _))
    have hpw2 : ∀ r₂ ∈ done,
        ¬(r₂.left = r.left ∧ r₂.right = r.right) ∧
        ¬(r₂.left = r.right ∧ r₂.right = r.left) := by
      have hq := hpw
      rw [hdone, List.pairwise_append] at hq
      intro r₂ hr₂
      exact hq.2.2 r₂ hr₂ r (List.mem_cons_self _ _)
    have h1 : (r.left, r.right) ∉ done.map (fun e => (e.left, e.right)) := by
      intro hin
      rcases List.mem_map.mp hin with ⟨r₂, hr₂, hx⟩
      injection hx with e1 e2
      exact (hpw2 r₂ hr₂).1 ⟨e1, e2⟩
    have h2 : (r.right, r.left) ∉ done.map (fun e => (e.left, e.right)) := by
      intro hin
      rcases List.mem_map.mp hin with ⟨r₂, hr₂, hx⟩
      injection hx with e1 e2
      exact (hpw2 r₂ hr₂).2 ⟨e1, e2⟩
    have hrp : relationPairs (⟨h.graphs, h.typings, done⟩ : Hierarchy)
        = done.map (fun e => (e.left, e.right)) := rfl
    have hskip : (relationPairs
        (⟨h.graphs, h.typings, done⟩ : Hierarchy)).contains (r.left, r.right)
        = false := by
      rw [hrp]
      simpa using h1
    have hor : ((relationPairs
          (⟨h.graphs, h.typings, done⟩ : Hierarchy)).contains (r.left, r.right)
        || (relationPairs
          (⟨h.graphs, h.typings, done⟩ : Hierarchy)).contains (r.right, r.left))
        = false := by
      rw [hrp]
      simp [h1, h2]
    obtain ⟨gl, hgl⟩ := Option.isSome_iff_exists.mp
      (getGraph_isSome (hrelends r hr).1)
    obtain ⟨gr, hgr⟩ := Option.isSome_iff_exists.mp
      (getGraph_isSome (hrelends r hr).2)
    have hrange : (r.rel.all (fun kv =>
        gl.nodeIds.contains kv.1 &&
        kv.2.all (fun v => gr.nodeIds.contains v))) = true := by
      have hq := hrelrange r hr
      rw [hgl, hgr] at hq
      exact hq
    have hstep :
        (if ignoreRelation none r.left r.right then
          pure (⟨h.graphs, h.typings, done⟩ : Hierarchy)
        else if (relationPairs
            (⟨h.graphs, h.typings, done⟩ : Hierarchy)).contains (r.left, r.right)
          then pure ⟨h.graphs, h.typings, done⟩
        else add_relation ⟨h.graphs, h.typings, done⟩ r.left r.right r.rel r.attrs)
        = Except.ok (⟨h.graphs, h.typings, done ++ [r]⟩ : Hierarchy) := by
      show (if (relationPairs
            (⟨h.graphs, h.typings, done⟩ : Hierarchy)).contains (r.left, r.right)
            = true
          then pure (⟨h.graphs, h.typings, done⟩ : Hierarchy)
        else add_relation ⟨h.graphs, h.typings, done⟩ r.left r.right r.rel r.attrs)
        = _
      simp only [hskip]
      rw [if_neg Bool.false_ne_true]
      unfold add_relation
      have hgl' : getGraph (⟨h.graphs, h.typings, done⟩ : Hierarchy) r.left
          = some gl := hgl
      have hgr' : getGraph (⟨h.graphs, h.typings, done⟩ : Hierarchy) r.right
          = some gr := hgr
      rw [hgl', hgr']
      dsimp only
      simp only [hor]
      rw [if_neg Bool.false_ne_true]
      simp only [hrange, Bool.not_true]
      rw [if_neg Bool.false_ne_true]
    rw [List.map_cons, foldE_cons_ok hstep]
    exact ihr (done ++ [r])
      (by rw [hdone, List.append_assoc, List.singleton_append])

theorem toJson_relations_eq {h : Hierarchy}
    (hpw : h.relations.Pairwise (fun r₁ r₂ =>
      ¬(r₁.left = r₂.left ∧ r₁.right = r₂.right) ∧
      ¬(r₁.left = r₂.right ∧ r₁.right = r₂.left))) :
    (toJson h none).relations = h.relations.map (fun r =>
      (⟨r.left, r.right, r.rel, r.attrs⟩ : RelEntryJson)) := by
  have hq := toJson_rel_fold hpw h.relations [] [] []
    rfl (by intro x hx; cases hx)
  rw [List.nil_append] at hq
  exact hq

/-- C1: for every hierarchy satisfying the hierarchy invariants, `to_json`
serializes every relation pair exactly once, and `from_json` of the
serialization with an empty ignore argument rebuilds the hierarchy exactly:
the same graphs with their attributes, the same typing edges with their
mappings and attributes, and the same relations with their attributes. -/
theorem c1_json_roundtrip (h : Hierarchy) (rank : String → Nat)
    (hrank : ∀ t ∈ h.typings, rank t.source < rank t.target)
    (hgnd : (graphIds h).Nodup)
    (hnd : (edgePairs h).Nodup)
    (hends : ∀ t ∈ h.typings, t.source ∈ graphIds h ∧ t.target ∈ graphIds h)
    (hhom : ∀ t ∈ h.typings, checkHomB ((getGraph h t.source).getD ⟨[], []⟩)
      ((getGraph h t.target).getD ⟨[], []⟩) t.mapping = true)
    (hcomm : ∀ (a b : String) (es es' : List HTyping),
      PathTo h a b es → PathTo h a b es' → es ≠ [] → es' ≠ [] →
      ∀ x, lookupA (pathComp es) x = lookupA (pathComp es') x)
    (hpw : h.relations.Pairwise (fun r₁ r₂ =>
      ¬(r₁.left = r₂.left ∧ r₁.right = r₂.right) ∧
      ¬(r₁.left = r₂.right ∧ r₁.right = r₂.left)))
    (hrelends : ∀ r ∈ h.relations, r.left ∈ graphIds h ∧ r.right ∈ graphIds h)
    (hrelrange : ∀ r ∈ h.relations,
      (r.rel.all (fun kv =>
        ((getGraph h r.left).getD ⟨[], []⟩).nodeIds.contains kv.1 &&
        kv.2.all (fun v =>
          ((getGraph h r.right).getD ⟨[], []⟩).nodeIds.contains v))) = true) :
    (toJson h none).relations = h.relations.map (fun r =>
      (⟨r.left, r.right, r.rel, r.attrs⟩ : RelEntryJson)) ∧
    fromJson (toJson h none) none = .ok h := by
  have hrel := toJson_relations_eq hpw
  refine ⟨hrel, ?_⟩
  have h1 : foldE (fun hh (gd : GraphEntryJson) =>
      if ignoreGraph none gd.id then pure hh
      else add_graph_from_json hh gd.id gd.graph gd.attrs)
    ⟨[], [], []⟩ (toJson h none).graphs = .ok ⟨h.graphs, [], []⟩ :=
    fromJson_phase1 hgnd h.graphs [] rfl
  have h2 : foldE (fun hh (td : TypingEntryJson) =>
      if ignoreTyping none td.source td.target then pure hh
      else add_typing hh td.source td.target td.mapping td.attrs)
    ⟨h.graphs, [], []⟩ (toJson h none).typing = .ok ⟨h.graphs, h.typings, []⟩ :=
    fromJson_phase2 rank hrank hnd hends hhom hcomm h.typings [] rfl
  have h3 : foldE (fun hh (rd : RelEntryJson) =>
      if ignoreRelation none rd.left rd.right then pure hh
      else if (relationPairs hh).contains (rd.left, rd.right) then pure hh
      else add_relation hh rd.left rd.right rd.rel rd.attrs)
    ⟨h.graphs, h.typings, []⟩
    (h.relations.map (fun r => (⟨r.left, r.right, r.rel, r.attrs⟩ : RelEntryJson)))
    = .ok ⟨h.graphs, h.typings, h.relations⟩ :=
    fromJson_phase3 hpw hrelends hrelrange h.relations [] rfl
  unfold fromJson
  simp only [h1, bind_ok, h2, hrel, h3]
  show Except.ok (⟨h.graphs, h.typings, h.relations⟩ : Hierarchy) = _
  rfl

/-- The one typing edge of the C1 witness hierarchy. -/
def c1T : HTyping := ⟨"a", "b", [("x", "y")], []⟩

/-- C1 witness hierarchy: graphs `a` (node `x`) and `b` (node `y`), a total
typing `a → b` and a relation between `a` and `b`. -/
def c1H : Hierarchy :=
  ⟨[⟨"a", ⟨[("x", [])], []⟩, []⟩, ⟨"b", ⟨[("y", [])], []⟩, []⟩],
   [c1T], [⟨"a", "b", [("x", ["y"])], []⟩]⟩

theorem c1H_path_unique : ∀ (a b : String) (es : List HTyping),
    PathTo c1H a b es → es ≠ [] → es = [c1T] := by
  intro a b es hp hne
  cases es with
  | nil => exact absurd rfl hne
  | cons e es₂ =>
    rcases pathTo_cons_inv hp with ⟨hmem, _, hrest⟩
    have he : e = c1T := by simpa [c1H] using hmem
    subst he
    cases es₂ with
    | nil => rfl
    | cons e₂ es₃ =>
      rcases pathTo_cons_inv hrest with ⟨hmem2, hsrc2, _⟩
      have he2 : e₂ = c1T := by simpa [c1H] using hmem2
      rw [he2] at hsrc2
      exact absurd hsrc2 (by decide)

theorem c1H_comm : ∀ (a b : String) (es es' : List HTyping),
    PathTo c1H a b es → PathTo c1H a b es' → es ≠ [] → es' ≠ [] →
    ∀ x, lookupA (pathComp es) x = lookupA (pathComp es') x := by
  intro a b es es' hp hp' hne hne' x
  rw [c1H_path_unique a b es hp hne, c1H_path_unique a b es' hp' hne']

/-- Witness for C1 on the concrete hierarchy `c1H`. -/
theorem c1_witness :
    (toJson c1H none).relations = c1H.relations.map (fun r =>
      (⟨r.left, r.right, r.rel, r.attrs⟩ : RelEntryJson)) ∧
    fromJson (toJson c1H none) none = .ok c1H :=
  c1_json_roundtrip c1H (fun s => if s = "b" then 1 else 0)
    (by decide) (by decide) (by decide) (by decide) (by decide)
    c1H_comm (by decide) (by decide) (by decide)




end ReGraph
